import Mathlib

/-! pnelson/metrics: a shallow embedding of the windowed metrics engine.

Modelling conventions.

* `float64` values are exact rationals (`ℚ`); NaN, infinities and rounding are outside the model.
* `uint64` counts are natural numbers, every increment and sum reduced modulo `2 ^ 64`.
* A Go `string` is the list of its bytes (`Str`); all keys used below are ASCII.
* A Go `map[string]T` is an association list (`GoMap T`) read by first match and
  written by overwrite-or-append, so maps built by the code have distinct keys.
* A `[]Bucket` slice is `nil` (`none`) or a reference (`some r`) to a backing array
  held in an explicit heap: the code shares bucket slices between the configuration
  table and histograms, so aliasing is part of the state.
* A Go panic is the result `none`.
* Locks are not modelled: every operation is one atomic step on the engine state.
-/

namespace GoMetrics

/-! ## Strings, maps, the heap of bucket arrays -/

/-- A Go string, as its sequence of bytes. -/
abbrev Str := List Char

/-- A Go `map[string]T`. -/
abbrev GoMap (α : Type) := List (Str × α)

/-- The map read `v, ok := m[k]`. -/
def GoMap.get {α : Type} : GoMap α → Str → Option α
  | [], _ => none
  | (k', v) :: rest, k => if k' = k then some v else GoMap.get rest k

/-- The map write `m[k] = v`. -/
def GoMap.set {α : Type} : GoMap α → Str → α → GoMap α
  | [], k, v => [(k, v)]
  | (k', v') :: rest, k, v =>
    if k' = k then (k, v) :: rest else (k', v') :: GoMap.set rest k v

/-- The modulus of `uint64` arithmetic. -/
def u64 : Nat := 18446744073709551616

/-- The `uint64` increment `n++`. -/
def incr (n : Nat) : Nat := (n + 1) % u64

/-! ## bucket.go -/

/-- Bucket is a count of samples that fall between the range of the values from the
previous bucket, if any, up to and including the value of this bucket. -/
structure Bucket where
  Value : ℚ
  Count : Nat := 0
deriving DecidableEq, Repr

/-- The backing arrays of all bucket slices, indexed by reference. -/
abbrev Heap := List (List Bucket)

/-- A `[]Bucket` slice value: `nil`, or a reference to its backing array. -/
abbrev Slice := Option Nat

/-- The elements of a slice (`nil` has none). -/
def Heap.read (heap : Heap) : Slice → List Bucket
  | none => []
  | some r => heap.getD r []

/-- Allocation of a new backing array (`make`), giving the slice over it. -/
def Heap.alloc (heap : Heap) (bs : List Bucket) : Slice × Heap :=
  (some heap.length, heap ++ [bs])

/-- The default bucket values for measuring response time latency. -/
def defaultLatencyBucketValues : List ℚ :=
  [1, 3, 5, 7, 10, 15, 20, 25, 30, 35, 40, 45, 50, 60, 70, 80, 90, 100, 125, 150, 175,
   200, 225, 250, 275, 300, 350, 400, 450, 500, 600, 700, 800, 900, 1000, 1250, 1500,
   1750, 2000, 2250, 2500, 2750, 3000, 4000, 5000, 6000, 7000, 8000, 9000, 10000]

/-- The contents of the slice made by `NewDefaultLatencyBuckets`. -/
def defaultLatencyBuckets : List Bucket :=
  defaultLatencyBucketValues.map fun v => { Value := v }

/-- NewDefaultLatencyBuckets returns a freshly allocated set of latency buckets. -/
def NewDefaultLatencyBuckets (heap : Heap) : Slice × Heap :=
  heap.alloc defaultLatencyBuckets

/-- The contents of the slice made by `NewLinearBuckets` (`none`: `make` panics on a
negative count). -/
def NewLinearBuckets (offset width : ℚ) (count : Int) : Option (List Bucket) :=
  if count < 0 then none
  else some ((List.range count.toNat).map fun i => { Value := offset + width * (i : ℚ) })

/-! ## counter.go -/

/-- The key suffix of counters. -/
def kindCounter : Str := ":counter".toList

/-- Counter implements a counter that is reset to zero at the beginning of each interval. -/
structure Counter where
  Min : ℚ := 0
  Max : ℚ := 0
  Value : ℚ := 0
  Count : Nat := 0
deriving DecidableEq, Repr

/-- Add adds the value. -/
def Counter.Add (m : Counter) (value : ℚ) : Counter :=
  { Min := if value < m.Min ∨ m.Count = 0 then value else m.Min
    Max := if value > m.Max ∨ m.Count = 0 then value else m.Max
    Value := m.Value + value
    Count := incr m.Count }

/-- NewCounter returns a new counter initialized at value. -/
def NewCounter (value : ℚ) : Counter :=
  if value ≠ 0 then Counter.Add {} value else {}

/-! ## gauge.go -/

/-- The key suffix of gauges. -/
def kindGauge : Str := ":gauge".toList

/-- Gauge implements a numerical value that can be set directly. -/
structure Gauge where
  Min : ℚ := 0
  Max : ℚ := 0
  Value : ℚ := 0
  Count : Nat := 0
deriving DecidableEq, Repr

/-- Set sets the gauge value. -/
def Gauge.Set (m : Gauge) (value : ℚ) : Gauge :=
  { Min := if value < m.Min ∨ m.Count = 0 then value else m.Min
    Max := if value > m.Max ∨ m.Count = 0 then value else m.Max
    Value := value
    Count := incr m.Count }

/-- NewGauge returns a new gauge initialized at value. -/
def NewGauge (value : ℚ) : Gauge :=
  if value ≠ 0 then Gauge.Set {} value else {}

/-! ## histogram.go -/

/-- The key suffix of histograms. -/
def kindHistogram : Str := ":histogram".toList

/-- Histogram represents a distribution of metrics that count the number of values that
fall within configured buckets. `Buckets` is a slice: the counts live in the heap. -/
structure Histogram where
  Min : ℚ := 0
  Max : ℚ := 0
  Count : Nat := 0
  Dropped : Nat := 0
  Buckets : Slice := none
deriving DecidableEq, Repr

/-- The loop `for _, b := range buckets { m.Count += b.Count }` of NewHistogram. -/
def sumCounts (acc : Nat) : List Bucket → Nat
  | [] => acc
  | b :: bs => sumCounts ((acc + b.Count) % u64) bs

/-- NewHistogram returns a new histogram over the given slice; a `nil` slice is
replaced by freshly allocated default latency buckets. The slice is not copied. -/
def NewHistogram (buckets : Slice) (heap : Heap) : Histogram × Heap :=
  let r : Slice × Heap :=
    match buckets with
    | none => NewDefaultLatencyBuckets heap
    | some b => (some b, heap)
  ({ Buckets := r.1, Count := sumCounts 0 (r.2.read r.1) }, r.2)

/-- The bucket scan of `Histogram.Put`: the first bucket whose bound is at least the
value gets its count incremented; `none` when no bucket has such a bound. -/
def putBuckets (value : ℚ) : List Bucket → Option (List Bucket)
  | [] => none
  | b :: bs =>
    if value ≤ b.Value then some ({ b with Count := incr b.Count } :: bs)
    else (putBuckets value bs).map fun bs' => b :: bs'

/-- Put adds value as a sample: the histogram fields and its backing array change. -/
def Histogram.Put (m : Histogram) (heap : Heap) (value : ℚ) : Histogram × Heap :=
  let m1 : Histogram :=
    { m with
      Min := if value < m.Min ∨ m.Count = 0 then value else m.Min
      Max := if value > m.Max ∨ m.Count = 0 then value else m.Max
      Count := incr m.Count }
  match m.Buckets with
  | none => ({ m1 with Dropped := incr m1.Dropped }, heap)
  | some r =>
    match putBuckets value (heap.getD r []) with
    | some bs => (m1, heap.set r bs)
    | none => ({ m1 with Dropped := incr m1.Dropped }, heap)

/-! ## Key paths (metrics.go, with Go's `path.Join`) -/

/-- The elements of a path: the pieces between its slashes. -/
def splitSlash : Str → List Str
  | [] => [[]]
  | c :: cs =>
    if c = '/' then [] :: splitSlash cs
    else
      match splitSlash cs with
      | [] => [[c]]
      | e :: es => (c :: e) :: es

/-- Path elements written out with one slash between neighbours. -/
def joinSlash : List Str → Str
  | [] => []
  | [e] => e
  | e :: es => e ++ '/' :: joinSlash es

/-- The element loop of Go's `path.Clean`, on a stack of kept elements (newest first):
empty and `.` elements are skipped, `..` removes the newest kept element, is dropped at
the root of a rooted path and is kept at the front of a relative one. -/
def cleanElems (rooted : Bool) : List Str → List Str → List Str
  | [], st => st
  | e :: es, st =>
    if e = [] ∨ e = ['.'] then cleanElems rooted es st
    else if e = ['.', '.'] then
      match st with
      | top :: below =>
        if top = ['.', '.'] then cleanElems rooted es (e :: st)
        else cleanElems rooted es below
      | [] => if rooted then cleanElems rooted es [] else cleanElems rooted es [e]
    else cleanElems rooted es (e :: st)

/-- Go's `path.Clean`: the shortest path name equivalent to `path`. -/
def Clean (path : Str) : Str :=
  if path = [] then ['.']
  else
    let rooted : Bool := path.head? = some '/'
    let body := joinSlash (cleanElems rooted (splitSlash path) []).reverse
    let out := if rooted then '/' :: body else body
    if out = [] then ['.'] else out

/-- Go's `path.Join`: leading empty elements are ignored, the rest is joined with
slashes and cleaned; the result is empty when every element is empty. -/
def Join : List Str → Str
  | [] => []
  | e :: es => if e = [] then Join es else Clean (joinSlash (e :: es))

/-- The function keyPath returns a rooted path to the key; it panics on an empty key.
The source also writes `"/" + key[0]` back into the caller's slice; operations here take
the key by value, and `keyPath_rewritten` shows that the rewritten slice has the same path. -/
def keyPath (key : List Str) : Option Str :=
  match key with
  | [] => none
  | k0 :: rest => some (Join (('/' :: k0) :: rest))

/-! ## interval.go -/

/-- A value stored in an interval's `map[string]any`: a pointer to one of the three
metric kinds. -/
inductive Metric where
  | counter (c : Counter)
  | gauge (g : Gauge)
  | histogram (h : Histogram)
deriving DecidableEq, Repr

/-- Interval represents an aggregated interval for the window. -/
structure Interval where
  time : Int
  metrics : GoMap Metric := []
deriving DecidableEq, Repr

/-- The function newInterval returns a new interval of aggregated metrics. -/
def newInterval (t : Int) : Interval := { time := t, metrics := [] }

/-- Time returns the interval time. -/
def Interval.Time (i : Interval) : Int := i.time

/-- Counter returns the counter at key if it exists. -/
def Interval.Counter (i : Interval) (key : List Str) : Option GoMetrics.Counter :=
  match keyPath key with
  | none => none
  | some p =>
    match i.metrics.get (p ++ kindCounter) with
    | none => some {}
    | some (Metric.counter c) => some { Value := c.Value, Count := c.Count }
    | some _ => none

/-- Gauge returns the gauge at key if it exists. -/
def Interval.Gauge (i : Interval) (key : List Str) : Option GoMetrics.Gauge :=
  match keyPath key with
  | none => none
  | some p =>
    match i.metrics.get (p ++ kindGauge) with
    | none => some {}
    | some (Metric.gauge g) =>
      some { Min := g.Min, Max := g.Max, Value := g.Value, Count := g.Count }
    | some _ => none

/-- A histogram returned by value together with its own bucket array (`none`: a nil
slice), as the getter `Interval.Histogram` hands it to the caller. -/
structure HistogramValue where
  Min : ℚ := 0
  Max : ℚ := 0
  Count : Nat := 0
  Dropped : Nat := 0
  Buckets : Option (List Bucket) := none
deriving DecidableEq, Repr

/-- Histogram returns the histogram at key if it exists; its buckets are copied into a
new array. -/
def Interval.Histogram (i : Interval) (heap : Heap) (key : List Str) :
    Option HistogramValue :=
  match keyPath key with
  | none => none
  | some p =>
    match i.metrics.get (p ++ kindHistogram) with
    | none => some {}
    | some (Metric.histogram h) =>
      some { Min := h.Min, Max := h.Max, Count := h.Count, Dropped := h.Dropped,
             Buckets := some (heap.read h.Buckets) }
    | some _ => none

/-! ## metrics.go -/

/-- Metrics represents the central manager of metrics activity. Next to the fields of
the source it holds the capacity of the `intervals` slice, the variable `t` captured
by the rotation goroutine, and the heap of bucket arrays. -/
structure Metrics where
  window : Int
  interval : Int
  buckets : GoMap Slice := []
  intervals : List Interval
  cap : Nat
  t : Int
  heap : Heap := []
deriving DecidableEq, Repr

/-- New returns a new metrics manager, created when the clock reads `now`. It panics
when `interval` is zero (division) or when the capacity `window/interval` is below the
initial length 1 (`make`). `Truncate` leaves the time unchanged for a period `≤ 0`. -/
def New (window interval now : Int) : Option Metrics :=
  if interval = 0 then none
  else if Int.tdiv window interval < 1 then none
  else
    let t := (if interval ≤ 0 then now else now - now % interval) + interval
    some { window := window, interval := interval, buckets := [],
           intervals := [newInterval t], cap := (Int.tdiv window interval).toNat,
           t := t, heap := [] }

/-- The builtin `copy(xs, xs[1:])`: every element moves one slot toward the head and the
last slot keeps its old content. -/
def copyShift {α : Type} (xs : List α) : List α :=
  xs.drop 1 ++ xs.drop (xs.length - 1)

/-- One pass of the rotation loop of `New`, after `time.After(interval)` has fired: a new
empty interval one period later is appended, or, at capacity, written over the last slot
after the shift. It panics on a ring of length and capacity zero. -/
def Metrics.rotate (m : Metrics) : Option Metrics :=
  let t := m.t + m.interval
  let i := newInterval t
  if m.intervals.length = m.cap then
    if m.intervals.length = 0 then none
    else some { m with t := t,
                       intervals := (copyShift m.intervals).set (m.intervals.length - 1) i }
  else some { m with t := t, intervals := m.intervals ++ [i] }

/-- The current interval `m.intervals[len(m.intervals)-1]`; the index panics on an empty
ring. -/
def Metrics.current (m : Metrics) : Option Interval :=
  m.intervals.getLast?

/-- A write `i.metrics[k] = v` through the pointer `i` to the current interval `cur`:
the last slot of the ring now shows the updated map. -/
def Metrics.setCurrent (m : Metrics) (cur : Interval) (metrics : GoMap Metric) : Metrics :=
  { m with intervals := m.intervals.dropLast ++ [{ cur with metrics := metrics }] }

/-- Add adds value to key. -/
def Metrics.Add (m : Metrics) (key : List Str) (value : ℚ) : Option Metrics :=
  match keyPath key with
  | none => none
  | some p =>
    let k := p ++ kindCounter
    match m.current with
    | none => none
    | some i =>
      match i.metrics.get k with
      | none => some (m.setCurrent i (i.metrics.set k (Metric.counter (NewCounter value))))
      | some (Metric.counter c) =>
        some (m.setCurrent i (i.metrics.set k (Metric.counter (c.Add value))))
      | some _ => none

/-- Set sets key to value. -/
def Metrics.Set (m : Metrics) (key : List Str) (value : ℚ) : Option Metrics :=
  match keyPath key with
  | none => none
  | some p =>
    let k := p ++ kindGauge
    match m.current with
    | none => none
    | some i =>
      match i.metrics.get k with
      | none => some (m.setCurrent i (i.metrics.set k (Metric.gauge (NewGauge value))))
      | some (Metric.gauge g) =>
        some (m.setCurrent i (i.metrics.set k (Metric.gauge (g.Set value))))
      | some _ => none

/-- The backward loop of prevGaugeValue over the earlier intervals, newest first. -/
def prevGaugeLoop (key : Str) : List Interval → Option ℚ
  | [] => some 0
  | i :: older =>
    match i.metrics.get key with
    | none => prevGaugeLoop key older
    | some (Metric.gauge g) => some g.Value
    | some _ => none

/-- The method prevGaugeValue: the gauge value stored at key in the newest interval
before the current one that has an entry at key, and 0 when there is none. -/
def Metrics.prevGaugeValue (m : Metrics) (key : Str) : Option ℚ :=
  if m.intervals.length < 2 then some 0
  else prevGaugeLoop key m.intervals.dropLast.reverse

/-- Mod modifies key by relative value. -/
def Metrics.Mod (m : Metrics) (key : List Str) (value : ℚ) : Option Metrics :=
  match keyPath key with
  | none => none
  | some p =>
    let k := p ++ kindGauge
    match m.current with
    | none => none
    | some i =>
      match i.metrics.get k with
      | none =>
        match m.prevGaugeValue k with
        | none => none
        | some prev =>
          some (m.setCurrent i (i.metrics.set k (Metric.gauge (NewGauge (prev + value)))))
      | some (Metric.gauge g) =>
        some (m.setCurrent i (i.metrics.set k (Metric.gauge (g.Set (g.Value + value)))))
      | some _ => none

/-- The inner loop of bucketsFor: the number of leading positions at which `k` and `s`
agree, stopping at the first difference or at the end of either. (The source ranges over
the runes of `k`; on ASCII strings these are its bytes.) -/
def matchLen : Str → Str → Nat
  | c :: k, d :: s => if c = d then matchLen k s + 1 else 0
  | _, _ => 0

/-- Bytewise lexicographic order of strings, as used by `sort.Strings`. -/
def strLe : Str → Str → Bool
  | [], _ => true
  | _ :: _, [] => false
  | c :: k, d :: s => if c = d then strLe k s else decide (c.toNat < d.toNat)

/-- The outer loop of bucketsFor over the sorted keys, carrying `longestPrefix`. -/
def longestPrefixLoop (s : Str) : List Str → Str → Str
  | [], longestPrefix => longestPrefix
  | k :: keys, longestPrefix =>
    if matchLen k s > longestPrefix.length then longestPrefixLoop s keys k
    else longestPrefixLoop s keys longestPrefix

/-- The key that bucketsFor selects from the configuration table (empty: none). -/
def longestPrefixOf (buckets : GoMap Slice) (s : Str) : Str :=
  longestPrefixLoop s ((buckets.map Prod.fst).insertionSort fun a b => strLe a b = true) []

/-- The method bucketsFor returns the histogram buckets for the composite key `s`; the
default buckets are allocated afresh, a configured slice is returned as it is stored. -/
def Metrics.bucketsFor (m : Metrics) (s : Str) : Slice × Heap :=
  if m.buckets.length = 0 then NewDefaultLatencyBuckets m.heap
  else
    let longestPrefix := longestPrefixOf m.buckets s
    if longestPrefix = [] then NewDefaultLatencyBuckets m.heap
    else ((m.buckets.get longestPrefix).getD none, m.heap)

/-- Put adds value as a sample for key. -/
def Metrics.Put (m : Metrics) (key : List Str) (value : ℚ) : Option Metrics :=
  match keyPath key with
  | none => none
  | some p =>
    let k := p ++ kindHistogram
    match m.current with
    | none => none
    | some i =>
      match i.metrics.get k with
      | none =>
        let b := m.bucketsFor k
        let v := NewHistogram b.1 b.2
        let w := v.1.Put v.2 value
        some { m.setCurrent i (i.metrics.set k (Metric.histogram w.1)) with heap := w.2 }
      | some (Metric.histogram h) =>
        let w := h.Put m.heap value
        some { m.setCurrent i (i.metrics.set k (Metric.histogram w.1)) with heap := w.2 }
      | some _ => none

/-- Buckets sets the initial buckets for histograms at the key prefix. The caller's
slice is `nil` (`none`) or a slice over an array of its own, which enters the heap; the
table keeps that slice, not a copy of its elements. -/
def Metrics.Buckets (m : Metrics) (key : List Str) (buckets : Option (List Bucket)) :
    Option Metrics :=
  match keyPath key with
  | none => none
  | some k =>
    match buckets with
    | none => some { m with buckets := m.buckets.set k none }
    | some bs =>
      let a := m.heap.alloc bs
      some { m with buckets := m.buckets.set k a.1, heap := a.2 }

/-! ## Runs of operations -/

/-- The calls `Add(key, v1) ... Add(key, vn)` in order. -/
def Metrics.addAll (m : Metrics) (key : List Str) : List ℚ → Option Metrics
  | [] => some m
  | v :: vs => (m.Add key v).bind fun m' => Metrics.addAll m' key vs

/-- The calls `Set(key, v1) ... Set(key, vn)` in order. -/
def Metrics.setAll (m : Metrics) (key : List Str) : List ℚ → Option Metrics
  | [] => some m
  | v :: vs => (m.Set key v).bind fun m' => Metrics.setAll m' key vs

/-- The calls `Mod(key, d1) ... Mod(key, dn)` in order. -/
def Metrics.modAll (m : Metrics) (key : List Str) : List ℚ → Option Metrics
  | [] => some m
  | v :: vs => (m.Mod key v).bind fun m' => Metrics.modAll m' key vs

/-- The calls `Put(key, v1) ... Put(key, vn)` in order. -/
def Metrics.putAll (m : Metrics) (key : List Str) : List ℚ → Option Metrics
  | [] => some m
  | v :: vs => (m.Put key v).bind fun m' => Metrics.putAll m' key vs

/-! ## Notions used to state the properties -/

/-- The key suffix that names the kind of a stored metric. -/
def Metric.kind : Metric → Str
  | Metric.counter _ => kindCounter
  | Metric.gauge _ => kindGauge
  | Metric.histogram _ => kindHistogram

/-- Every entry of the interval is stored under a key that ends in the suffix of its own
kind, as all entries written by Add, Set, Mod and Put are. -/
def Interval.WellKinded (i : Interval) : Prop :=
  ∀ e ∈ i.metrics, e.2.kind <:+ e.1

/-- Every interval of the ring is well kinded. -/
def Metrics.WellKinded (m : Metrics) : Prop :=
  ∀ i ∈ m.intervals, i.WellKinded

/-- The gauge an interval holds for the composite key `k`, if it holds one. -/
def Interval.gaugeAt (i : Interval) (k : Str) : Option GoMetrics.Gauge :=
  match i.metrics.get k with
  | some (Metric.gauge g) => some g
  | _ => none

/-- The seed of a relative update, in the words of the specification: the gauge value for
`k` in the most recent earlier interval of the ring that holds a gauge for `k`, and 0 if
no earlier interval holds one. -/
def seedValue (intervals : List Interval) (k : Str) : ℚ :=
  match (intervals.dropLast.reverse.filterMap fun i => i.gaugeAt k).head? with
  | some g => g.Value
  | none => 0

/-- The least of the values `v, vs`. -/
def minOf (v : ℚ) (vs : List ℚ) : ℚ := vs.foldl min v

/-- The greatest of the values `v, vs`. -/
def maxOf (v : ℚ) (vs : List ℚ) : ℚ := vs.foldl max v

/-- The ring after `k` rotation steps. -/
def Metrics.rotateN : Nat → Metrics → Option Metrics
  | 0, m => some m
  | k + 1, m => (Metrics.rotateN k m).bind Metrics.rotate

/-- The engine states that arise from `New` by rotations and calls of the write API. -/
inductive Reachable : Metrics → Prop where
  | init (window interval now : Int) (m : Metrics) :
      New window interval now = some m → Reachable m
  | rotate (m m' : Metrics) : Reachable m → m.rotate = some m' → Reachable m'
  | add (m m' : Metrics) (key : List Str) (v : ℚ) :
      Reachable m → m.Add key v = some m' → Reachable m'
  | set (m m' : Metrics) (key : List Str) (v : ℚ) :
      Reachable m → m.Set key v = some m' → Reachable m'
  | mod (m m' : Metrics) (key : List Str) (v : ℚ) :
      Reachable m → m.Mod key v = some m' → Reachable m'
  | put (m m' : Metrics) (key : List Str) (v : ℚ) :
      Reachable m → m.Put key v = some m' → Reachable m'
  | buckets (m m' : Metrics) (key : List Str) (bs : Option (List Bucket)) :
      Reachable m → m.Buckets key bs = some m' → Reachable m'

instance (i : Interval) : Decidable i.WellKinded := by
  unfold Interval.WellKinded
  infer_instance

instance (m : Metrics) : Decidable m.WellKinded := by
  unfold Metrics.WellKinded
  infer_instance

/-- The times of the intervals of the ring, oldest first. -/
def Metrics.times (m : Metrics) : List Int := m.intervals.map Interval.time

/-- The shape of the ring is the same in both states: capacity, period, the scheduler's
clock and the interval times. -/
def SameRing (m m' : Metrics) : Prop :=
  m'.cap = m.cap ∧ m'.t = m.t ∧ m'.interval = m.interval ∧ m'.times = m.times

/-- The ring invariant: the ring is non-empty and within capacity, its last interval
carries the scheduler's time, and neighbours are exactly one period apart. -/
def RingInv (m : Metrics) : Prop :=
  m.times ≠ [] ∧ m.times.length ≤ m.cap ∧ m.times.getLast? = some m.t ∧
    List.Chain' (fun a b => b = a + m.interval) m.times

/-- An engine state with two intervals, the earlier one holding a gauge of value 4. -/
def exampleRing : Metrics :=
  { window := 100, interval := 10, cap := 10, t := 20,
    intervals :=
      [{ time := 10,
         metrics := [("/test:gauge".toList,
                      Metric.gauge { Min := 3, Max := 5, Value := 4, Count := 3 })] },
       { time := 20, metrics := [] }] }

/-- The engine made by `New` for a window of 100 and a period of 10 at clock reading 1234. -/
def exampleNew : Metrics :=
  { window := 100, interval := 10, cap := 10, t := 1240, intervals := [newInterval 1240] }

/-- The effect of `Histogram.Put` on the bucket array alone: one count goes up, or the
array stays as it is when the sample is dropped. -/
def putArray (bs : List Bucket) (value : ℚ) : List Bucket :=
  (putBuckets value bs).getD bs

/-- One `Histogram.Put` on a histogram written next to the contents of its bucket array. -/
def putDetached (s : Histogram × List Bucket) (value : ℚ) : Histogram × List Bucket :=
  let m1 : Histogram :=
    { s.1 with
      Min := if value < s.1.Min ∨ s.1.Count = 0 then value else s.1.Min
      Max := if value > s.1.Max ∨ s.1.Count = 0 then value else s.1.Max
      Count := incr s.1.Count }
  match putBuckets value s.2 with
  | some bs => (m1, bs)
  | none => ({ m1 with Dropped := incr m1.Dropped }, s.2)

/-- The sample `x` belongs to bucket `j` of the bounds, in the words of the specification:
`bound(j-1) < x ≤ bound(j)`, and for `j = 0` just `x ≤ bound(0)`. -/
def fallsIn (bounds : List ℚ) (j : Nat) (x : ℚ) : Bool :=
  decide (x ≤ bounds.getD j 0) && (j == 0 || decide (bounds.getD (j - 1) 0 < x))

/-- The sample `x` exceeds every bound. -/
def exceedsAll (bounds : List ℚ) (x : ℚ) : Bool :=
  bounds.all fun b => decide (b < x)

/-- The current interval of `m` holds at the composite key `k` the histogram `s.1`, whose
slice refers to a live backing array with contents `s.2`. -/
def HistAt (m : Metrics) (k : Str) (s : Histogram × List Bucket) : Prop :=
  ∃ cur r, m.current = some cur ∧ cur.metrics.get k = some (Metric.histogram s.1) ∧
    s.1.Buckets = some r ∧ r < m.heap.length ∧ m.heap.getD r [] = s.2

/-- An interval that holds a counter, a gauge and a histogram under different paths. -/
def exampleMixedCur : Interval :=
  { time := 20,
    metrics :=
      [("/c:counter".toList, Metric.counter { Min := 1, Max := 2, Value := 3, Count := 2 }),
       ("/g:gauge".toList, Metric.gauge { Min := 3, Max := 5, Value := 4, Count := 3 }),
       ("/h:histogram".toList,
        Metric.histogram { Min := 2, Max := 2, Count := 1, Buckets := some 0 })] }

/-- An engine state whose current interval is `exampleMixedCur`. -/
def exampleMixed : Metrics :=
  { window := 100, interval := 10, cap := 10, t := 20, intervals := [exampleMixedCur],
    heap := [[{ Value := 1, Count := 0 }, { Value := 5, Count := 1 }]] }

/-- The interval `exampleMixedCur` after `Add(["c"], 1)`. -/
def exampleMixedAddedCur : Interval :=
  { time := 20,
    metrics :=
      [("/c:counter".toList, Metric.counter { Min := 1, Max := 2, Value := 4, Count := 3 }),
       ("/g:gauge".toList, Metric.gauge { Min := 3, Max := 5, Value := 4, Count := 3 }),
       ("/h:histogram".toList,
        Metric.histogram { Min := 2, Max := 2, Count := 1, Buckets := some 0 })] }

/-- The state `exampleMixed` after `Add(["c"], 1)`. -/
def exampleMixedAdded : Metrics :=
  { exampleMixed with intervals := [exampleMixedAddedCur] }

/-- Window represents the entire window of intervals, as `Metrics.Window` returns it. Its
histograms keep their slices, so their bucket counts are read through the heap. -/
structure Window where
  Duration : Int
  Intervals : List Interval
deriving DecidableEq, Repr

/-- The copy `c := new(T); *c = *t` that `Metrics.Window` makes of a stored metric: a new
object with the same field values. For a histogram the field `Buckets` is the slice
itself, so the copy refers to the same backing array. -/
def copyMetric : Metric → Metric
  | Metric.counter t => Metric.counter { Min := t.Min, Max := t.Max, Value := t.Value,
                                         Count := t.Count }
  | Metric.gauge t => Metric.gauge { Min := t.Min, Max := t.Max, Value := t.Value,
                                     Count := t.Count }
  | Metric.histogram t => Metric.histogram { Min := t.Min, Max := t.Max, Count := t.Count,
                                             Dropped := t.Dropped, Buckets := t.Buckets }

/-- Window returns a copy of the windowed intervals. Durations are nanoseconds;
`int(m.window.Seconds())` is the whole number of seconds in the window. -/
def Metrics.Window (m : Metrics) : GoMetrics.Window :=
  { Duration := Int.tdiv m.window 1000000000,
    Intervals := m.intervals.map fun i =>
      { time := i.time, metrics := i.metrics.map fun e => (e.1, copyMetric e.2) } }

/-! ## The wire format (interval.go, bucket.go, with Go's `encoding/json`)

JSON texts are taken as already parsed into values. A number carries its exact value
and, as far as the decoders tell number texts apart, its form: a `float64` field takes a
number in every form, a `uint64` field only a run of digits, an `int64` or `int` field a
run of digits with or without a minus sign in front. The encoders write counts, times and
durations as such runs of digits; the form in which they write a `float64` is not
modelled (`Json.num` stands for it), and such a number is read back by `float64` fields
only. Field names are compared after ASCII lower-casing. A returned error is `none` for
the decoders of plain values and `Outcome.err` where a panic is possible as well. -/

/-- A JSON value. A number is `num q` when its text is a run of digits, with a minus sign
in front of a negative value, or when its value is not whole; `numFloat q` when its text
has a fraction or an exponent, as in `1.0` and `1e2`; `minusZero` when its text is
`-0`. For a value that is not whole the decoders take `num` and `numFloat` alike. -/
inductive Json where
  | null
  | bool (b : Bool)
  | num (q : ℚ)
  | numFloat (q : ℚ)
  | minusZero
  | str (s : Str)
  | arr (xs : List Json)
  | obj (kvs : List (Str × Json))

/-- The three ways a call can end: it returns a value with a nil error, it returns an
error, or it panics. -/
inductive Outcome (α : Type) where
  | ok (a : α)
  | err
  | panic
deriving DecidableEq, Repr

/-- The instant of the Unix epoch, in nanoseconds since the zero time. -/
def unixEpoch : Int := 62135596800000000000

/-- The method `Time.UnixMilli`: whole milliseconds since the Unix epoch. -/
def unixMilli (t : Int) : Int := Int.fdiv (t - unixEpoch) 1000000

/-- The function `time.UnixMilli`: the instant that many milliseconds after the epoch. -/
def fromUnixMilli (ms : Int) : Int := ms * 1000000 + unixEpoch

/-- The JSON key `key` names the struct field `name` (written in lower case). -/
def fieldIs (key name : Str) : Bool := key.map Char.toLower = name

/-- Decoding into a `float64` field: a number in any form is stored, `null` leaves the
field. -/
def decodeFloat64 (old : ℚ) : Json → Option ℚ
  | Json.num q => some q
  | Json.numFloat q => some q
  | Json.minusZero => some 0
  | Json.null => some old
  | _ => none

/-- Decoding into a `uint64` field, with `strconv.ParseUint`: the text has to be a run of
digits with a value in range; a text with a sign, a fraction or an exponent is an error
whatever its value. -/
def decodeUint64 (old : Nat) : Json → Option Nat
  | Json.num q => if q.den = 1 ∧ 0 ≤ q.num ∧ q.num < u64 then some q.num.toNat else none
  | Json.null => some old
  | _ => none

/-- Decoding into an `int64` (or `int`) field, with `strconv.ParseInt`: the text has to be
a run of digits, with or without a minus sign, with a value in range; a text with a
fraction or an exponent is an error whatever its value. -/
def decodeInt64 (old : Int) : Json → Option Int
  | Json.num q =>
    if q.den = 1 ∧ -9223372036854775808 ≤ q.num ∧ q.num < 9223372036854775808 then some q.num
    else none
  | Json.minusZero => some 0
  | Json.null => some old
  | _ => none

/-- The members of a JSON object are decoded in order into a struct; the first member
that does not fit its field makes the whole decoding an error. -/
def foldFields {α : Type} (f : α → Str × Json → Option α) : α → List (Str × Json) → Option α
  | a, [] => some a
  | a, e :: es => (f a e).bind fun a' => foldFields f a' es

/-- One member of a counter payload. -/
def decodeCounterField (c : Counter) (e : Str × Json) : Option Counter :=
  if fieldIs e.1 "min".toList then (decodeFloat64 c.Min e.2).map fun x => { c with Min := x }
  else if fieldIs e.1 "max".toList then
    (decodeFloat64 c.Max e.2).map fun x => { c with Max := x }
  else if fieldIs e.1 "value".toList then
    (decodeFloat64 c.Value e.2).map fun x => { c with Value := x }
  else if fieldIs e.1 "count".toList then
    (decodeUint64 c.Count e.2).map fun x => { c with Count := x }
  else some c

/-- The call `json.Unmarshal(v, new(Counter))`. -/
def decodeCounter : Json → Option Counter
  | Json.obj kvs => foldFields decodeCounterField {} kvs
  | Json.null => some {}
  | _ => none

/-- One member of a gauge payload. -/
def decodeGaugeField (c : Gauge) (e : Str × Json) : Option Gauge :=
  if fieldIs e.1 "min".toList then (decodeFloat64 c.Min e.2).map fun x => { c with Min := x }
  else if fieldIs e.1 "max".toList then
    (decodeFloat64 c.Max e.2).map fun x => { c with Max := x }
  else if fieldIs e.1 "value".toList then
    (decodeFloat64 c.Value e.2).map fun x => { c with Value := x }
  else if fieldIs e.1 "count".toList then
    (decodeUint64 c.Count e.2).map fun x => { c with Count := x }
  else some c

/-- The call `json.Unmarshal(v, new(Gauge))`. -/
def decodeGauge : Json → Option Gauge
  | Json.obj kvs => foldFields decodeGaugeField {} kvs
  | Json.null => some {}
  | _ => none

/-- One member of a JSON object decoded into a `Bucket`, by its field names `Value` and
`Count`. -/
def decodeBucketField (b : Bucket) (e : Str × Json) : Option Bucket :=
  if fieldIs e.1 "value".toList then
    (decodeFloat64 b.Value e.2).map fun x => { b with Value := x }
  else if fieldIs e.1 "count".toList then
    (decodeUint64 b.Count e.2).map fun x => { b with Count := x }
  else some b

/-- Decoding into a `Bucket`. The type has `MarshalJSON` but no `UnmarshalJSON`, so it is
decoded as a struct: from a JSON object or `null`; any other value, an array among them,
is an error. -/
def decodeBucket : Json → Option Bucket
  | Json.obj kvs => foldFields decodeBucketField { Value := 0 } kvs
  | Json.null => some { Value := 0 }
  | _ => none

/-- Decoding the elements of a JSON array into buckets. -/
def decodeBucketList : List Json → Option (List Bucket)
  | [] => some []
  | x :: xs => (decodeBucket x).bind fun b => (decodeBucketList xs).map fun bs => b :: bs

/-- One member of a histogram payload; an array of buckets is stored in a new array, and
`null` makes the slice `nil`. -/
def decodeHistogramField (s : Histogram × Heap) (e : Str × Json) : Option (Histogram × Heap) :=
  if fieldIs e.1 "min".toList then
    (decodeFloat64 s.1.Min e.2).map fun x => ({ s.1 with Min := x }, s.2)
  else if fieldIs e.1 "max".toList then
    (decodeFloat64 s.1.Max e.2).map fun x => ({ s.1 with Max := x }, s.2)
  else if fieldIs e.1 "count".toList then
    (decodeUint64 s.1.Count e.2).map fun x => ({ s.1 with Count := x }, s.2)
  else if fieldIs e.1 "dropped".toList then
    (decodeUint64 s.1.Dropped e.2).map fun x => ({ s.1 with Dropped := x }, s.2)
  else if fieldIs e.1 "buckets".toList then
    match e.2 with
    | Json.arr xs =>
      (decodeBucketList xs).map fun bs => ({ s.1 with Buckets := (s.2.alloc bs).1 }, (s.2.alloc bs).2)
    | Json.null => some ({ s.1 with Buckets := none }, s.2)
    | _ => none
  else some s

/-- The call `json.Unmarshal(v, new(Histogram))`. -/
def decodeHistogram (heap : Heap) : Json → Option (Histogram × Heap)
  | Json.obj kvs => foldFields decodeHistogramField ({}, heap) kvs
  | Json.null => some ({}, heap)
  | _ => none

/-- The function `strings.Index(k, ":")` for a one-byte substring: the index of its first
occurrence, or -1. -/
def stringsIndex (c : Char) : Str → Int
  | [] => -1
  | d :: ks => if d = c then 0 else if stringsIndex c ks < 0 then -1 else stringsIndex c ks + 1

/-- The slice expression `k[n:]`; it panics when `n` is out of range. -/
def sliceFrom (k : Str) (n : Int) : Option Str :=
  if n < 0 ∨ (k.length : Int) < n then none else some (k.drop n.toNat)

/-- The kind switch of `Interval.UnmarshalJSON`: the new zero metric chosen for the key
`k` from `k[strings.Index(k, ":"):]`, or `none` when the slice expression or the default
case panics. -/
def newMetricFor (k : Str) : Option Metric :=
  match sliceFrom k (stringsIndex ':' k) with
  | none => none
  | some s =>
    if s = kindCounter then some (Metric.counter {})
    else if s = kindGauge then some (Metric.gauge {})
    else if s = kindHistogram then some (Metric.histogram {})
    else none

/-- The call `json.Unmarshal(v, metrics[k])` on the new zero metric. -/
def decodeMetric (heap : Heap) (target : Metric) (v : Json) : Option (Metric × Heap) :=
  match target with
  | Metric.counter _ => (decodeCounter v).map fun c => (Metric.counter c, heap)
  | Metric.gauge _ => (decodeGauge v).map fun g => (Metric.gauge g, heap)
  | Metric.histogram _ => (decodeHistogram heap v).map fun r => (Metric.histogram r.1, r.2)

/-- The loop of `Interval.UnmarshalJSON` over the raw metrics. -/
def unmarshalLoop : Heap → List (Str × Json) → GoMap Metric → Outcome (GoMap Metric × Heap)
  | heap, [], acc => Outcome.ok (acc, heap)
  | heap, e :: rest, acc =>
    match newMetricFor e.1 with
    | none => Outcome.panic
    | some target =>
      match decodeMetric heap target e.2 with
      | none => Outcome.err
      | some r => unmarshalLoop r.2 rest (acc.set e.1 r.1)

/-- One member of the JSON object decoded into the struct `m` of
`Interval.UnmarshalJSON`: `Time int64` and `Metrics map[string]json.RawMessage`. An object
is decoded into the map that is there, and `null` makes the map `nil`. -/
def decodeHeaderField (s : Int × GoMap Json) (e : Str × Json) : Option (Int × GoMap Json) :=
  if fieldIs e.1 "time".toList then (decodeInt64 s.1 e.2).map fun t => (t, s.2)
  else if fieldIs e.1 "metrics".toList then
    match e.2 with
    | Json.obj kvs => some (s.1, kvs.foldl (fun acc kv => acc.set kv.1 kv.2) s.2)
    | Json.null => some (s.1, [])
    | _ => none
  else some s

/-- The call `json.Unmarshal(b, &m)` of `Interval.UnmarshalJSON`. -/
def decodeHeader : Json → Option (Int × GoMap Json)
  | Json.obj kvs => foldFields decodeHeaderField (0, []) kvs
  | Json.null => some (0, [])
  | _ => none

/-- UnmarshalJSON implements the json.Unmarshaler interface. -/
def Interval.UnmarshalJSON (heap : Heap) (b : Json) : Outcome (Interval × Heap) :=
  match decodeHeader b with
  | none => Outcome.err
  | some m =>
    match unmarshalLoop heap m.2 [] with
    | Outcome.ok r => Outcome.ok ({ time := fromUnixMilli m.1, metrics := r.1 }, r.2)
    | Outcome.err => Outcome.err
    | Outcome.panic => Outcome.panic

/-- The encoding of a counter. -/
def marshalCounter (c : Counter) : Json :=
  Json.obj [("min".toList, Json.num c.Min), ("max".toList, Json.num c.Max),
            ("value".toList, Json.num c.Value), ("count".toList, Json.num c.Count)]

/-- The encoding of a gauge. -/
def marshalGauge (c : Gauge) : Json :=
  Json.obj [("min".toList, Json.num c.Min), ("max".toList, Json.num c.Max),
            ("value".toList, Json.num c.Value), ("count".toList, Json.num c.Count)]

/-- MarshalJSON implements the json.Marshaler interface: the text `[%v,%d]`. -/
def Bucket.MarshalJSON (b : Bucket) : Json :=
  Json.arr [Json.num b.Value, Json.num b.Count]

/-- The encoding of a histogram; a nil slice is written as `null`. -/
def marshalHistogram (heap : Heap) (h : Histogram) : Json :=
  Json.obj [("min".toList, Json.num h.Min), ("max".toList, Json.num h.Max),
            ("count".toList, Json.num h.Count), ("dropped".toList, Json.num h.Dropped),
            ("buckets".toList,
              match h.Buckets with
              | none => Json.null
              | some r => Json.arr ((heap.getD r []).map Bucket.MarshalJSON))]

/-- The encoding of a stored metric. -/
def marshalMetric (heap : Heap) : Metric → Json
  | Metric.counter c => marshalCounter c
  | Metric.gauge g => marshalGauge g
  | Metric.histogram h => marshalHistogram heap h

/-- MarshalJSON implements the json.Marshaler interface. -/
def Interval.MarshalJSON (heap : Heap) (i : Interval) : Json :=
  Json.obj [("time".toList, Json.num (unixMilli i.time)),
            ("metrics".toList, Json.obj (i.metrics.map fun e => (e.1, marshalMetric heap e.2)))]

/-- The call `json.Marshal(w)` on a window. -/
def marshalWindow (heap : Heap) (w : Window) : Json :=
  Json.obj [("duration".toList, Json.num w.Duration),
            ("intervals".toList, Json.arr (w.Intervals.map (Interval.MarshalJSON heap)))]

/-- Decoding the elements of a JSON array into intervals, each with
`Interval.UnmarshalJSON`; the first error or panic ends the decoding. -/
def unmarshalIntervals : Heap → List Json → Outcome (List Interval × Heap)
  | heap, [] => Outcome.ok ([], heap)
  | heap, x :: xs =>
    match Interval.UnmarshalJSON heap x with
    | Outcome.ok r =>
      match unmarshalIntervals r.2 xs with
      | Outcome.ok rs => Outcome.ok (r.1 :: rs.1, rs.2)
      | Outcome.err => Outcome.err
      | Outcome.panic => Outcome.panic
    | Outcome.err => Outcome.err
    | Outcome.panic => Outcome.panic

/-- One member of the JSON object decoded into a `Window`. The flag records a member that
did not fit its field: decoding goes on after it and ends in an error. For the intervals
`null` makes the slice `nil`. -/
def decodeWindowField (s : (Window × Heap) × Bool) (e : Str × Json) :
    Outcome ((Window × Heap) × Bool) :=
  if fieldIs e.1 "duration".toList then
    match decodeInt64 s.1.1.Duration e.2 with
    | some d => Outcome.ok (({ s.1.1 with Duration := d }, s.1.2), s.2)
    | none => Outcome.ok (s.1, true)
  else if fieldIs e.1 "intervals".toList then
    match e.2 with
    | Json.arr xs =>
      match unmarshalIntervals s.1.2 xs with
      | Outcome.ok r => Outcome.ok (({ s.1.1 with Intervals := r.1 }, r.2), s.2)
      | Outcome.err => Outcome.err
      | Outcome.panic => Outcome.panic
    | Json.null => Outcome.ok (({ s.1.1 with Intervals := [] }, s.1.2), s.2)
    | _ => Outcome.ok (s.1, true)
  else Outcome.ok s

/-- The members of the window object, in order. -/
def decodeWindowFields : (Window × Heap) × Bool → List (Str × Json) →
    Outcome ((Window × Heap) × Bool)
  | s, [] => Outcome.ok s
  | s, e :: es =>
    match decodeWindowField s e with
    | Outcome.ok s' => decodeWindowFields s' es
    | Outcome.err => Outcome.err
    | Outcome.panic => Outcome.panic

/-- The call `json.Unmarshal(b, &have)` into a zero `Window`. -/
def unmarshalWindow (heap : Heap) (b : Json) : Outcome (Window × Heap) :=
  match b with
  | Json.obj kvs =>
    match decodeWindowFields (({ Duration := 0, Intervals := [] }, heap), false) kvs with
    | Outcome.ok s => if s.2 then Outcome.err else Outcome.ok s.1
    | Outcome.err => Outcome.err
    | Outcome.panic => Outcome.panic
  | Json.null => Outcome.ok ({ Duration := 0, Intervals := [] }, heap)
  | _ => Outcome.err

/-- The engine made by `New` for a window of 100 ms and a period of 10 ms, one second and
a bit after the Unix epoch. -/
def exampleMillis : Metrics :=
  { window := 100000000, interval := 10000000, cap := 10, t := 62135596801240000000,
    intervals := [newInterval 62135596801240000000] }

/-! ## Percentiles and the bucket generators (histogram.go, bucket.go) -/

/-- The loop of `Histogram.Percentile` over the buckets, carrying `x0` and `sum`. The
divisions are exact; a division by zero (an empty histogram, or `p ≤ 0` on an empty
bucket) gives 0 here and is outside the properties proved. -/
def percentileLoop (count : Nat) (p : ℚ) : List Bucket → ℚ → Nat → ℚ
  | [], _, _ => 0
  | b :: bs, x0, sum =>
    if ((((sum + b.Count) % u64 : Nat) : ℚ) / (count : ℚ)) ≥ p then
      x0 + (b.Value - x0) *
        ((p - (sum : ℚ) / (count : ℚ)) /
          ((((sum + b.Count) % u64 : Nat) : ℚ) / (count : ℚ) - (sum : ℚ) / (count : ℚ)))
    else percentileLoop count p bs b.Value ((sum + b.Count) % u64)

/-- Percentile returns the value below which a given percentage of the samples fall. -/
def Histogram.Percentile (m : Histogram) (heap : Heap) (p : ℚ) : ℚ :=
  percentileLoop m.Count p (heap.read m.Buckets) 0 0

/-- The number of samples counted in the first `j` buckets. -/
def cumCount (bs : List Bucket) (j : Nat) : Nat := ((bs.take j).map Bucket.Count).sum

/-- The cumulative fraction after the first `j` buckets of a histogram with `count`
samples. -/
def cumFraction (bs : List Bucket) (count : Nat) (j : Nat) : ℚ :=
  (cumCount bs j : ℚ) / (count : ℚ)

/-- The bound of bucket `j`. -/
def boundAt (bs : List Bucket) (j : Nat) : ℚ := (bs.getD j { Value := 0 }).Value

/-- The bound before bucket `j`, and 0 for the first bucket. -/
def boundBefore (bs : List Bucket) (j : Nat) : ℚ := if j = 0 then 0 else boundAt bs (j - 1)

/-- The contents of the slice made by `NewExponentialBuckets` (`none`: `make` panics on a
negative count). For the whole numbers `i ≥ 0` of the loop, `math.Pow(growth, float64(i))`
is the power `growth ^ i`. -/
def NewExponentialBuckets (scale growth : ℚ) (count : Int) : Option (List Bucket) :=
  if count < 0 then none
  else some ((List.range count.toNat).map fun i => { Value := scale * growth ^ i })

/-- A histogram of 4 samples over the bounds 1, 3, 5. -/
def examplePercentile : Histogram :=
  { Min := 1, Max := 4, Count := 4, Dropped := 0, Buckets := some 0 }

/-- The heap that holds the bucket array of `examplePercentile`. -/
def examplePercentileHeap : Heap :=
  [[{ Value := 1, Count := 1 }, { Value := 3, Count := 2 }, { Value := 5, Count := 1 }]]

/-! ## Notions for the accounting of samples and for bucket bounds -/

/-- The calls `Put(v1) ... Put(vn)` on one histogram, in order. -/
def Histogram.putAll (m : Histogram) (heap : Heap) : List ℚ → Histogram × Heap
  | [] => (m, heap)
  | v :: vs => Histogram.putAll (m.Put heap v).1 (m.Put heap v).2 vs

/-- The sum of all bucket counts, as a number. -/
def countSum (bs : List Bucket) : Nat := (bs.map Bucket.Count).sum

/-- The bucket array with the count of bucket `j` incremented and nothing else changed. -/
def bumpAt : Nat → List Bucket → List Bucket
  | _, [] => []
  | 0, b :: bs => { b with Count := incr b.Count } :: bs
  | j + 1, b :: bs => b :: bumpAt j bs

/-- A slice is `nil` or refers to an array that exists in the heap. -/
def validSlice (heap : Heap) : Slice → Prop
  | none => True
  | some r => r < heap.length

instance (heap : Heap) (s : Slice) : Decidable (validSlice heap s) := by
  cases s with
  | none => exact isTrue trivial
  | some r => exact inferInstanceAs (Decidable (r < heap.length))

/-- The bucket slice held by a stored metric (`nil` for counters and gauges). -/
def Metric.slice : Metric → Slice
  | Metric.histogram h => h.Buckets
  | _ => none

/-- Every slice in the configuration table and in a stored histogram is `nil` or refers to
an array of the heap, as in all states built by the operations of the engine. -/
def Metrics.RefsValid (m : Metrics) : Prop :=
  (∀ e ∈ m.buckets, validSlice m.heap e.2) ∧
    ∀ i ∈ m.intervals, ∀ e ∈ i.metrics, validSlice m.heap e.2.slice

instance (m : Metrics) : Decidable m.RefsValid := by
  unfold Metrics.RefsValid
  infer_instance

/-- A heap with one bucket array that already holds counts. -/
def exampleCountedHeap : Heap := [[{ Value := 1, Count := 2 }, { Value := 5, Count := 1 }]]

/-- The histogram made by `NewHistogram` over the array of `exampleCountedHeap` after the
samples 1 and 7. -/
def exampleAfterRun : Histogram :=
  { Min := 0, Max := 7, Count := 5, Dropped := 1, Buckets := some 0 }

/-- The heap after the samples 1 and 7. -/
def exampleAfterRunHeap : Heap := [[{ Value := 1, Count := 3 }, { Value := 5, Count := 1 }]]

/-- The histogram `exampleAfterRun` after one more sample 3. -/
def exampleAfterPut : Histogram :=
  { Min := 0, Max := 7, Count := 6, Dropped := 1, Buckets := some 0 }

/-- The heap after one more sample 3. -/
def exampleAfterPutHeap : Heap := [[{ Value := 1, Count := 3 }, { Value := 5, Count := 2 }]]

/-- The state `exampleMixed` after `Buckets(["x"], NewLinearBuckets(1, 1, 2))`. -/
def exampleMixedConfigured : Metrics :=
  { exampleMixed with
    buckets := [("/x".toList, some 1)],
    heap := [[{ Value := 1, Count := 0 }, { Value := 5, Count := 1 }],
             [{ Value := 1, Count := 0 }, { Value := 2, Count := 0 }]] }

/-- A serialized interval whose metrics hold the key `/a`, which has no kind suffix,
after the key `/b:counter` with a string for its payload. -/
def exampleUnknownKind : Json :=
  Json.obj [("time".toList, Json.num 5),
            ("metrics".toList, Json.obj [("/b:counter".toList, Json.str "x".toList),
                                         ("/a".toList, Json.null)])]

/-- The same two metrics with the key `/a` first. -/
def exampleUnknownKindFirst : Json :=
  Json.obj [("time".toList, Json.num 5),
            ("metrics".toList, Json.obj [("/a".toList, Json.null),
                                         ("/b:counter".toList, Json.str "x".toList)])]

/-- A serialized interval with the key `/a` alone and a string for its `time`. -/
def exampleUnknownKindBadTime : Json :=
  Json.obj [("time".toList, Json.str "x".toList),
            ("metrics".toList, Json.obj [("/a".toList, Json.null)])]

/-- A serialized interval whose metrics hold a counter with a payload that decodes,
followed by the key `/a`. -/
def exampleUnknownKindDecodable : Json :=
  Json.obj [("time".toList, Json.num 5),
            ("metrics".toList,
              Json.obj [("/b:counter".toList, Json.obj [("count".toList, Json.num 1)]),
                        ("/a".toList, Json.null)])]

/-! ## Maps and the current interval -/

theorem GoMap.get_set_same {α : Type} (m : GoMap α) (k : Str) (v : α) :
    (m.set k v).get k = some v := by
  induction m with
  | nil => simp [GoMap.set, GoMap.get]
  | cons e rest ih =>
    obtain ⟨k', v'⟩ := e
    by_cases h : k' = k
    · simp [GoMap.set, GoMap.get, h]
    · simp [GoMap.set, GoMap.get, h, ih]

theorem GoMap.get_set_other {α : Type} (m : GoMap α) (k k' : Str) (v : α) (h : k' ≠ k) :
    (m.set k v).get k' = m.get k' := by
  induction m with
  | nil => simp [GoMap.set, GoMap.get, Ne.symm h]
  | cons e rest ih =>
    obtain ⟨k0, v0⟩ := e
    by_cases h0 : k0 = k
    · subst h0
      simp [GoMap.set, GoMap.get, Ne.symm h]
    · by_cases h1 : k0 = k'
      · subst h1
        simp [GoMap.set, GoMap.get, h0]
      · simp [GoMap.set, GoMap.get, h0, h1, ih]

theorem GoMap.get_mem {α : Type} (m : GoMap α) (k : Str) (v : α) (h : m.get k = some v) :
    (k, v) ∈ m := by
  induction m with
  | nil => simp [GoMap.get] at h
  | cons e rest ih =>
    obtain ⟨k0, v0⟩ := e
    by_cases h0 : k0 = k
    · simp [GoMap.get, h0] at h
      simp [h0, h]
    · simp [GoMap.get, h0] at h
      exact List.mem_cons_of_mem _ (ih h)

theorem GoMap.mem_set {α : Type} (m : GoMap α) (k : Str) (v : α) (e : Str × α)
    (h : e ∈ m.set k v) : e = (k, v) ∨ e ∈ m := by
  induction m with
  | nil => simpa [GoMap.set] using h
  | cons e0 rest ih =>
    obtain ⟨k0, v0⟩ := e0
    by_cases h0 : k0 = k
    · simp [GoMap.set, h0] at h
      rcases h with h | h
      · exact Or.inl h
      · exact Or.inr (List.mem_cons_of_mem _ h)
    · simp [GoMap.set, h0] at h
      rcases h with h | h
      · exact Or.inr (by simp [h])
      · rcases ih h with h | h
        · exact Or.inl h
        · exact Or.inr (List.mem_cons_of_mem _ h)

theorem Metrics.current_setCurrent (m : Metrics) (cur : Interval) (mt : GoMap Metric) :
    (m.setCurrent cur mt).current = some { cur with metrics := mt } := by
  simp [Metrics.current, Metrics.setCurrent]

theorem Metrics.setCurrent_setCurrent (m : Metrics) (c1 c2 : Interval)
    (m1 m2 : GoMap Metric) :
    (m.setCurrent c1 m1).setCurrent c2 m2 = m.setCurrent c2 m2 := by
  simp [Metrics.setCurrent]

theorem Metrics.current_eq_some (m : Metrics) (cur : Interval) (h : m.current = some cur) :
    m.intervals = m.intervals.dropLast ++ [cur] := by
  unfold Metrics.current at h
  rcases List.eq_nil_or_concat m.intervals with h0 | ⟨l, a, h0⟩
  · simp [h0] at h
  · rw [h0] at h ⊢
    simp at h
    simp [h]

/-! ## Relative gauge updates -/

theorem NewGauge_value (x : ℚ) : (NewGauge x).Value = x := by
  unfold NewGauge
  by_cases h : x = 0
  · simp [h]
  · simp [h, Gauge.Set]

theorem gauge_of_kind_suffix (p : Str) (v : Metric) (h : v.kind <:+ p ++ kindGauge) :
    ∃ g, v = Metric.gauge g := by
  have hg : kindGauge <:+ p ++ kindGauge := List.suffix_append p kindGauge
  cases v with
  | gauge g => exact ⟨g, rfl⟩
  | counter c =>
    exfalso
    have h' : kindCounter <:+ p ++ kindGauge := h
    rcases List.suffix_or_suffix_of_suffix h' hg with h1 | h1
    · exact absurd h1 (by decide)
    · exact absurd h1 (by decide)
  | histogram x =>
    exfalso
    have h' : kindHistogram <:+ p ++ kindGauge := h
    rcases List.suffix_or_suffix_of_suffix h' hg with h1 | h1
    · exact absurd h1 (by decide)
    · exact absurd h1 (by decide)

theorem Interval.WellKinded.gauge_at {i : Interval} (hi : i.WellKinded) (p : Str) (v : Metric)
    (h : i.metrics.get (p ++ kindGauge) = some v) : ∃ g, v = Metric.gauge g :=
  gauge_of_kind_suffix p v (hi _ (GoMap.get_mem _ _ _ h))

theorem prevGaugeLoop_eq (k : Str) (l : List Interval)
    (h : ∀ i ∈ l, ∀ v, i.metrics.get k = some v → ∃ g, v = Metric.gauge g) :
    prevGaugeLoop k l =
      some (match (l.filterMap fun i => i.gaugeAt k).head? with
            | some g => g.Value
            | none => 0) := by
  induction l with
  | nil => simp [prevGaugeLoop]
  | cons i older ih =>
    have ih' := ih fun j hj => h j (List.mem_cons_of_mem _ hj)
    cases hget : i.metrics.get k with
    | none => simp [prevGaugeLoop, hget, Interval.gaugeAt, ih']
    | some v =>
      obtain ⟨g, rfl⟩ := h i (List.mem_cons_self _ _) v hget
      simp [prevGaugeLoop, hget, Interval.gaugeAt]

theorem Metrics.prevGaugeValue_eq_seed (m : Metrics) (p : Str) (hwk : m.WellKinded) :
    m.prevGaugeValue (p ++ kindGauge) = some (seedValue m.intervals (p ++ kindGauge)) := by
  unfold Metrics.prevGaugeValue seedValue
  by_cases hlen : m.intervals.length < 2
  · have hd : m.intervals.dropLast = [] := by
      apply List.eq_nil_of_length_eq_zero
      simp only [List.length_dropLast]
      omega
    simp [hlen, hd]
  · rw [if_neg hlen]
    apply prevGaugeLoop_eq
    intro i hi v hv
    have hi' : i ∈ m.intervals :=
      List.dropLast_subset _ (List.mem_reverse.mp hi)
    exact (hwk i hi').gauge_at p v hv

theorem Metrics.Mod_present (m : Metrics) (key : List Str) (p : Str) (cur : Interval)
    (g : GoMetrics.Gauge) (d : ℚ) (hp : keyPath key = some p) (hcur : m.current = some cur)
    (hg : cur.metrics.get (p ++ kindGauge) = some (Metric.gauge g)) :
    m.Mod key d = some (m.setCurrent cur
      (cur.metrics.set (p ++ kindGauge) (Metric.gauge (g.Set (g.Value + d))))) := by
  simp [Metrics.Mod, hp, hcur, hg]

theorem Metrics.modAll_present (key : List Str) (p : Str) (hp : keyPath key = some p)
    (ds : List ℚ) : ∀ (m : Metrics) (cur : Interval) (g : GoMetrics.Gauge),
    m.current = some cur → cur.metrics.get (p ++ kindGauge) = some (Metric.gauge g) →
    ∃ m' cur' g', m.modAll key ds = some m' ∧ m'.current = some cur' ∧
      cur'.metrics.get (p ++ kindGauge) = some (Metric.gauge g') ∧
      g'.Value = g.Value + ds.sum := by
  induction ds with
  | nil =>
    intro m cur g hcur hg
    exact ⟨m, cur, g, rfl, hcur, hg, by simp⟩
  | cons d ds ih =>
    intro m cur g hcur hg
    obtain ⟨m', cur', g', h1, h2, h3, h4⟩ :=
      ih (m.setCurrent cur (cur.metrics.set (p ++ kindGauge) (Metric.gauge (g.Set (g.Value + d)))))
        _ (g.Set (g.Value + d)) (Metrics.current_setCurrent _ _ _) (GoMap.get_set_same _ _ _)
    refine ⟨m', cur', g', ?_, h2, h3, ?_⟩
    · simp [Metrics.modAll, Metrics.Mod_present m key p cur g d hp hcur hg, h1]
    · rw [h4]
      simp [Gauge.Set]
      ring

/-- C3. On a well-kinded engine state whose current interval has no gauge for the key, a
run of relative updates `Mod(key, d1) ... Mod(key, dn)` (`n ≥ 1`, nothing in between)
succeeds and leaves in the current interval a gauge whose Value is the seed plus
`d1 + ... + dn`, the seed being the gauge value of the most recent earlier interval that
holds a gauge for the key, and 0 when there is none. -/
theorem mod_all_value_is_seed_plus_deltas (m : Metrics) (key : List Str) (p : Str)
    (cur : Interval) (d : ℚ) (ds : List ℚ)
    (hwk : m.WellKinded) (hp : keyPath key = some p) (hcur : m.current = some cur)
    (hfresh : cur.metrics.get (p ++ kindGauge) = none) :
    ∃ m' cur' g, m.modAll key (d :: ds) = some m' ∧ m'.current = some cur' ∧
      cur'.Gauge key = some g ∧
      g.Value = seedValue m.intervals (p ++ kindGauge) + (d :: ds).sum := by
  have hprev := Metrics.prevGaugeValue_eq_seed m p hwk
  have hstep : m.Mod key d = some (m.setCurrent cur (cur.metrics.set (p ++ kindGauge)
      (Metric.gauge (NewGauge (seedValue m.intervals (p ++ kindGauge) + d))))) := by
    simp [Metrics.Mod, hp, hcur, hfresh, hprev]
  obtain ⟨m', cur', g', h1, h2, h3, h4⟩ :=
    Metrics.modAll_present key p hp ds _ _
      (NewGauge (seedValue m.intervals (p ++ kindGauge) + d))
      (Metrics.current_setCurrent m cur _)
      (GoMap.get_set_same cur.metrics (p ++ kindGauge) _)
  refine ⟨m', cur', { Min := g'.Min, Max := g'.Max, Value := g'.Value, Count := g'.Count },
    ?_, h2, ?_, ?_⟩
  · simp [Metrics.modAll, hstep, h1]
  · simp [Interval.Gauge, hp, h3]
  · simp only [h4, NewGauge_value, List.sum_cons]
    ring

theorem mod_all_value_is_seed_plus_deltas_witness :
    ∃ m' cur' g, exampleRing.modAll ["test".toList] [3, 2] = some m' ∧
      m'.current = some cur' ∧ cur'.Gauge ["test".toList] = some g ∧
      g.Value = seedValue exampleRing.intervals ("/test".toList ++ kindGauge) + [3, 2].sum :=
  mod_all_value_is_seed_plus_deltas exampleRing ["test".toList] "/test".toList
    { time := 20, metrics := [] } 3 [2] (by decide) (by decide) (by decide) (by decide)

/-! ## The interval ring -/

theorem set_length_append_singleton {α : Type} (l : List α) (x y : α) :
    (l ++ [x]).set l.length y = l ++ [y] := by
  induction l with
  | nil => rfl
  | cons a l ih => simp [ih]

theorem copyShift_cons_set {α : Type} (a : α) (tl : List α) (y : α) :
    (copyShift (a :: tl)).set ((a :: tl).length - 1) y = tl ++ [y] := by
  have hlast : ∃ x, (a :: tl).drop tl.length = [x] := by
    induction tl generalizing a with
    | nil => exact ⟨a, rfl⟩
    | cons b tl ih =>
      obtain ⟨x, hx⟩ := ih b
      exact ⟨x, by simpa using hx⟩
  obtain ⟨x, hx⟩ := hlast
  have : copyShift (a :: tl) = tl ++ [x] := by
    simp [copyShift, hx]
  rw [this]
  simp [set_length_append_singleton tl x y]

theorem Metrics.rotate_at_capacity (m : Metrics) (a : Interval) (tl : List Interval)
    (hl : m.intervals = a :: tl) (hcap : m.intervals.length = m.cap) :
    m.rotate = some { m with t := m.t + m.interval,
                             intervals := tl ++ [newInterval (m.t + m.interval)] } := by
  have h0 : m.intervals.length ≠ 0 := by simp [hl]
  unfold Metrics.rotate
  simp only [hcap, if_true]
  rw [← hcap, if_neg h0]
  simp only [hl, copyShift_cons_set]

theorem Metrics.rotate_below_capacity (m : Metrics) (hcap : m.intervals.length ≠ m.cap) :
    m.rotate = some { m with t := m.t + m.interval,
                             intervals := m.intervals ++ [newInterval (m.t + m.interval)] } := by
  unfold Metrics.rotate
  simp [hcap]

theorem New_shape (window interval now : Int) (m : Metrics)
    (h : New window interval now = some m) :
    (m.cap : Int) = Int.tdiv window interval ∧ 1 ≤ m.cap ∧ m.interval = interval ∧
      m.intervals = [newInterval m.t] := by
  unfold New at h
  by_cases h0 : interval = 0
  · simp [h0] at h
  · by_cases h1 : Int.tdiv window interval < 1
    · simp [h0, h1] at h
    · simp only [h0, h1, if_false, Option.some.injEq] at h
      subst h
      refine ⟨?_, ?_, rfl, rfl⟩
      · simp only
        omega
      · simp only
        omega

theorem neg_ofNat_lt_one (n : Nat) : ¬ (1 ≤ -Int.ofNat n) := by
  intro hn
  have h0 : (0 : Int) ≤ Int.ofNat n := Int.ofNat_nonneg n
  generalize Int.ofNat n = z at hn h0
  omega

theorem tdiv_eq_fdiv_of_pos (a b : Int) (h : 1 ≤ Int.tdiv a b) : Int.tdiv a b = Int.fdiv a b := by
  cases a with
  | ofNat x =>
    cases b with
    | ofNat y =>
      cases x with
      | zero => simp [Int.tdiv, Int.fdiv]
      | succ x => simp [Int.tdiv, Int.fdiv]
    | negSucc y =>
      exact absurd h (neg_ofNat_lt_one _)
  | negSucc x =>
    cases b with
    | ofNat y =>
      exact absurd h (neg_ofNat_lt_one _)
    | negSucc y => simp [Int.tdiv, Int.fdiv]

theorem Metrics.rotateN_length (m : Metrics) (hcap : 1 ≤ m.cap) (hlen : m.intervals.length = 1)
    (k : Nat) :
    ∃ mk, m.rotateN k = some mk ∧ mk.cap = m.cap ∧
      mk.intervals.length = min (k + 1) m.cap := by
  induction k with
  | zero => exact ⟨m, rfl, rfl, by simp [hlen]; omega⟩
  | succ k ih =>
    obtain ⟨mk, h1, h2, h3⟩ := ih
    by_cases hfull : mk.intervals.length = mk.cap
    · cases hl : mk.intervals with
      | nil => simp [hl] at hfull; omega
      | cons a tl =>
        refine ⟨{ mk with t := mk.t + mk.interval,
                          intervals := tl ++ [newInterval (mk.t + mk.interval)] },
          by simp [Metrics.rotateN, h1, Metrics.rotate_at_capacity mk a tl hl hfull], h2, ?_⟩
        have : tl.length + 1 = mk.intervals.length := by simp [hl]
        simp only [List.length_append, List.length_singleton]
        omega
    · refine ⟨{ mk with t := mk.t + mk.interval,
                        intervals := mk.intervals ++ [newInterval (mk.t + mk.interval)] },
        by simp [Metrics.rotateN, h1, Metrics.rotate_below_capacity mk hfull], h2, ?_⟩
      simp only [List.length_append, List.length_singleton]
      omega

/-- C8. An engine built by `New(window, interval)` has capacity
`c = floor(window/interval) ≥ 1` and a ring of exactly 1 interval; `k` rotation steps
succeed and leave exactly `min(k+1, c)` intervals, so the length never exceeds `c` and
equals `c` for every `k ≥ c-1`. -/
theorem ring_length_after_rotations (window interval now : Int) (m : Metrics) (k : Nat)
    (h : New window interval now = some m) :
    (m.cap : Int) = Int.fdiv window interval ∧ 1 ≤ m.cap ∧ m.intervals.length = 1 ∧
      ∃ mk, m.rotateN k = some mk ∧ mk.intervals.length = min (k + 1) m.cap ∧
        mk.intervals.length ≤ m.cap ∧ (m.cap - 1 ≤ k → mk.intervals.length = m.cap) := by
  obtain ⟨hc, h1, -, hi⟩ := New_shape window interval now m h
  have hlen : m.intervals.length = 1 := by simp [hi]
  obtain ⟨mk, hk, -, hl⟩ := Metrics.rotateN_length m h1 hlen k
  refine ⟨?_, h1, hlen, mk, hk, hl, ?_, ?_⟩
  · rw [hc]
    apply tdiv_eq_fdiv_of_pos
    omega
  · omega
  · intro hk'
    omega

theorem ring_length_after_rotations_witness :
    ((exampleNew.cap : Int) = Int.fdiv 100 10 ∧ 1 ≤ exampleNew.cap ∧
      exampleNew.intervals.length = 1 ∧
      ∃ mk, exampleNew.rotateN 12 = some mk ∧
        mk.intervals.length = min (12 + 1) exampleNew.cap ∧
        mk.intervals.length ≤ exampleNew.cap ∧
        (exampleNew.cap - 1 ≤ 12 → mk.intervals.length = exampleNew.cap)) :=
  ring_length_after_rotations 100 10 1234 exampleNew 12 (by decide)

/-! ## Writes keep the shape of the ring -/

theorem Metrics.setCurrent_times (m : Metrics) (cur : Interval) (mt : GoMap Metric)
    (hcur : m.current = some cur) : (m.setCurrent cur mt).times = m.times := by
  have h := Metrics.current_eq_some m cur hcur
  unfold Metrics.times Metrics.setCurrent
  conv_rhs => rw [h]
  simp

theorem Metrics.setCurrent_sameRing (m : Metrics) (cur : Interval) (mt : GoMap Metric)
    (hcur : m.current = some cur) : SameRing m (m.setCurrent cur mt) :=
  ⟨rfl, rfl, rfl, Metrics.setCurrent_times m cur mt hcur⟩

theorem Metrics.setCurrent_heap_sameRing (m : Metrics) (cur : Interval) (mt : GoMap Metric)
    (hp : Heap) (hcur : m.current = some cur) :
    SameRing m { m.setCurrent cur mt with heap := hp } :=
  ⟨rfl, rfl, rfl, Metrics.setCurrent_times m cur mt hcur⟩

theorem Metrics.Add_sameRing (m m' : Metrics) (key : List Str) (v : ℚ)
    (h : m.Add key v = some m') : SameRing m m' := by
  unfold Metrics.Add at h
  cases hp : keyPath key with
  | none => simp [hp] at h
  | some p =>
    cases hcur : m.current with
    | none => simp [hp, hcur] at h
    | some cur =>
      simp only [hp, hcur] at h
      split at h
      · cases h
        exact Metrics.setCurrent_sameRing m cur _ hcur
      · cases h
        exact Metrics.setCurrent_sameRing m cur _ hcur
      · cases h

theorem Metrics.Set_sameRing (m m' : Metrics) (key : List Str) (v : ℚ)
    (h : m.Set key v = some m') : SameRing m m' := by
  unfold Metrics.Set at h
  cases hp : keyPath key with
  | none => simp [hp] at h
  | some p =>
    cases hcur : m.current with
    | none => simp [hp, hcur] at h
    | some cur =>
      simp only [hp, hcur] at h
      split at h
      · cases h
        exact Metrics.setCurrent_sameRing m cur _ hcur
      · cases h
        exact Metrics.setCurrent_sameRing m cur _ hcur
      · cases h

theorem Metrics.Mod_sameRing (m m' : Metrics) (key : List Str) (v : ℚ)
    (h : m.Mod key v = some m') : SameRing m m' := by
  unfold Metrics.Mod at h
  cases hp : keyPath key with
  | none => simp [hp] at h
  | some p =>
    cases hcur : m.current with
    | none => simp [hp, hcur] at h
    | some cur =>
      simp only [hp, hcur] at h
      split at h
      · split at h
        · cases h
        · cases h
          exact Metrics.setCurrent_sameRing m cur _ hcur
      · cases h
        exact Metrics.setCurrent_sameRing m cur _ hcur
      · cases h

theorem Metrics.Put_sameRing (m m' : Metrics) (key : List Str) (v : ℚ)
    (h : m.Put key v = some m') : SameRing m m' := by
  unfold Metrics.Put at h
  cases hp : keyPath key with
  | none => simp [hp] at h
  | some p =>
    cases hcur : m.current with
    | none => simp [hp, hcur] at h
    | some cur =>
      simp only [hp, hcur] at h
      split at h
      · cases h
        exact Metrics.setCurrent_heap_sameRing m cur _ _ hcur
      · cases h
        exact Metrics.setCurrent_heap_sameRing m cur _ _ hcur
      · cases h

theorem Metrics.Buckets_sameRing (m m' : Metrics) (key : List Str) (bs : Option (List Bucket))
    (h : m.Buckets key bs = some m') : SameRing m m' := by
  unfold Metrics.Buckets at h
  cases hp : keyPath key with
  | none => simp [hp] at h
  | some p =>
    simp only [hp] at h
    cases bs with
    | none =>
      cases h
      exact ⟨rfl, rfl, rfl, rfl⟩
    | some b =>
      cases h
      exact ⟨rfl, rfl, rfl, rfl⟩

theorem RingInv.of_sameRing {m m' : Metrics} (h : RingInv m) (hs : SameRing m m') :
    RingInv m' := by
  obtain ⟨h1, h2, h3, h4⟩ := hs
  unfold RingInv
  rw [h1, h2, h3, h4]
  exact h

/-! ## Rotation keeps the ring invariant -/

theorem RingInv.rotate {m m' : Metrics} (h : RingInv m) (hr : m.rotate = some m') :
    RingInv m' := by
  obtain ⟨hne, hlen, hlast, hchain⟩ := h
  have hstep : List.Chain' (fun a b => b = a + m.interval) [m.t + m.interval] :=
    List.chain'_singleton _
  by_cases hfull : m.intervals.length = m.cap
  · cases hl : m.intervals with
    | nil => simp [Metrics.times, hl] at hne
    | cons a tl =>
      rw [Metrics.rotate_at_capacity m a tl hl hfull] at hr
      cases hr
      have htimes : m.times = a.time :: tl.map Interval.time := by
        simp [Metrics.times, hl]
      rw [htimes] at hlen hlast hchain
      refine ⟨?_, ?_, ?_, ?_⟩
      · simp [Metrics.times]
      · simpa [Metrics.times, newInterval] using hlen
      · simp [Metrics.times, newInterval]
      · have hc : List.Chain' (fun a b => b = a + m.interval) (tl.map Interval.time) :=
          hchain.tail
        have : List.Chain' (fun a b => b = a + m.interval)
            (tl.map Interval.time ++ [m.t + m.interval]) := by
          apply hc.append hstep
          intro x hx y hy
          simp only [List.head?_cons, Option.mem_def, Option.some.injEq] at hy
          subst hy
          have hx' : (a.time :: tl.map Interval.time).getLast? = some x := by
            rcases List.eq_nil_or_concat (tl.map Interval.time) with h0 | ⟨l, z, h0⟩
            · simp [h0] at hx
            · rw [h0] at hx ⊢
              simp at hx
              simp only [List.concat_eq_append]
              rw [← List.cons_append, List.getLast?_concat, hx]
          rw [hx'] at hlast
          simp only [Option.some.injEq] at hlast
          rw [hlast]
        simpa [Metrics.times, newInterval] using this
  · rw [Metrics.rotate_below_capacity m hfull] at hr
    cases hr
    have hlen' : m.intervals.length = m.times.length := by simp [Metrics.times]
    refine ⟨?_, ?_, ?_, ?_⟩
    · simp [Metrics.times]
    · simp only [Metrics.times, List.map_append, List.length_append, List.length_map,
        List.length_cons, List.length_nil]
      simp only [Metrics.times, List.length_map] at hlen
      omega
    · simp [Metrics.times, newInterval]
    · have : List.Chain' (fun a b => b = a + m.interval)
          (m.times ++ [m.t + m.interval]) := by
        apply hchain.append hstep
        intro x hx y hy
        simp only [List.head?_cons, Option.mem_def, Option.some.injEq] at hy
        subst hy
        rw [hlast] at hx
        simp only [Option.mem_def, Option.some.injEq] at hx
        rw [hx]
      simpa [Metrics.times, newInterval] using this

theorem Reachable.ringInv {m : Metrics} (h : Reachable m) : RingInv m := by
  induction h with
  | init window interval now m h =>
    obtain ⟨-, h1, -, hi⟩ := New_shape window interval now m h
    refine ⟨?_, ?_, ?_, ?_⟩
    · simp [Metrics.times, hi]
    · simpa [Metrics.times, hi] using h1
    · simp [Metrics.times, hi, newInterval]
    · simp [Metrics.times, hi]
  | rotate m m' _ hr ih => exact ih.rotate hr
  | add m m' key v _ hop ih => exact ih.of_sameRing (Metrics.Add_sameRing m m' key v hop)
  | set m m' key v _ hop ih => exact ih.of_sameRing (Metrics.Set_sameRing m m' key v hop)
  | mod m m' key v _ hop ih => exact ih.of_sameRing (Metrics.Mod_sameRing m m' key v hop)
  | put m m' key v _ hop ih => exact ih.of_sameRing (Metrics.Put_sameRing m m' key v hop)
  | buckets m m' key bs _ hop ih =>
    exact ih.of_sameRing (Metrics.Buckets_sameRing m m' key bs hop)

/-- C9. In every engine state reachable from `New` by rotations (and writes) the ring is
non-empty and within capacity, and a rotation step succeeds: it creates a new empty
interval whose time is the last interval's time plus one period; below capacity the new
ring is the old one with the new interval appended, at capacity it is the old ring
without its first interval followed by the new one. Hence the intervals of every
reachable ring are oldest first, each one exactly one period after its predecessor. -/
theorem rotation_appends_or_evicts_oldest (m : Metrics) (h : Reachable m) :
    ∃ (last : Interval) (m' : Metrics), m.current = some last ∧ m.rotate = some m' ∧
      m.intervals.length ≤ m.cap ∧
      (m.intervals.length < m.cap →
        m'.intervals = m.intervals ++ [{ time := last.time + m.interval, metrics := [] }]) ∧
      (m.intervals.length = m.cap →
        m'.intervals =
          m.intervals.tail ++ [{ time := last.time + m.interval, metrics := [] }]) ∧
      List.Chain' (fun a b => b.time = a.time + m.interval) m.intervals := by
  obtain ⟨hne, hlen, hlast, hchain⟩ := h.ringInv
  have hlen' : m.intervals.length ≤ m.cap := by
    simpa [Metrics.times] using hlen
  have hchain' : List.Chain' (fun a b => b.time = a.time + m.interval) m.intervals := by
    unfold Metrics.times at hchain
    exact (List.chain'_map _).mp hchain
  rcases List.eq_nil_or_concat m.intervals with h0 | ⟨l, last, h0⟩
  · simp [Metrics.times, h0] at hne
  · have hcur : m.current = some last := by simp [Metrics.current, h0]
    have ht : last.time = m.t := by
      simpa [Metrics.times, h0] using hlast
    by_cases hfull : m.intervals.length = m.cap
    · cases hl : m.intervals with
      | nil => simp [h0] at hl
      | cons a tl =>
        refine ⟨last, _, hcur, Metrics.rotate_at_capacity m a tl hl hfull, ?_, ?_, ?_, ?_⟩
        · rw [← hl]; exact hlen'
        · intro hlt
          rw [← hl] at hlt
          omega
        · intro _
          simp [newInterval, ht]
        · rw [← hl]; exact hchain'
    · refine ⟨last, _, hcur, Metrics.rotate_below_capacity m hfull, hlen', ?_, ?_, hchain'⟩
      · intro _
        simp [newInterval, ht]
      · intro hc
        exact absurd hc hfull

theorem rotation_appends_or_evicts_oldest_witness :
    ∃ (last : Interval) (m' : Metrics), exampleNew.current = some last ∧
      exampleNew.rotate = some m' ∧
      exampleNew.intervals.length ≤ exampleNew.cap ∧
      (exampleNew.intervals.length < exampleNew.cap →
        m'.intervals = exampleNew.intervals ++
          [{ time := last.time + exampleNew.interval, metrics := [] }]) ∧
      (exampleNew.intervals.length = exampleNew.cap →
        m'.intervals = exampleNew.intervals.tail ++
          [{ time := last.time + exampleNew.interval, metrics := [] }]) ∧
      List.Chain' (fun a b => b.time = a.time + exampleNew.interval) exampleNew.intervals :=
  rotation_appends_or_evicts_oldest exampleNew
    (Reachable.init 100 10 1234 exampleNew (by decide))

/-! ## Histograms: the bucket scan -/

theorem incr_iterate (n c : Nat) (h : c + n < u64) : incr^[n] c = c + n := by
  induction n generalizing c with
  | zero => rfl
  | succ n ih =>
    have h1 : incr c = c + 1 := by
      unfold incr
      exact Nat.mod_eq_of_lt (by omega)
    rw [Function.iterate_succ_apply, h1, ih (c + 1) (by omega)]
    omega

theorem putBuckets_values (v : ℚ) (bs bs' : List Bucket) (h : putBuckets v bs = some bs') :
    bs'.map Bucket.Value = bs.map Bucket.Value := by
  induction bs generalizing bs' with
  | nil => simp [putBuckets] at h
  | cons b bs ih =>
    by_cases hv : v ≤ b.Value
    · simp [putBuckets, hv] at h
      subst h
      simp
    · simp only [putBuckets, hv, if_false, Option.map_eq_some'] at h
      obtain ⟨r, hr, rfl⟩ := h
      simp [ih r hr]

theorem putBuckets_eq_none_iff (v : ℚ) (bs : List Bucket) :
    putBuckets v bs = none ↔ exceedsAll (bs.map Bucket.Value) v = true := by
  induction bs with
  | nil => simp [putBuckets, exceedsAll]
  | cons b bs ih =>
    by_cases hv : v ≤ b.Value
    · simp [putBuckets, hv, exceedsAll, not_lt.mpr hv]
    · have hlt : b.Value < v := not_le.mp hv
      simp only [putBuckets, hv, if_false, Option.map_eq_none', ih]
      simp [exceedsAll, hlt]

theorem putArray_values (v : ℚ) (bs : List Bucket) :
    (putArray bs v).map Bucket.Value = bs.map Bucket.Value := by
  unfold putArray
  cases h : putBuckets v bs with
  | none => rfl
  | some r => simpa using putBuckets_values v bs r h

theorem foldl_putArray_values (xs : List ℚ) (bs : List Bucket) :
    (xs.foldl putArray bs).map Bucket.Value = bs.map Bucket.Value := by
  induction xs generalizing bs with
  | nil => rfl
  | cons x xs ih => rw [List.foldl_cons, ih, putArray_values]

theorem foldl_putArray_cons (xs : List ℚ) (b : Bucket) (bs : List Bucket) :
    xs.foldl putArray (b :: bs) =
      { b with Count := incr^[xs.countP fun x => decide (x ≤ b.Value)] b.Count } ::
        (xs.filter fun x => decide (b.Value < x)).foldl putArray bs := by
  induction xs generalizing b bs with
  | nil => rfl
  | cons x xs ih =>
    by_cases hv : x ≤ b.Value
    · have h1 : putArray (b :: bs) x = { b with Count := incr b.Count } :: bs := by
        simp [putArray, putBuckets, hv]
      rw [List.foldl_cons, h1, ih]
      simp [hv, not_lt.mpr hv, Function.iterate_succ_apply]
    · have hlt : b.Value < x := not_le.mp hv
      have h1 : putArray (b :: bs) x = b :: putArray bs x := by
        unfold putArray
        simp only [putBuckets, hv, if_false]
        cases putBuckets x bs <;> rfl
      rw [List.foldl_cons, h1, ih]
      simp [hv, hlt]

theorem fallsIn_cons_succ (b : ℚ) (rest : List ℚ) (j : Nat) (x : ℚ)
    (hj : j < rest.length) (hb : ∀ y ∈ rest, b < y) :
    fallsIn (b :: rest) (j + 1) x = (decide (b < x) && fallsIn rest j x) := by
  cases j with
  | zero =>
    simp [fallsIn]
    exact Bool.and_comm _ _
  | succ j =>
    have hmem : rest.getD j 0 ∈ rest := by
      rw [List.getD_eq_getElem _ _ (by omega)]
      exact List.getElem_mem _
    have hlt := hb _ hmem
    have e1 : (j + 1 + 1 == 0) = false := rfl
    have e2 : (j + 1 == 0) = false := rfl
    simp only [fallsIn, e1, e2, Bool.false_or, List.getD_cons_succ, Nat.add_sub_cancel]
    by_cases h1 : rest.getD j 0 < x
    · have h2 : b < x := lt_trans hlt h1
      rw [decide_eq_true h1, decide_eq_true h2]
      simp only [Bool.and_true, Bool.true_and]
    · rw [decide_eq_false h1]
      simp only [Bool.and_false]

theorem foldl_putArray_count (bs : List Bucket) :
    ∀ (xs : List ℚ) (j : Nat), j < bs.length →
      (bs.map Bucket.Value).Pairwise (· < ·) →
      ((xs.foldl putArray bs).getD j { Value := 0 }).Count =
        incr^[xs.countP (fallsIn (bs.map Bucket.Value) j)] (bs.getD j { Value := 0 }).Count := by
  induction bs with
  | nil => intro xs j hj; simp at hj
  | cons b bs ih =>
    intro xs j hj hs
    rw [foldl_putArray_cons]
    rw [List.map_cons, List.pairwise_cons] at hs
    cases j with
    | zero =>
      have e : fallsIn (b.Value :: bs.map Bucket.Value) 0 = fun x => decide (x ≤ b.Value) := by
        funext x
        simp [fallsIn]
      simp [e]
    | succ j =>
      have hj' : j < bs.length := by simpa using hj
      simp only [List.getD_cons_succ]
      rw [ih _ j hj' hs.2, List.countP_filter]
      congr 2
      funext x
      rw [List.map_cons, fallsIn_cons_succ b.Value (bs.map Bucket.Value) j x
        (by simpa using hj') hs.1]
      exact Bool.and_comm _ _

/-! ## Histograms: the fields after a run of samples -/

theorem putDetached_snd (s : Histogram × List Bucket) (v : ℚ) :
    (putDetached s v).2 = putArray s.2 v := by
  unfold putDetached putArray
  cases putBuckets v s.2 <;> rfl

theorem putDetached_count (s : Histogram × List Bucket) (v : ℚ) :
    (putDetached s v).1.Count = incr s.1.Count := by
  unfold putDetached
  cases putBuckets v s.2 <;> rfl

theorem putDetached_buckets (s : Histogram × List Bucket) (v : ℚ) :
    (putDetached s v).1.Buckets = s.1.Buckets := by
  unfold putDetached
  cases putBuckets v s.2 <;> rfl

theorem putDetached_min (s : Histogram × List Bucket) (v : ℚ) :
    (putDetached s v).1.Min = if v < s.1.Min ∨ s.1.Count = 0 then v else s.1.Min := by
  unfold putDetached
  cases putBuckets v s.2 <;> rfl

theorem putDetached_max (s : Histogram × List Bucket) (v : ℚ) :
    (putDetached s v).1.Max = if v > s.1.Max ∨ s.1.Count = 0 then v else s.1.Max := by
  unfold putDetached
  cases putBuckets v s.2 <;> rfl

theorem putDetached_dropped (s : Histogram × List Bucket) (v : ℚ) :
    (putDetached s v).1.Dropped =
      if exceedsAll (s.2.map Bucket.Value) v then incr s.1.Dropped else s.1.Dropped := by
  unfold putDetached
  cases h : putBuckets v s.2 with
  | none =>
    have := (putBuckets_eq_none_iff v s.2).mp h
    simp [this]
  | some r =>
    have : ¬ exceedsAll (s.2.map Bucket.Value) v = true := by
      intro hc
      rw [(putBuckets_eq_none_iff v s.2).mpr hc] at h
      cases h
    simp [this]

theorem foldl_putDetached_snd (xs : List ℚ) (s : Histogram × List Bucket) :
    (xs.foldl putDetached s).2 = xs.foldl putArray s.2 := by
  induction xs generalizing s with
  | nil => rfl
  | cons x xs ih => rw [List.foldl_cons, ih, putDetached_snd, List.foldl_cons]

theorem foldl_putDetached_count (xs : List ℚ) (s : Histogram × List Bucket) :
    (xs.foldl putDetached s).1.Count = incr^[xs.length] s.1.Count := by
  induction xs generalizing s with
  | nil => rfl
  | cons x xs ih =>
    rw [List.foldl_cons, ih, putDetached_count, List.length_cons,
      Function.iterate_succ_apply]

theorem foldl_putDetached_buckets (xs : List ℚ) (s : Histogram × List Bucket) :
    (xs.foldl putDetached s).1.Buckets = s.1.Buckets := by
  induction xs generalizing s with
  | nil => rfl
  | cons x xs ih => rw [List.foldl_cons, ih, putDetached_buckets]

theorem foldl_putDetached_dropped (xs : List ℚ) (s : Histogram × List Bucket) :
    (xs.foldl putDetached s).1.Dropped =
      incr^[xs.countP (exceedsAll (s.2.map Bucket.Value))] s.1.Dropped := by
  induction xs generalizing s with
  | nil => rfl
  | cons x xs ih =>
    rw [List.foldl_cons, ih, putDetached_snd, putArray_values, putDetached_dropped]
    by_cases h : exceedsAll (s.2.map Bucket.Value) x = true
    · simp [h, Function.iterate_succ_apply]
    · simp [h]

theorem foldl_putDetached_min_max (xs : List ℚ) (s : Histogram × List Bucket)
    (h0 : s.1.Count ≠ 0) (hlen : s.1.Count + xs.length < u64) :
    (xs.foldl putDetached s).1.Min = xs.foldl min s.1.Min ∧
      (xs.foldl putDetached s).1.Max = xs.foldl max s.1.Max := by
  induction xs generalizing s with
  | nil => exact ⟨rfl, rfl⟩
  | cons x xs ih =>
    have hc : (putDetached s x).1.Count = s.1.Count + 1 := by
      rw [putDetached_count]
      unfold incr
      exact Nat.mod_eq_of_lt (by simp only [List.length_cons] at hlen; omega)
    have h := ih (putDetached s x) (by omega)
      (by simp only [List.length_cons] at hlen; omega)
    have emin : (if x < s.1.Min ∨ s.1.Count = 0 then x else s.1.Min) = min s.1.Min x := by
      by_cases h1 : x < s.1.Min
      · simp [h1, min_eq_right (le_of_lt h1)]
      · simp [h1, h0, min_eq_left (not_lt.mp h1)]
    have emax : (if x > s.1.Max ∨ s.1.Count = 0 then x else s.1.Max) = max s.1.Max x := by
      by_cases h1 : x > s.1.Max
      · simp [h1, max_eq_right (le_of_lt h1)]
      · simp [h1, h0, max_eq_left (not_lt.mp h1)]
    rw [List.foldl_cons, List.foldl_cons, h.1, h.2, putDetached_min, putDetached_max,
      emin, emax]
    exact ⟨rfl, rfl⟩

/-! ## Histograms in the engine -/

theorem Histogram.Put_detached (h : Histogram) (heap : Heap) (r : Nat) (v : ℚ)
    (hb : h.Buckets = some r) (hr : r < heap.length) :
    (h.Put heap v).1 = (putDetached (h, heap.getD r []) v).1 ∧
      (h.Put heap v).2.getD r [] = (putDetached (h, heap.getD r []) v).2 ∧
      (h.Put heap v).2.length = heap.length := by
  unfold Histogram.Put putDetached
  simp only [hb]
  cases putBuckets v (heap.getD r []) with
  | none => exact ⟨rfl, rfl, rfl⟩
  | some bs =>
    refine ⟨rfl, ?_, by simp⟩
    simp [List.getD_eq_getElem?_getD, List.getElem?_set_self, hr]

theorem Metrics.Put_existing (m : Metrics) (key : List Str) (p : Str)
    (s : Histogram × List Bucket) (v : ℚ) (hp : keyPath key = some p)
    (hs : HistAt m (p ++ kindHistogram) s) :
    ∃ m', m.Put key v = some m' ∧ HistAt m' (p ++ kindHistogram) (putDetached s v) := by
  obtain ⟨cur, r, hcur, hget, hb, hr, hread⟩ := hs
  obtain ⟨e1, e2, e3⟩ := Histogram.Put_detached s.1 m.heap r v hb hr
  rw [hread] at e1 e2
  have hput : m.Put key v = some
      { m.setCurrent cur (cur.metrics.set (p ++ kindHistogram)
          (Metric.histogram (s.1.Put m.heap v).1)) with heap := (s.1.Put m.heap v).2 } := by
    simp only [Metrics.Put, hp, hcur, hget]
  refine ⟨_, hput, ?_⟩
  refine ⟨_, r, Metrics.current_setCurrent _ _ _, ?_, ?_, ?_, ?_⟩
  · simp only [GoMap.get_set_same, e1]
  · rw [putDetached_buckets, hb]
  · simpa [e3] using hr
  · exact e2

theorem Metrics.putAll_existing (key : List Str) (p : Str) (hp : keyPath key = some p)
    (xs : List ℚ) : ∀ (m : Metrics) (s : Histogram × List Bucket),
    HistAt m (p ++ kindHistogram) s →
    ∃ m', m.putAll key xs = some m' ∧
      HistAt m' (p ++ kindHistogram) (xs.foldl putDetached s) := by
  induction xs with
  | nil => exact fun m s hs => ⟨m, rfl, hs⟩
  | cons x xs ih =>
    intro m s hs
    obtain ⟨m1, h1, hs1⟩ := Metrics.Put_existing m key p s x hp hs
    obtain ⟨m2, h2, hs2⟩ := ih m1 _ hs1
    exact ⟨m2, by simp [Metrics.putAll, h1, h2], hs2⟩

theorem sumCounts_default : sumCounts 0 defaultLatencyBuckets = 0 := by
  decide

theorem Metrics.Put_fresh_default (m : Metrics) (key : List Str) (p : Str) (cur : Interval)
    (v : ℚ) (hp : keyPath key = some p) (hcur : m.current = some cur)
    (htable : m.buckets = [])
    (hfresh : cur.metrics.get (p ++ kindHistogram) = none) :
    ∃ m', m.Put key v = some m' ∧
      HistAt m' (p ++ kindHistogram)
        (putDetached ({ Buckets := some m.heap.length }, defaultLatencyBuckets) v) := by
  have hread : (m.heap ++ [defaultLatencyBuckets]).getD m.heap.length [] =
      defaultLatencyBuckets := by
    simp [List.getD_eq_getElem?_getD]
  have hnew : NewHistogram (m.bucketsFor (p ++ kindHistogram)).1
      (m.bucketsFor (p ++ kindHistogram)).2 =
      ({ Buckets := some m.heap.length }, m.heap ++ [defaultLatencyBuckets]) := by
    simp [Metrics.bucketsFor, htable, NewDefaultLatencyBuckets, Heap.alloc, NewHistogram,
      Heap.read, sumCounts_default]
  obtain ⟨e1, e2, e3⟩ := Histogram.Put_detached { Buckets := some m.heap.length }
    (m.heap ++ [defaultLatencyBuckets]) m.heap.length v rfl (by simp)
  rw [hread] at e1 e2
  have hput : m.Put key v = some
      { m.setCurrent cur (cur.metrics.set (p ++ kindHistogram)
          (Metric.histogram ((({ Buckets := some m.heap.length } : Histogram).Put
            (m.heap ++ [defaultLatencyBuckets]) v).1))) with
        heap := (({ Buckets := some m.heap.length } : Histogram).Put
            (m.heap ++ [defaultLatencyBuckets]) v).2 } := by
    simp only [Metrics.Put, hp, hcur, hfresh, hnew]
  refine ⟨_, hput, ?_⟩
  refine ⟨_, m.heap.length, Metrics.current_setCurrent _ _ _, ?_, ?_, ?_, ?_⟩
  · simp only [GoMap.get_set_same, e1]
  · rw [putDetached_buckets]
  · simp [e3]
  · exact e2

theorem defaultLatencyBuckets_values :
    defaultLatencyBuckets.map Bucket.Value = defaultLatencyBucketValues := by
  unfold defaultLatencyBuckets
  rw [List.map_map]
  exact List.map_id _

theorem defaultLatencyBucketValues_ascending :
    defaultLatencyBucketValues.Pairwise (· < ·) := by
  have h : defaultLatencyBucketValues.Chain' (· < ·) := by
    unfold defaultLatencyBucketValues
    norm_num
  exact List.chain'_iff_pairwise.mp h

theorem exceedsAll_default (x : ℚ) :
    exceedsAll defaultLatencyBucketValues x = decide (10000 < x) := by
  have hle : ∀ b ∈ defaultLatencyBucketValues, b ≤ 10000 := by
    unfold defaultLatencyBucketValues
    norm_num
  have hmem : (10000 : ℚ) ∈ defaultLatencyBucketValues := by
    unfold defaultLatencyBucketValues
    simp
  by_cases h : 10000 < x
  · rw [decide_eq_true h]
    unfold exceedsAll
    rw [List.all_eq_true]
    intro b hb
    exact decide_eq_true (lt_of_le_of_lt (hle b hb) h)
  · rw [decide_eq_false h]
    cases he : exceedsAll defaultLatencyBucketValues x with
    | false => rfl
    | true =>
      exfalso
      unfold exceedsAll at he
      rw [List.all_eq_true] at he
      exact h (of_decide_eq_true (he _ hmem))

/-- C4. With an empty bucket-configuration table and a key that has no histogram in the
current interval, the run `Put(key, v1) ... Put(key, vn)` (`n ≥ 1`, `n` within `uint64`)
succeeds, and the histogram read back from the current interval has `Count = n`,
`Min = min(vi)`, `Max = max(vi)`, `Dropped` = the number of `vi` above 10000, the 50
default bounds, and in bucket `j` the number of `vi` with `bound(j-1) < vi ≤ bound(j)`
(`vi ≤ bound(0)` for `j = 0`). -/
theorem put_all_default_buckets (m : Metrics) (key : List Str) (p : Str) (cur : Interval)
    (v : ℚ) (vs : List ℚ)
    (hp : keyPath key = some p) (hcur : m.current = some cur)
    (htable : m.buckets = [])
    (hfresh : cur.metrics.get (p ++ kindHistogram) = none)
    (hn : (v :: vs).length < u64) :
    ∃ m' cur' h bs, m.putAll key (v :: vs) = some m' ∧ m'.current = some cur' ∧
      cur'.Histogram m'.heap key = some h ∧
      h.Count = (v :: vs).length ∧ h.Min = minOf v vs ∧ h.Max = maxOf v vs ∧
      h.Dropped = (v :: vs).countP (fun x => decide (10000 < x)) ∧
      h.Buckets = some bs ∧ bs.map Bucket.Value = defaultLatencyBucketValues ∧
      ∀ j, j < 50 →
        (bs.getD j { Value := 0 }).Count =
          (v :: vs).countP (fallsIn defaultLatencyBucketValues j) := by
  obtain ⟨m1, h1, hs1⟩ := Metrics.Put_fresh_default m key p cur v hp hcur htable hfresh
  obtain ⟨m2, h2, hs2⟩ := Metrics.putAll_existing key p hp vs m1 _ hs1
  have hfold : vs.foldl putDetached
      (putDetached ({ Buckets := some m.heap.length }, defaultLatencyBuckets) v) =
      (v :: vs).foldl putDetached ({ Buckets := some m.heap.length }, defaultLatencyBuckets) :=
    rfl
  rw [hfold] at hs2
  generalize hs : (v :: vs).foldl putDetached
    (({ Buckets := some m.heap.length } : Histogram), defaultLatencyBuckets) = s at hs2
  obtain ⟨cur', r, hcur', hget, hb, hr, hread⟩ := hs2
  have hlen : (v :: vs).length < u64 := hn
  refine ⟨m2, cur',
    { Min := s.1.Min, Max := s.1.Max, Count := s.1.Count, Dropped := s.1.Dropped,
      Buckets := some s.2 }, s.2, ?_, hcur', ?_, ?_, ?_, ?_, ?_, rfl, ?_, ?_⟩
  · simp [Metrics.putAll, h1, h2]
  · simp only [Interval.Histogram, hp, hget, hb, Heap.read, hread]
  · show s.1.Count = _
    rw [← hs, foldl_putDetached_count]
    simpa using incr_iterate (v :: vs).length 0 (by simpa using hlen)
  · show s.1.Min = _
    rw [← hs, List.foldl_cons]
    have hc : (putDetached (({ Buckets := some m.heap.length } : Histogram),
        defaultLatencyBuckets) v).1.Count = 1 := by
      rw [putDetached_count]
      rfl
    have h := foldl_putDetached_min_max vs _ (by rw [hc]; exact one_ne_zero)
      (by rw [hc]; simp only [List.length_cons] at hlen; omega)
    rw [h.1, putDetached_min]
    simp [minOf]
  · show s.1.Max = _
    rw [← hs, List.foldl_cons]
    have hc : (putDetached (({ Buckets := some m.heap.length } : Histogram),
        defaultLatencyBuckets) v).1.Count = 1 := by
      rw [putDetached_count]
      rfl
    have h := foldl_putDetached_min_max vs _ (by rw [hc]; exact one_ne_zero)
      (by rw [hc]; simp only [List.length_cons] at hlen; omega)
    rw [h.2, putDetached_max]
    simp [maxOf]
  · show s.1.Dropped = _
    rw [← hs, foldl_putDetached_dropped]
    simp only [defaultLatencyBuckets_values]
    have hfun : exceedsAll defaultLatencyBucketValues = fun x => decide (10000 < x) := by
      funext x
      exact exceedsAll_default x
    rw [hfun]
    have hle := List.countP_le_length (fun x : ℚ => decide (10000 < x)) (l := v :: vs)
    simpa using incr_iterate _ 0 (by omega)
  · rw [← hs, foldl_putDetached_snd, foldl_putArray_values, defaultLatencyBuckets_values]
  · intro j hj
    rw [← hs, foldl_putDetached_snd]
    have hj' : j < defaultLatencyBuckets.length := by
      simpa [defaultLatencyBuckets, defaultLatencyBucketValues] using hj
    have hcount := foldl_putArray_count defaultLatencyBuckets (v :: vs) j hj'
      (by rw [defaultLatencyBuckets_values]; exact defaultLatencyBucketValues_ascending)
    rw [defaultLatencyBuckets_values] at hcount
    have hzero : (defaultLatencyBuckets.getD j { Value := 0 }).Count = 0 := by
      have : ∀ b ∈ defaultLatencyBuckets, b.Count = 0 := by
        simp [defaultLatencyBuckets]
      rw [List.getD_eq_getElem _ _ hj']
      exact this _ (List.getElem_mem _)
    have hle := List.countP_le_length (fallsIn defaultLatencyBucketValues j) (l := v :: vs)
    rw [hcount, hzero]
    simpa using incr_iterate _ 0 (by omega)

theorem put_all_default_buckets_witness :
    ∃ m' cur' h bs,
      exampleNew.putAll ["test".toList] (1 :: [2, 3, 30000, 4, 5, 6]) = some m' ∧
      m'.current = some cur' ∧
      cur'.Histogram m'.heap ["test".toList] = some h ∧
      h.Count = (1 :: [2, 3, 30000, 4, 5, 6] : List ℚ).length ∧
      h.Min = minOf 1 [2, 3, 30000, 4, 5, 6] ∧ h.Max = maxOf 1 [2, 3, 30000, 4, 5, 6] ∧
      h.Dropped = (1 :: [2, 3, 30000, 4, 5, 6] : List ℚ).countP (fun x => decide (10000 < x)) ∧
      h.Buckets = some bs ∧ bs.map Bucket.Value = defaultLatencyBucketValues ∧
      ∀ j, j < 50 →
        (bs.getD j { Value := 0 }).Count =
          (1 :: [2, 3, 30000, 4, 5, 6] : List ℚ).countP (fallsIn defaultLatencyBucketValues j) :=
  put_all_default_buckets exampleNew ["test".toList] "/test".toList (newInterval 1240)
    1 [2, 3, 30000, 4, 5, 6] (by decide) (by decide) (by decide) (by decide) (by decide)

/-! ## Evaluations at concrete inputs -/

/-- C1. On a new engine, `Add(["k"], 0)` followed by `Add(["k"], 5)` leaves the stored
counter with Count 1, Min 5, Max 5 and Value 5: the first call builds the counter with
`NewCounter(0)`, which skips `Counter.Add`, so the zero is neither counted nor seen by
Min. The sequence has two values with minimum 0. -/
theorem add_zero_first_is_not_counted :
    (exampleNew.addAll ["k".toList] [0, 5]).bind
        (fun m => m.current.bind fun i => i.metrics.get "/k:counter".toList) =
      some (Metric.counter { Min := 5, Max := 5, Value := 5, Count := 1 }) := by
  with_unfolding_all decide

/-- C2. On a new engine, `Set(["k"], 0)` followed by `Set(["k"], 5)` leaves a gauge that
`Interval.Gauge` reads as Count 1, Min 5, Max 5, Value 5: the first call builds the gauge
with `NewGauge(0)`, which skips `Gauge.Set`. The sequence has two values with minimum 0. -/
theorem set_zero_first_is_not_counted :
    (exampleNew.setAll ["k".toList] [0, 5]).bind
        (fun m => m.current.bind fun i => i.Gauge ["k".toList]) =
      some { Min := 5, Max := 5, Value := 5, Count := 1 } := by
  with_unfolding_all decide

/-- C5. After `Buckets(["test"], NewLinearBuckets(1, 1, 3))`, one sample put to
`/test/a` and then one sample put to the fresh key `/test/b`, the histogram of `/test/b`
reads Count 2, Min 0 and a first bucket count of 2: it was built on the template's own
array, which the earlier `Put` had already counted into, not on a zeroed copy. One sample
was put to `/test/b`. -/
theorem template_counts_leak_into_new_histogram :
    (((exampleNew.Buckets ["test".toList] (NewLinearBuckets 1 1 3)).bind
        fun m => m.Put ["test".toList, "a".toList] 1).bind
        fun m => m.putAll ["test".toList, "b".toList] [1]).bind
        (fun m => m.current.bind fun i => i.Histogram m.heap ["test".toList, "b".toList]) =
      some { Min := 0, Max := 1, Count := 2, Dropped := 0,
             Buckets := some [{ Value := 1, Count := 2 }, { Value := 2, Count := 0 },
                              { Value := 3, Count := 0 }] } := by
  with_unfolding_all decide

/-- C6. With templates registered for `/abcdef` (bounds 1, 2, 3) and for `/b` (bounds 10,
20), bucketsFor on the composite key `/b/c:histogram` returns the slice registered for
`/abcdef`, although `/b` is a registered prefix of the key and `/abcdef` is not a prefix
of it; the sample 15 put to `/b/c` is dropped against the bounds 1, 2, 3. -/
theorem bucketsFor_picks_a_key_that_is_no_prefix :
    "/b".toList <+: "/b/c:histogram".toList ∧
    ¬ "/abcdef".toList <+: "/b/c:histogram".toList ∧
    (((exampleNew.Buckets ["abcdef".toList] (NewLinearBuckets 1 1 3)).bind
        fun m => m.Buckets ["b".toList] (NewLinearBuckets 10 10 2)).map
        fun m => (m.buckets, (m.bucketsFor "/b/c:histogram".toList).1)) =
      some ([("/abcdef".toList, some 0), ("/b".toList, some 1)], some 0) ∧
    ((((exampleNew.Buckets ["abcdef".toList] (NewLinearBuckets 1 1 3)).bind
        fun m => m.Buckets ["b".toList] (NewLinearBuckets 10 10 2)).bind
        fun m => m.Put ["b".toList, "c".toList] 15).bind
        fun m => m.current.bind fun i => i.Histogram m.heap ["b".toList, "c".toList]) =
      some { Min := 15, Max := 15, Count := 1, Dropped := 1,
             Buckets := some [{ Value := 1, Count := 0 }, { Value := 2, Count := 0 },
                              { Value := 3, Count := 0 }] } := by
  refine ⟨by decide, by decide, ?_, ?_⟩
  · with_unfolding_all decide
  · with_unfolding_all decide

/-- C7. With a single template registered for `/x` (bounds 1, 2, 3), bucketsFor on the
composite key `/y:histogram` returns the slice registered for `/x`, although `/x` is not
a prefix of the key: the shared leading `/` already counts as a match. The histogram of
`/y` gets the 3 template buckets, not the 50 default ones. -/
theorem bucketsFor_without_matching_prefix_is_not_default :
    ¬ "/x".toList <+: "/y:histogram".toList ∧
    ((exampleNew.Buckets ["x".toList] (NewLinearBuckets 1 1 3)).map
        fun m => (m.buckets, (m.bucketsFor "/y:histogram".toList).1)) =
      some ([("/x".toList, some 0)], some 0) ∧
    (((exampleNew.Buckets ["x".toList] (NewLinearBuckets 1 1 3)).bind
        fun m => m.Put ["y".toList] 5).bind
        fun m => m.current.bind fun i => i.Histogram m.heap ["y".toList]) =
      some { Min := 5, Max := 5, Count := 1, Dropped := 1,
             Buckets := some [{ Value := 1, Count := 0 }, { Value := 2, Count := 0 },
                              { Value := 3, Count := 0 }] } := by
  refine ⟨by decide, ?_, ?_⟩
  · with_unfolding_all decide
  · with_unfolding_all decide

/-- C10. After `Add(["k"], 7)` on a new engine the stored counter is
`{Min 7, Max 7, Value 7, Count 1}`, while `Interval.Counter(["k"])` returns
`{Min 0, Max 0, Value 7, Count 1}`: the getter copies Value and Count only. -/
theorem counter_getter_drops_min_and_max :
    ((exampleNew.Add ["k".toList] 7).bind
        fun m => m.current.bind fun i => i.metrics.get "/k:counter".toList) =
      some (Metric.counter { Min := 7, Max := 7, Value := 7, Count := 1 }) ∧
    ((exampleNew.Add ["k".toList] 7).bind
        fun m => m.current.bind fun i => i.Counter ["k".toList]) =
      some { Min := 0, Max := 0, Value := 7, Count := 1 } := by
  refine ⟨?_, ?_⟩
  · with_unfolding_all decide
  · with_unfolding_all decide

/-! ## The key path of a rewritten key -/

theorem joinSlash_cons_cons (c : Char) (e : Str) (es : List Str) :
    joinSlash ((c :: e) :: es) = c :: joinSlash (e :: es) := by
  cases es <;> rfl

theorem Clean_slash_slash (x : Str) : Clean ('/' :: '/' :: x) = Clean ('/' :: x) := by
  simp [Clean, splitSlash, cleanElems]

/-- The write `key[0] = "/" + key[0]` that keyPath leaves in the caller's slice does not
change the path of that slice: a second call on it returns the same string. -/
theorem keyPath_rewritten (k0 : Str) (rest : List Str) :
    keyPath (('/' :: k0) :: rest) = keyPath (k0 :: rest) := by
  simp only [keyPath, Join, joinSlash_cons_cons, Clean_slash_slash]
  simp

/-! ## Reachable states are well kinded -/

theorem Interval.WellKinded.set {i : Interval} (hi : i.WellKinded) (k : Str) (v : Metric)
    (hk : v.kind <:+ k) : Interval.WellKinded { i with metrics := i.metrics.set k v } := by
  intro e he
  rcases GoMap.mem_set i.metrics k v e he with h | h
  · subst h
    exact hk
  · exact hi e h

theorem Metrics.WellKinded.setCurrent {m : Metrics} (hm : m.WellKinded) (cur : Interval)
    (hcur : m.current = some cur) (k : Str) (v : Metric) (hk : v.kind <:+ k) :
    (m.setCurrent cur (cur.metrics.set k v)).WellKinded := by
  have hmem : cur ∈ m.intervals := by
    rw [Metrics.current_eq_some m cur hcur]
    simp
  intro i hi
  simp only [Metrics.setCurrent, List.mem_append, List.mem_singleton] at hi
  rcases hi with hi | hi
  · exact hm i (List.dropLast_subset _ hi)
  · subst hi
    exact (hm cur hmem).set k v hk

theorem Metrics.WellKinded.heap_irrelevant {m : Metrics} (hm : m.WellKinded) (hp : Heap) :
    Metrics.WellKinded { m with heap := hp } := hm

theorem Reachable.wellKinded {m : Metrics} (h : Reachable m) : m.WellKinded := by
  induction h with
  | init window interval now m h =>
    obtain ⟨-, -, -, hi⟩ := New_shape window interval now m h
    intro i hmem
    rw [hi] at hmem
    simp only [List.mem_singleton] at hmem
    subst hmem
    intro e he
    simp [newInterval] at he
  | rotate m m' _ hr ih =>
    have hnew : (newInterval (m.t + m.interval)).WellKinded := by
      intro e he
      simp [newInterval] at he
    by_cases hfull : m.intervals.length = m.cap
    · cases hl : m.intervals with
      | nil =>
        unfold Metrics.rotate at hr
        simp [hl, ← hfull] at hr
      | cons a tl =>
        rw [Metrics.rotate_at_capacity m a tl hl hfull] at hr
        cases hr
        intro i hi
        simp only [List.mem_append, List.mem_singleton] at hi
        rcases hi with hi | hi
        · exact ih i (by rw [hl]; exact List.mem_cons_of_mem _ hi)
        · subst hi
          exact hnew
    · rw [Metrics.rotate_below_capacity m hfull] at hr
      cases hr
      intro i hi
      simp only [List.mem_append, List.mem_singleton] at hi
      rcases hi with hi | hi
      · exact ih i hi
      · subst hi
        exact hnew
  | add m m' key v _ hop ih =>
    unfold Metrics.Add at hop
    cases hp : keyPath key with
    | none => simp [hp] at hop
    | some p =>
      cases hcur : m.current with
      | none => simp [hp, hcur] at hop
      | some cur =>
        simp only [hp, hcur] at hop
        split at hop
        · cases hop
          exact ih.setCurrent cur hcur _ _ (List.suffix_append p kindCounter)
        · cases hop
          exact ih.setCurrent cur hcur _ _ (List.suffix_append p kindCounter)
        · cases hop
  | set m m' key v _ hop ih =>
    unfold Metrics.Set at hop
    cases hp : keyPath key with
    | none => simp [hp] at hop
    | some p =>
      cases hcur : m.current with
      | none => simp [hp, hcur] at hop
      | some cur =>
        simp only [hp, hcur] at hop
        split at hop
        · cases hop
          exact ih.setCurrent cur hcur _ _ (List.suffix_append p kindGauge)
        · cases hop
          exact ih.setCurrent cur hcur _ _ (List.suffix_append p kindGauge)
        · cases hop
  | mod m m' key v _ hop ih =>
    unfold Metrics.Mod at hop
    cases hp : keyPath key with
    | none => simp [hp] at hop
    | some p =>
      cases hcur : m.current with
      | none => simp [hp, hcur] at hop
      | some cur =>
        simp only [hp, hcur] at hop
        split at hop
        · split at hop
          · cases hop
          · cases hop
            exact ih.setCurrent cur hcur _ _ (List.suffix_append p kindGauge)
        · cases hop
          exact ih.setCurrent cur hcur _ _ (List.suffix_append p kindGauge)
        · cases hop
  | put m m' key v _ hop ih =>
    unfold Metrics.Put at hop
    cases hp : keyPath key with
    | none => simp [hp] at hop
    | some p =>
      cases hcur : m.current with
      | none => simp [hp, hcur] at hop
      | some cur =>
        simp only [hp, hcur] at hop
        split at hop
        · cases hop
          exact Metrics.WellKinded.heap_irrelevant (ih.setCurrent cur hcur (p ++ kindHistogram)
            (Metric.histogram _) (List.suffix_append p kindHistogram)) _
        · cases hop
          exact Metrics.WellKinded.heap_irrelevant (ih.setCurrent cur hcur (p ++ kindHistogram)
            (Metric.histogram _) (List.suffix_append p kindHistogram)) _
        · cases hop
  | buckets m m' key bs _ hop ih =>
    unfold Metrics.Buckets at hop
    cases hp : keyPath key with
    | none => simp [hp] at hop
    | some p =>
      simp only [hp] at hop
      cases bs with
      | none =>
        cases hop
        exact ih
      | some b =>
        cases hop
        exact ih

/-! ## Counters and gauges whose first value is not zero -/

theorem incr_eq (c : Nat) (h : c + 1 < u64) : incr c = c + 1 := by
  unfold incr
  exact Nat.mod_eq_of_lt h

theorem Counter.foldl_Add (xs : List ℚ) (c : GoMetrics.Counter) (h0 : c.Count ≠ 0)
    (hlen : c.Count + xs.length < u64) :
    xs.foldl Counter.Add c =
      { Min := xs.foldl min c.Min, Max := xs.foldl max c.Max, Value := c.Value + xs.sum,
        Count := c.Count + xs.length } := by
  induction xs generalizing c with
  | nil => simp
  | cons x xs ih =>
    simp only [List.length_cons] at hlen
    have hc : (c.Add x).Count = c.Count + 1 := incr_eq c.Count (by omega)
    have emin : (c.Add x).Min = min c.Min x := by
      by_cases h1 : x < c.Min
      · simp [Counter.Add, h1, min_eq_right (le_of_lt h1)]
      · simp [Counter.Add, h1, h0, min_eq_left (not_lt.mp h1)]
    have emax : (c.Add x).Max = max c.Max x := by
      by_cases h1 : x > c.Max
      · simp [Counter.Add, h1, max_eq_right (le_of_lt h1)]
      · simp [Counter.Add, h1, h0, max_eq_left (not_lt.mp h1)]
    have ev : (c.Add x).Value = c.Value + x := rfl
    rw [List.foldl_cons, ih (c.Add x) (by omega) (by omega), emin, emax, ev, hc]
    simp only [List.foldl_cons, List.sum_cons, List.length_cons, Counter.mk.injEq, true_and]
    constructor
    · ring
    · omega

theorem Gauge.foldl_Set (xs : List ℚ) (g : GoMetrics.Gauge) (h0 : g.Count ≠ 0)
    (hlen : g.Count + xs.length < u64) :
    xs.foldl Gauge.Set g =
      { Min := xs.foldl min g.Min, Max := xs.foldl max g.Max,
        Value := (xs.getLast?).getD g.Value, Count := g.Count + xs.length } := by
  induction xs generalizing g with
  | nil => simp
  | cons x xs ih =>
    simp only [List.length_cons] at hlen
    have hc : (g.Set x).Count = g.Count + 1 := incr_eq g.Count (by omega)
    have emin : (g.Set x).Min = min g.Min x := by
      by_cases h1 : x < g.Min
      · simp [Gauge.Set, h1, min_eq_right (le_of_lt h1)]
      · simp [Gauge.Set, h1, h0, min_eq_left (not_lt.mp h1)]
    have emax : (g.Set x).Max = max g.Max x := by
      by_cases h1 : x > g.Max
      · simp [Gauge.Set, h1, max_eq_right (le_of_lt h1)]
      · simp [Gauge.Set, h1, h0, max_eq_left (not_lt.mp h1)]
    have ev : (g.Set x).Value = x := rfl
    rw [List.foldl_cons, ih (g.Set x) (by omega) (by omega), emin, emax, ev, hc]
    simp only [List.foldl_cons, List.length_cons, Gauge.mk.injEq, true_and]
    constructor
    · cases xs with
      | nil => rfl
      | cons y ys =>
        rw [List.getLast?_cons_cons, List.getLast?_eq_getLast _ (List.cons_ne_nil y ys)]
        rfl
    · omega

theorem Metrics.addAll_present (key : List Str) (p : Str) (hp : keyPath key = some p)
    (xs : List ℚ) : ∀ (m : Metrics) (cur : Interval) (c : GoMetrics.Counter),
    m.current = some cur → cur.metrics.get (p ++ kindCounter) = some (Metric.counter c) →
    ∃ m' cur', m.addAll key xs = some m' ∧ m'.current = some cur' ∧
      cur'.metrics.get (p ++ kindCounter) = some (Metric.counter (xs.foldl Counter.Add c)) := by
  induction xs with
  | nil => exact fun m cur c hcur hc => ⟨m, cur, rfl, hcur, hc⟩
  | cons x xs ih =>
    intro m cur c hcur hc
    obtain ⟨m', cur', h1, h2, h3⟩ :=
      ih (m.setCurrent cur (cur.metrics.set (p ++ kindCounter) (Metric.counter (c.Add x))))
        _ (c.Add x) (Metrics.current_setCurrent _ _ _) (GoMap.get_set_same _ _ _)
    exact ⟨m', cur', by simp [Metrics.addAll, Metrics.Add, hp, hcur, hc, h1], h2, h3⟩

theorem Metrics.setAll_present (key : List Str) (p : Str) (hp : keyPath key = some p)
    (xs : List ℚ) : ∀ (m : Metrics) (cur : Interval) (g : GoMetrics.Gauge),
    m.current = some cur → cur.metrics.get (p ++ kindGauge) = some (Metric.gauge g) →
    ∃ m' cur', m.setAll key xs = some m' ∧ m'.current = some cur' ∧
      cur'.metrics.get (p ++ kindGauge) = some (Metric.gauge (xs.foldl Gauge.Set g)) := by
  induction xs with
  | nil => exact fun m cur g hcur hg => ⟨m, cur, rfl, hcur, hg⟩
  | cons x xs ih =>
    intro m cur g hcur hg
    obtain ⟨m', cur', h1, h2, h3⟩ :=
      ih (m.setCurrent cur (cur.metrics.set (p ++ kindGauge) (Metric.gauge (g.Set x))))
        _ (g.Set x) (Metrics.current_setCurrent _ _ _) (GoMap.get_set_same _ _ _)
    exact ⟨m', cur', by simp [Metrics.setAll, Metrics.Set, hp, hcur, hg, h1], h2, h3⟩

/-- When the first value is not zero, the run `Add(key, v1) ... Add(key, vn)` on a key
with no counter in the current interval stores a counter with `Value = v1 + ... + vn`,
`Count = n`, `Min = min(vi)` and `Max = max(vi)`. -/
theorem add_all_nonzero_first (m : Metrics) (key : List Str) (p : Str) (cur : Interval)
    (v : ℚ) (vs : List ℚ) (hp : keyPath key = some p) (hcur : m.current = some cur)
    (hfresh : cur.metrics.get (p ++ kindCounter) = none) (hv : v ≠ 0)
    (hn : (v :: vs).length < u64) :
    ∃ m' cur', m.addAll key (v :: vs) = some m' ∧ m'.current = some cur' ∧
      cur'.metrics.get (p ++ kindCounter) =
        some (Metric.counter { Min := minOf v vs, Max := maxOf v vs, Value := (v :: vs).sum,
                               Count := (v :: vs).length }) := by
  have hnew : NewCounter v = { Min := v, Max := v, Value := v, Count := 1 } := by
    simp [NewCounter, hv, Counter.Add, incr, u64]
  obtain ⟨m', cur', h1, h2, h3⟩ :=
    Metrics.addAll_present key p hp vs _ _ (NewCounter v)
      (Metrics.current_setCurrent m cur _)
      (GoMap.get_set_same cur.metrics (p ++ kindCounter) _)
  refine ⟨m', cur', by simp [Metrics.addAll, Metrics.Add, hp, hcur, hfresh, h1], h2, ?_⟩
  simp only [List.length_cons] at hn
  rw [h3, hnew, Counter.foldl_Add vs _ (by simp) (by simp only; omega)]
  simp [minOf, maxOf, Nat.add_comm]

/-- When the first value is not zero, the run `Set(key, v1) ... Set(key, vn)` on a key
with no gauge in the current interval leaves a gauge that `Interval.Gauge` reads with
`Value = vn`, `Count = n`, `Min = min(vi)` and `Max = max(vi)`. -/
theorem set_all_nonzero_first (m : Metrics) (key : List Str) (p : Str) (cur : Interval)
    (v : ℚ) (vs : List ℚ) (hp : keyPath key = some p) (hcur : m.current = some cur)
    (hfresh : cur.metrics.get (p ++ kindGauge) = none) (hv : v ≠ 0)
    (hn : (v :: vs).length < u64) :
    ∃ m' cur', m.setAll key (v :: vs) = some m' ∧ m'.current = some cur' ∧
      cur'.Gauge key =
        some { Min := minOf v vs, Max := maxOf v vs,
               Value := (v :: vs).getLast (List.cons_ne_nil v vs),
               Count := (v :: vs).length } := by
  have hnew : NewGauge v = { Min := v, Max := v, Value := v, Count := 1 } := by
    simp [NewGauge, hv, Gauge.Set, incr, u64]
  obtain ⟨m', cur', h1, h2, h3⟩ :=
    Metrics.setAll_present key p hp vs _ _ (NewGauge v)
      (Metrics.current_setCurrent m cur _)
      (GoMap.get_set_same cur.metrics (p ++ kindGauge) _)
  refine ⟨m', cur', by simp [Metrics.setAll, Metrics.Set, hp, hcur, hfresh, h1], h2, ?_⟩
  simp only [List.length_cons] at hn
  rw [hnew, Gauge.foldl_Set vs _ (by simp) (by simp only; omega)] at h3
  simp only [Interval.Gauge, hp, h3, minOf, maxOf, Option.some.injEq, Gauge.mk.injEq,
    List.length_cons, true_and]
  constructor
  · cases vs with
    | nil => rfl
    | cons y ys =>
      simp [List.getLast?_cons_cons, List.getLast?_eq_getLast, List.getLast_cons]
  · omega

/-! ## The three kinds never share a key -/

theorem kind_suffix_ne (a b p q : Str) (hab : ¬ a <:+ b) (hba : ¬ b <:+ a) :
    p ++ a ≠ q ++ b := by
  intro h
  have h1 : a <:+ p ++ a := List.suffix_append p a
  have h2 : b <:+ p ++ a := by
    rw [h]
    exact List.suffix_append q b
  rcases List.suffix_or_suffix_of_suffix h1 h2 with h3 | h3
  · exact hab h3
  · exact hba h3

theorem counter_ne_gauge (p q : Str) : p ++ kindCounter ≠ q ++ kindGauge :=
  kind_suffix_ne _ _ p q (by decide) (by decide)

theorem counter_ne_histogram (p q : Str) : p ++ kindCounter ≠ q ++ kindHistogram :=
  kind_suffix_ne _ _ p q (by decide) (by decide)

theorem gauge_ne_histogram (p q : Str) : p ++ kindGauge ≠ q ++ kindHistogram :=
  kind_suffix_ne _ _ p q (by decide) (by decide)

theorem Interval.Counter_set_other (i : Interval) (k : Str) (v : Metric) (key : List Str)
    (hk : ∀ q, q ++ kindCounter ≠ k) :
    Interval.Counter { i with metrics := i.metrics.set k v } key = i.Counter key := by
  unfold Interval.Counter
  cases hq : keyPath key with
  | none => rfl
  | some q => simp only [GoMap.get_set_other i.metrics k (q ++ kindCounter) v (hk q)]

theorem Interval.Gauge_set_other (i : Interval) (k : Str) (v : Metric) (key : List Str)
    (hk : ∀ q, q ++ kindGauge ≠ k) :
    Interval.Gauge { i with metrics := i.metrics.set k v } key = i.Gauge key := by
  unfold Interval.Gauge
  cases hq : keyPath key with
  | none => rfl
  | some q => simp only [GoMap.get_set_other i.metrics k (q ++ kindGauge) v (hk q)]

theorem Interval.Histogram_set_other (i : Interval) (heap : Heap) (k : Str) (v : Metric)
    (key : List Str) (hk : ∀ q, q ++ kindHistogram ≠ k) :
    Interval.Histogram { i with metrics := i.metrics.set k v } heap key =
      i.Histogram heap key := by
  unfold Interval.Histogram
  cases hq : keyPath key with
  | none => rfl
  | some q => simp only [GoMap.get_set_other i.metrics k (q ++ kindHistogram) v (hk q)]

theorem Metrics.Add_frame (m m' : Metrics) (key key' : List Str) (v : ℚ)
    (cur cur' : Interval) (hcur : m.current = some cur) (hcur' : m'.current = some cur')
    (h : m.Add key v = some m') :
    cur'.Gauge key' = cur.Gauge key' ∧
      cur'.Histogram m'.heap key' = cur.Histogram m.heap key' := by
  unfold Metrics.Add at h
  cases hp : keyPath key with
  | none => simp [hp] at h
  | some p =>
    simp only [hp, hcur] at h
    have hg : ∀ q, q ++ kindGauge ≠ p ++ kindCounter := fun q => (counter_ne_gauge p q).symm
    have hh : ∀ q, q ++ kindHistogram ≠ p ++ kindCounter :=
      fun q => (counter_ne_histogram p q).symm
    split at h
    · cases h
      rw [Metrics.current_setCurrent] at hcur'
      cases hcur'
      exact ⟨Interval.Gauge_set_other cur _ _ key' hg,
        Interval.Histogram_set_other cur _ _ _ key' hh⟩
    · cases h
      rw [Metrics.current_setCurrent] at hcur'
      cases hcur'
      exact ⟨Interval.Gauge_set_other cur _ _ key' hg,
        Interval.Histogram_set_other cur _ _ _ key' hh⟩
    · cases h

theorem Metrics.Set_frame (m m' : Metrics) (key key' : List Str) (v : ℚ)
    (cur cur' : Interval) (hcur : m.current = some cur) (hcur' : m'.current = some cur')
    (h : m.Set key v = some m') :
    cur'.Counter key' = cur.Counter key' ∧
      cur'.Histogram m'.heap key' = cur.Histogram m.heap key' := by
  unfold Metrics.Set at h
  cases hp : keyPath key with
  | none => simp [hp] at h
  | some p =>
    simp only [hp, hcur] at h
    have hc : ∀ q, q ++ kindCounter ≠ p ++ kindGauge := fun q => counter_ne_gauge q p
    have hh : ∀ q, q ++ kindHistogram ≠ p ++ kindGauge :=
      fun q => (gauge_ne_histogram p q).symm
    split at h
    · cases h
      rw [Metrics.current_setCurrent] at hcur'
      cases hcur'
      exact ⟨Interval.Counter_set_other cur _ _ key' hc,
        Interval.Histogram_set_other cur _ _ _ key' hh⟩
    · cases h
      rw [Metrics.current_setCurrent] at hcur'
      cases hcur'
      exact ⟨Interval.Counter_set_other cur _ _ key' hc,
        Interval.Histogram_set_other cur _ _ _ key' hh⟩
    · cases h

theorem Metrics.Mod_frame (m m' : Metrics) (key key' : List Str) (v : ℚ)
    (cur cur' : Interval) (hcur : m.current = some cur) (hcur' : m'.current = some cur')
    (h : m.Mod key v = some m') :
    cur'.Counter key' = cur.Counter key' ∧
      cur'.Histogram m'.heap key' = cur.Histogram m.heap key' := by
  unfold Metrics.Mod at h
  cases hp : keyPath key with
  | none => simp [hp] at h
  | some p =>
    simp only [hp, hcur] at h
    have hc : ∀ q, q ++ kindCounter ≠ p ++ kindGauge := fun q => counter_ne_gauge q p
    have hh : ∀ q, q ++ kindHistogram ≠ p ++ kindGauge :=
      fun q => (gauge_ne_histogram p q).symm
    split at h
    · split at h
      · cases h
      · cases h
        rw [Metrics.current_setCurrent] at hcur'
        cases hcur'
        exact ⟨Interval.Counter_set_other cur _ _ key' hc,
          Interval.Histogram_set_other cur _ _ _ key' hh⟩
    · cases h
      rw [Metrics.current_setCurrent] at hcur'
      cases hcur'
      exact ⟨Interval.Counter_set_other cur _ _ key' hc,
        Interval.Histogram_set_other cur _ _ _ key' hh⟩
    · cases h

theorem Metrics.Put_frame (m m' : Metrics) (key key' : List Str) (v : ℚ)
    (cur cur' : Interval) (hcur : m.current = some cur) (hcur' : m'.current = some cur')
    (h : m.Put key v = some m') :
    cur'.Counter key' = cur.Counter key' ∧ cur'.Gauge key' = cur.Gauge key' := by
  unfold Metrics.Put at h
  cases hp : keyPath key with
  | none => simp [hp] at h
  | some p =>
    simp only [hp, hcur] at h
    have hc : ∀ q, q ++ kindCounter ≠ p ++ kindHistogram := fun q => counter_ne_histogram q p
    have hg : ∀ q, q ++ kindGauge ≠ p ++ kindHistogram := fun q => gauge_ne_histogram q p
    have hcurr : ∀ (mt : GoMap Metric) (hp' : Heap),
        Metrics.current { m.setCurrent cur mt with heap := hp' } =
          some { cur with metrics := mt } :=
      fun mt _ => Metrics.current_setCurrent m cur mt
    split at h
    · cases h
      rw [hcurr] at hcur'
      cases hcur'
      exact ⟨Interval.Counter_set_other cur _ _ key' hc,
        Interval.Gauge_set_other cur _ _ key' hg⟩
    · cases h
      rw [hcurr] at hcur'
      cases hcur'
      exact ⟨Interval.Counter_set_other cur _ _ key' hc,
        Interval.Gauge_set_other cur _ _ key' hg⟩
    · cases h

/-- C11. The three kinds never collide on a path: whatever the engine state, the keys
`key`, `key'` and the value, `Add(key, v)` leaves the gauge and the histogram read at
`key'` in the current interval as they were, `Set(key, v)` and `Mod(key, v)` leave the
counter and the histogram read at `key'` as they were, and `Put(key, v)` leaves the
counter and the gauge read at `key'` as they were. -/
theorem kinds_never_collide (m m' : Metrics) (key key' : List Str) (v : ℚ)
    (cur cur' : Interval) (hcur : m.current = some cur) (hcur' : m'.current = some cur') :
    (m.Add key v = some m' →
      cur'.Gauge key' = cur.Gauge key' ∧
        cur'.Histogram m'.heap key' = cur.Histogram m.heap key') ∧
    (m.Set key v = some m' →
      cur'.Counter key' = cur.Counter key' ∧
        cur'.Histogram m'.heap key' = cur.Histogram m.heap key') ∧
    (m.Mod key v = some m' →
      cur'.Counter key' = cur.Counter key' ∧
        cur'.Histogram m'.heap key' = cur.Histogram m.heap key') ∧
    (m.Put key v = some m' →
      cur'.Counter key' = cur.Counter key' ∧ cur'.Gauge key' = cur.Gauge key') :=
  ⟨Metrics.Add_frame m m' key key' v cur cur' hcur hcur',
   Metrics.Set_frame m m' key key' v cur cur' hcur hcur',
   Metrics.Mod_frame m m' key key' v cur cur' hcur hcur',
   Metrics.Put_frame m m' key key' v cur cur' hcur hcur'⟩

theorem kinds_never_collide_witness :
    exampleMixedAddedCur.Gauge ["c".toList] = exampleMixedCur.Gauge ["c".toList] ∧
      exampleMixedAddedCur.Histogram exampleMixedAdded.heap ["c".toList] =
        exampleMixedCur.Histogram exampleMixed.heap ["c".toList] :=
  (kinds_never_collide exampleMixed exampleMixedAdded ["c".toList] ["c".toList] 1
    exampleMixedCur exampleMixedAddedCur (by decide) (by decide)).1
    (by with_unfolding_all decide)

/-! ## Snapshots and earlier intervals share bucket arrays -/

/-- C12. A window taken after `Put(["k"], 1)` reads the histogram of `/k` with Count 1 and
a first bucket (bound 1) holding 1 sample; after one more `Put(["k"], 1)` on the engine
the same window value reads Count 1 with 2 samples in that bucket: `Metrics.Window`
copies the histogram struct but not the array behind its `Buckets` slice. -/
theorem window_histogram_changes_after_put :
    ((exampleNew.Put ["k".toList] 1).bind fun m1 =>
      (m1.Window.Intervals.head?.bind fun i => i.Histogram m1.heap ["k".toList]).map
        fun h => (h.Count, h.Buckets.map (List.take 2))) =
      some (1, some [{ Value := 1, Count := 1 }, { Value := 3, Count := 0 }]) ∧
    ((exampleNew.Put ["k".toList] 1).bind fun m1 =>
      (m1.Put ["k".toList] 1).bind fun m2 =>
      (m1.Window.Intervals.head?.bind fun i => i.Histogram m2.heap ["k".toList]).map
        fun h => (h.Count, h.Buckets.map (List.take 2))) =
      some (1, some [{ Value := 1, Count := 2 }, { Value := 3, Count := 0 }]) := by
  refine ⟨?_, ?_⟩
  · with_unfolding_all decide
  · with_unfolding_all decide

/-- C13. With a template registered for `/test`, a sample put to `/test`, a rotation and
then one more `Put(["test"], 1)`: before that last call the earlier (first) interval
reads the histogram of `/test` with 1 sample in its first bucket, after it with 2. Both
histograms were built on the template's own array, so the write to the current interval
shows in the earlier one. -/
theorem put_changes_an_earlier_interval :
    ((((exampleNew.Buckets ["test".toList] (NewLinearBuckets 1 1 3)).bind
        fun m => m.Put ["test".toList] 1).bind Metrics.rotate).bind fun m2 =>
      m2.intervals.head?.bind fun i => i.Histogram m2.heap ["test".toList]) =
      some { Min := 1, Max := 1, Count := 1, Dropped := 0,
             Buckets := some [{ Value := 1, Count := 1 }, { Value := 2, Count := 0 },
                              { Value := 3, Count := 0 }] } ∧
    ((((exampleNew.Buckets ["test".toList] (NewLinearBuckets 1 1 3)).bind
        fun m => m.Put ["test".toList] 1).bind Metrics.rotate).bind fun m2 =>
      (m2.Put ["test".toList] 1).bind fun m3 =>
      m3.intervals.head?.bind fun i => i.Histogram m3.heap ["test".toList]) =
      some { Min := 1, Max := 1, Count := 1, Dropped := 0,
             Buckets := some [{ Value := 1, Count := 2 }, { Value := 2, Count := 0 },
                              { Value := 3, Count := 0 }] } ∧
    ((((exampleNew.Buckets ["test".toList] (NewLinearBuckets 1 1 3)).bind
        fun m => m.Put ["test".toList] 1).bind Metrics.rotate).map
      fun m2 => m2.intervals.length) = some 2 := by
  refine ⟨?_, ?_, ?_⟩
  · with_unfolding_all decide
  · with_unfolding_all decide
  · with_unfolding_all decide

/-! ## The wire format: round trips and the kind switch -/

set_option maxRecDepth 100000 in
/-- C14. A window that holds the histogram left by `Put(["test"], 1)` is serialized and
then fails to deserialize: the decoding returns an error, because `Bucket.MarshalJSON`
writes each bucket as an array `[bound, count]` and `Bucket` has no `UnmarshalJSON` to
read an array back. The window of the repository's test, holding only the gauge left by
`Set(["test"], 1)`, is deserialized into an equal window. -/
theorem window_with_histogram_fails_to_unmarshal :
    ((exampleMillis.Put ["test".toList] 1).map fun m =>
      unmarshalWindow m.heap (marshalWindow m.heap m.Window)) = some Outcome.err ∧
    ((exampleMillis.Set ["test".toList] 1).map fun m =>
      decide (unmarshalWindow m.heap (marshalWindow m.heap m.Window) =
        Outcome.ok (m.Window, m.heap))) = some true := by
  refine ⟨?_, ?_⟩
  · decide!
  · decide!

theorem stringsIndex_append_of_not_mem (c : Char) (p s : Str) (hp : c ∉ p) :
    stringsIndex c (p ++ c :: s) = p.length := by
  induction p with
  | nil => simp [stringsIndex]
  | cons d p ih =>
    have hd : d ≠ c := fun h => hp (by simp [h])
    have hp' : c ∉ p := fun h => hp (List.mem_cons_of_mem _ h)
    have hnn : ¬ ((p.length : Int) < 0) := by omega
    have e : stringsIndex c (d :: (p ++ c :: s)) =
        if stringsIndex c (p ++ c :: s) < 0 then -1 else stringsIndex c (p ++ c :: s) + 1 := by
      simp only [stringsIndex, hd, if_false]
    rw [List.cons_append, e, ih hp', if_neg hnn, List.length_cons]
    push_cast
    rfl

theorem sliceFrom_length_append (p s : Str) : sliceFrom (p ++ s) (p.length : Int) = some s := by
  unfold sliceFrom
  have h : ¬ (((p.length : Int) < 0) ∨ (((p ++ s).length : Int) < (p.length : Int))) := by
    simp only [List.length_append]
    push_cast
    omega
  rw [if_neg h]
  simp

/-- When the path holds no `:`, the kind switch of `Interval.UnmarshalJSON` picks the
kind of the suffix that the write API appended. -/
theorem newMetricFor_of_no_colon (p : Str) (hp : ':' ∉ p) :
    newMetricFor (p ++ kindCounter) = some (Metric.counter {}) ∧
    newMetricFor (p ++ kindGauge) = some (Metric.gauge {}) ∧
    newMetricFor (p ++ kindHistogram) = some (Metric.histogram {}) := by
  have hc : kindCounter = ':' :: "counter".toList := rfl
  have hg : kindGauge = ':' :: "gauge".toList := rfl
  have hh : kindHistogram = ':' :: "histogram".toList := rfl
  refine ⟨?_, ?_, ?_⟩
  · unfold newMetricFor
    rw [hc, stringsIndex_append_of_not_mem ':' p _ hp, sliceFrom_length_append]
    rfl
  · unfold newMetricFor
    rw [hg, stringsIndex_append_of_not_mem ':' p _ hp, sliceFrom_length_append]
    rfl
  · unfold newMetricFor
    rw [hh, stringsIndex_append_of_not_mem ':' p _ hp, sliceFrom_length_append]
    rfl

/-- C15. The write API accepts the key `["a:b"]` and stores its counter under
`/a:b:counter`; on that composite key the kind switch of `Interval.UnmarshalJSON` panics
instead of selecting the counter: `strings.Index` stops at the first `:`, so the switch
sees `:b:counter`. -/
theorem kind_switch_panics_on_colon_in_path :
    keyPath ["a:b".toList] = some "/a:b".toList ∧
    (exampleNew.Add ["a:b".toList] 1).map
        (fun m => m.intervals.map fun i => i.metrics.map fun e => e.1) =
      some [["/a:b:counter".toList]] ∧
    sliceFrom "/a:b:counter".toList (stringsIndex ':' "/a:b:counter".toList) =
      some ":b:counter".toList ∧
    newMetricFor ("/a:b".toList ++ kindCounter) = none := by
  refine ⟨?_, ?_, ?_, ?_⟩
  · decide
  · with_unfolding_all decide
  · decide
  · decide

theorem sliceFrom_suffix (k s : Str) (n : Int) (h : sliceFrom k n = some s) : s <:+ k := by
  unfold sliceFrom at h
  split at h
  · cases h
  · cases h
    exact List.drop_suffix _ _

theorem newMetricFor_some_suffix (k : Str) (t : Metric) (h : newMetricFor k = some t) :
    kindCounter <:+ k ∨ kindGauge <:+ k ∨ kindHistogram <:+ k := by
  unfold newMetricFor at h
  cases hs : sliceFrom k (stringsIndex ':' k) with
  | none => simp [hs] at h
  | some s =>
    have hsuf := sliceFrom_suffix k s _ hs
    simp only [hs] at h
    by_cases h1 : s = kindCounter
    · exact Or.inl (h1 ▸ hsuf)
    · by_cases h2 : s = kindGauge
      · exact Or.inr (Or.inl (h2 ▸ hsuf))
      · by_cases h3 : s = kindHistogram
        · exact Or.inr (Or.inr (h3 ▸ hsuf))
        · simp [h1, h2, h3] at h

theorem unmarshalLoop_cons (heap : Heap) (x : Str × Json) (rest : List (Str × Json))
    (acc : GoMap Metric) :
    unmarshalLoop heap (x :: rest) acc =
      match newMetricFor x.1 with
      | none => Outcome.panic
      | some target =>
        match decodeMetric heap target x.2 with
        | none => Outcome.err
        | some r => unmarshalLoop r.2 rest (acc.set x.1 r.1) := rfl

theorem unmarshalLoop_not_ok (entries : List (Str × Json)) (e : Str × Json)
    (he : e ∈ entries) (hbad : newMetricFor e.1 = none) :
    ∀ (heap : Heap) (acc : GoMap Metric) (r : GoMap Metric × Heap),
      unmarshalLoop heap entries acc ≠ Outcome.ok r := by
  induction entries with
  | nil => simp at he
  | cons x rest ih =>
    intro heap acc r
    rw [unmarshalLoop_cons]
    rcases List.mem_cons.mp he with h | h
    · subst h
      simp [hbad]
    · cases hx : newMetricFor x.1 with
      | none => simp
      | some target =>
        dsimp only
        cases hd : decodeMetric heap target x.2 with
        | none => simp
        | some d => exact ih h d.2 _ r

theorem unmarshalLoop_panic (entries : List (Str × Json)) (e : Str × Json)
    (he : e ∈ entries) (hbad : newMetricFor e.1 = none)
    (hdec : ∀ x ∈ entries, ∀ target heap, newMetricFor x.1 = some target →
      decodeMetric heap target x.2 ≠ none) :
    ∀ (heap : Heap) (acc : GoMap Metric), unmarshalLoop heap entries acc = Outcome.panic := by
  induction entries with
  | nil => simp at he
  | cons x rest ih =>
    intro heap acc
    rw [unmarshalLoop_cons]
    rcases List.mem_cons.mp he with h | h
    · subst h
      simp [hbad]
    · cases hx : newMetricFor x.1 with
      | none => rfl
      | some target =>
        dsimp only
        cases hd : decodeMetric heap target x.2 with
        | none => exact absurd hd (hdec x (List.mem_cons_self _ _) target heap hx)
        | some d =>
          exact ih h (fun y hy => hdec y (List.mem_cons_of_mem _ hy)) d.2 _

/-- The forms of a number: a `count` of value 100 decodes when it is written `100`, and is
an error when it is written with a fraction or an exponent (`100.0`, `1e2`); a count
written `-0` is an error; a `min` is stored in every form; a `time` written `-0` decodes,
one written `5.0` does not. -/
theorem number_forms_decoded :
    decodeCounter (Json.obj [("count".toList, Json.num 100)]) = some { Count := 100 } ∧
    decodeCounter (Json.obj [("count".toList, Json.numFloat 100)]) = none ∧
    decodeCounter (Json.obj [("count".toList, Json.minusZero)]) = none ∧
    decodeCounter (Json.obj [("min".toList, Json.numFloat 100)]) = some { Min := 100 } ∧
    decodeCounter (Json.obj [("min".toList, Json.minusZero)]) = some { Min := 0 } ∧
    decodeHeader (Json.obj [("time".toList, Json.minusZero)]) = some (0, []) ∧
    decodeHeader (Json.obj [("time".toList, Json.numFloat 5)]) = none := by
  refine ⟨?_, ?_, ?_, ?_, ?_, ?_, ?_⟩ <;> rfl

/-- A `metrics` member that is `null` makes the map `nil`: the keys of an earlier
`metrics` member of the same object are gone, and the call returns an interval without
metrics. -/
theorem metrics_null_resets_map :
    decodeHeader (Json.obj [("metrics".toList, Json.obj [("/a".toList, Json.null)]),
                            ("metrics".toList, Json.null)]) = some (0, []) ∧
    Interval.UnmarshalJSON []
        (Json.obj [("metrics".toList, Json.obj [("/a".toList, Json.null)]),
                   ("metrics".toList, Json.null)]) =
      Outcome.ok ({ time := fromUnixMilli 0, metrics := [] }, []) := by
  refine ⟨?_, ?_⟩ <;> rfl

/-- C16, counterexample. The metrics of `exampleUnknownKind` hold the key `/a`, which ends
in none of `:counter`, `:gauge`, `:histogram`, and `Interval.UnmarshalJSON` returns an
error on it and does not panic: the payload of `/b:counter`, visited before `/a`, does
not decode. On `exampleUnknownKindBadTime`, which holds the key `/a` alone, the call
returns an error and does not panic either: its `time` does not decode, and the call
returns before it looks at any key. With the same two keys and `/a` visited first the
call panics. -/
theorem unmarshal_unknown_kind_returns_error :
    (¬ kindCounter <:+ "/a".toList ∧ ¬ kindGauge <:+ "/a".toList ∧
      ¬ kindHistogram <:+ "/a".toList) ∧
    decodeHeader exampleUnknownKind =
      some (5, [("/b:counter".toList, Json.str "x".toList), ("/a".toList, Json.null)]) ∧
    Interval.UnmarshalJSON [] exampleUnknownKind = Outcome.err ∧
    Interval.UnmarshalJSON [] exampleUnknownKind ≠ Outcome.panic ∧
    Interval.UnmarshalJSON [] exampleUnknownKindBadTime = Outcome.err ∧
    Interval.UnmarshalJSON [] exampleUnknownKindBadTime ≠ Outcome.panic ∧
    Interval.UnmarshalJSON [] exampleUnknownKindFirst = Outcome.panic := by
  refine ⟨by decide, rfl, rfl, ?_, rfl, ?_, rfl⟩
  · have h : Interval.UnmarshalJSON [] exampleUnknownKind = Outcome.err := rfl
    rw [h]
    exact fun h => Outcome.noConfusion h
  · have h : Interval.UnmarshalJSON [] exampleUnknownKindBadTime = Outcome.err := rfl
    rw [h]
    exact fun h => Outcome.noConfusion h

/-- On `exampleUnknownKindDecodable`, where the payload of the counter decodes, the call
panics at the key `/a`. -/
theorem unmarshal_unknown_kind_panics_after_counter :
    Interval.UnmarshalJSON [] exampleUnknownKindDecodable = Outcome.panic := rfl

/-- C16, amended. Take a serialized interval and a key that ends in none of `:counter`,
`:gauge`, `:histogram` (a key without any `:` among them). When the interval does not
decode into its time and its metrics map, `Interval.UnmarshalJSON` returns that error.
When it does and the map holds the key, the call never returns successfully, so no
metric, default or other, is stored for that key: it panics or it returns an error. It
returns an error only when the payload of some key with a known kind does not decode, and
it panics whenever every such payload decodes. In whatever order the keys of the map are
visited, the loop over them never runs to its end. -/
theorem unmarshal_unknown_kind_never_succeeds (heap : Heap) (b : Json) (k : Str)
    (hbad : ¬ kindCounter <:+ k ∧ ¬ kindGauge <:+ k ∧ ¬ kindHistogram <:+ k) :
    (decodeHeader b = none → Interval.UnmarshalJSON heap b = Outcome.err) ∧
    (∀ (t : Int) (entries : GoMap Json) (raw : Json),
      decodeHeader b = some (t, entries) → (k, raw) ∈ entries →
      (∀ r, Interval.UnmarshalJSON heap b ≠ Outcome.ok r) ∧
      (Interval.UnmarshalJSON heap b = Outcome.panic ∨
        Interval.UnmarshalJSON heap b = Outcome.err) ∧
      (Interval.UnmarshalJSON heap b = Outcome.err →
        ∃ x ∈ entries, ∃ target hp, newMetricFor x.1 = some target ∧
          decodeMetric hp target x.2 = none) ∧
      ((∀ x ∈ entries, ∀ target hp, newMetricFor x.1 = some target →
          decodeMetric hp target x.2 ≠ none) →
        Interval.UnmarshalJSON heap b = Outcome.panic) ∧
      (∀ order : List (Str × Json), order.Perm entries →
        ∀ hp acc r, unmarshalLoop hp order acc ≠ Outcome.ok r)) := by
  have hnone : newMetricFor k = none := by
    cases h : newMetricFor k with
    | none => rfl
    | some target =>
      rcases newMetricFor_some_suffix k target h with h1 | h1 | h1
      · exact absurd h1 hbad.1
      · exact absurd h1 hbad.2.1
      · exact absurd h1 hbad.2.2
  constructor
  · intro hdec
    unfold Interval.UnmarshalJSON
    simp only [hdec]
  intro t entries raw hdec hk
  have hnot : ∀ r, Interval.UnmarshalJSON heap b ≠ Outcome.ok r := by
    intro r
    unfold Interval.UnmarshalJSON
    simp only [hdec]
    cases hl : unmarshalLoop heap entries [] with
    | ok x => exact absurd hl (unmarshalLoop_not_ok entries (k, raw) hk hnone heap [] x)
    | err => simp
    | panic => simp
  have hpanic : (∀ x ∈ entries, ∀ target hp, newMetricFor x.1 = some target →
      decodeMetric hp target x.2 ≠ none) →
      Interval.UnmarshalJSON heap b = Outcome.panic := by
    intro hall
    unfold Interval.UnmarshalJSON
    simp only [hdec, unmarshalLoop_panic entries (k, raw) hk hnone hall heap []]
  refine ⟨hnot, ?_, ?_, hpanic, ?_⟩
  · cases hr : Interval.UnmarshalJSON heap b with
    | ok r => exact absurd hr (hnot r)
    | err => exact Or.inr rfl
    | panic => exact Or.inl rfl
  · intro herr
    by_contra hno
    have hall : ∀ x ∈ entries, ∀ target hp, newMetricFor x.1 = some target →
        decodeMetric hp target x.2 ≠ none := by
      intro x hx target hp htar hd
      exact hno ⟨x, hx, target, hp, htar, hd⟩
    rw [hpanic hall] at herr
    exact Outcome.noConfusion herr
  · intro order hperm hp acc r
    exact unmarshalLoop_not_ok order (k, raw) (hperm.mem_iff.mpr hk) hnone hp acc r

theorem unmarshal_unknown_kind_never_succeeds_witness :
    (¬ kindCounter <:+ "/a".toList ∧ ¬ kindGauge <:+ "/a".toList ∧
      ¬ kindHistogram <:+ "/a".toList) ∧
    (∀ r, Interval.UnmarshalJSON [] exampleUnknownKindDecodable ≠ Outcome.ok r) ∧
    (Interval.UnmarshalJSON [] exampleUnknownKindDecodable = Outcome.panic ∨
      Interval.UnmarshalJSON [] exampleUnknownKindDecodable = Outcome.err) ∧
    (Interval.UnmarshalJSON [] exampleUnknownKindDecodable = Outcome.err →
      ∃ x ∈ [("/b:counter".toList, Json.obj [("count".toList, Json.num 1)]),
             ("/a".toList, Json.null)],
        ∃ target hp, newMetricFor x.1 = some target ∧ decodeMetric hp target x.2 = none) ∧
    ((∀ x ∈ [("/b:counter".toList, Json.obj [("count".toList, Json.num 1)]),
             ("/a".toList, Json.null)],
        ∀ target hp, newMetricFor x.1 = some target → decodeMetric hp target x.2 ≠ none) →
      Interval.UnmarshalJSON [] exampleUnknownKindDecodable = Outcome.panic) ∧
    (∀ order : List (Str × Json),
      order.Perm [("/b:counter".toList, Json.obj [("count".toList, Json.num 1)]),
                  ("/a".toList, Json.null)] →
      ∀ hp acc r, unmarshalLoop hp order acc ≠ Outcome.ok r) :=
  ⟨by decide,
   (unmarshal_unknown_kind_never_succeeds [] exampleUnknownKindDecodable "/a".toList
      (by decide)).2 5
     [("/b:counter".toList, Json.obj [("count".toList, Json.num 1)]), ("/a".toList, Json.null)]
     Json.null (by rfl) (by simp)⟩

/-! ## Percentiles -/

theorem cumCount_cons_succ (b : Bucket) (bs : List Bucket) (i : Nat) :
    cumCount (b :: bs) (i + 1) = b.Count + cumCount bs i := by
  simp [cumCount]

theorem cumCount_length (bs : List Bucket) :
    cumCount bs bs.length = (bs.map Bucket.Count).sum := by
  simp [cumCount]

theorem interpolation_bounds (x0 x1 y0 y1 p : ℚ) (hx : x0 ≤ x1) (h0 : y0 < p) (h1 : p ≤ y1) :
    x0 + (x1 - x0) * ((p - y0) / (y1 - y0)) = x0 + (x1 - x0) * (p - y0) / (y1 - y0) ∧
    x0 ≤ x0 + (x1 - x0) * ((p - y0) / (y1 - y0)) ∧
    x0 + (x1 - x0) * ((p - y0) / (y1 - y0)) ≤ x1 := by
  have hd : 0 < y1 - y0 := by linarith
  have hf0 : 0 ≤ (p - y0) / (y1 - y0) := div_nonneg (by linarith) (le_of_lt hd)
  have hf1 : (p - y0) / (y1 - y0) ≤ 1 := (div_le_one hd).mpr (by linarith)
  have hw : 0 ≤ x1 - x0 := by linarith
  refine ⟨by rw [mul_div_assoc], ?_, ?_⟩
  · have := mul_nonneg hw hf0
    linarith
  · have := mul_le_mul_of_nonneg_left hf1 hw
    linarith

theorem percentileLoop_spec (count : Nat) (p : ℚ) :
    ∀ (rest : List Bucket) (x0 : ℚ) (sum : Nat),
      (sum : ℚ) / (count : ℚ) < p →
      p ≤ ((sum + cumCount rest rest.length : Nat) : ℚ) / (count : ℚ) →
      sum + cumCount rest rest.length < u64 →
      (∀ b ∈ rest, x0 ≤ b.Value) →
      (rest.map Bucket.Value).Pairwise (· ≤ ·) →
      ∃ j, j < rest.length ∧
        (∀ i, i < j → ((sum + cumCount rest (i + 1) : Nat) : ℚ) / (count : ℚ) < p) ∧
        p ≤ ((sum + cumCount rest (j + 1) : Nat) : ℚ) / (count : ℚ) ∧
        percentileLoop count p rest x0 sum =
          (if j = 0 then x0 else boundAt rest (j - 1)) +
            (boundAt rest j - (if j = 0 then x0 else boundAt rest (j - 1))) *
              (p - ((sum + cumCount rest j : Nat) : ℚ) / (count : ℚ)) /
              (((sum + cumCount rest (j + 1) : Nat) : ℚ) / (count : ℚ) -
                ((sum + cumCount rest j : Nat) : ℚ) / (count : ℚ)) ∧
        (if j = 0 then x0 else boundAt rest (j - 1)) ≤ percentileLoop count p rest x0 sum ∧
        percentileLoop count p rest x0 sum ≤ boundAt rest j := by
  intro rest
  induction rest with
  | nil =>
    intro x0 sum h0 h1 _ _ _
    simp [cumCount] at h1
    exact absurd (lt_of_lt_of_le h0 h1) (lt_irrefl _)
  | cons b bs ih =>
    intro x0 sum h0 h1 hlt hx hs
    have hlen : cumCount (b :: bs) (b :: bs).length = b.Count + cumCount bs bs.length := by
      rw [List.length_cons, cumCount_cons_succ]
    rw [hlen] at h1 hlt
    have hmod : (sum + b.Count) % u64 = sum + b.Count := Nat.mod_eq_of_lt (by omega)
    have hone : cumCount (b :: bs) 1 = b.Count := by simp [cumCount]
    have hzero : cumCount (b :: bs) 0 = 0 := by simp [cumCount]
    by_cases hy : (((sum + b.Count : Nat) : ℚ) / (count : ℚ)) ≥ p
    · have hres : percentileLoop count p (b :: bs) x0 sum =
          x0 + (b.Value - x0) * ((p - (sum : ℚ) / (count : ℚ)) /
            (((sum + b.Count : Nat) : ℚ) / (count : ℚ) - (sum : ℚ) / (count : ℚ))) := by
        simp only [percentileLoop, hmod, hy, if_true]
      obtain ⟨e1, e2, e3⟩ := interpolation_bounds x0 b.Value ((sum : ℚ) / (count : ℚ))
        (((sum + b.Count : Nat) : ℚ) / (count : ℚ)) p (hx b (List.mem_cons_self _ _)) h0 hy
      refine ⟨0, by simp, fun i hi => absurd hi (Nat.not_lt_zero i), ?_, ?_, ?_, ?_⟩
      · simpa [hone] using hy
      · rw [hres, e1]
        simp [hone, hzero, boundAt]
      · rw [hres]
        simpa using e2
      · rw [hres]
        simpa [boundAt] using e3
    · have hres : percentileLoop count p (b :: bs) x0 sum =
          percentileLoop count p bs b.Value (sum + b.Count) := by
        simp only [percentileLoop, hmod, hy, if_false]
      rw [List.map_cons, List.pairwise_cons] at hs
      have hx' : ∀ b' ∈ bs, b.Value ≤ b'.Value := fun b' hb' =>
        hs.1 _ (List.mem_map_of_mem _ hb')
      have hassoc : sum + b.Count + cumCount bs bs.length =
          sum + (b.Count + cumCount bs bs.length) := Nat.add_assoc _ _ _
      obtain ⟨j, hj, hbefore, hat, hval, hlo, hhi⟩ :=
        ih b.Value (sum + b.Count) (not_le.mp hy) (by rw [hassoc]; exact h1)
          (by omega) hx' hs.2
      have hshift : ∀ i, sum + cumCount (b :: bs) (i + 1) = sum + b.Count + cumCount bs i := by
        intro i
        rw [cumCount_cons_succ, Nat.add_assoc]
      have hx0 : (if j = 0 then b.Value else boundAt bs (j - 1)) = boundAt (b :: bs) j := by
        cases j with
        | zero => simp [boundAt]
        | succ j => simp [boundAt]
      have hx1 : boundAt bs j = boundAt (b :: bs) (j + 1) := by simp [boundAt]
      refine ⟨j + 1, by simpa using hj, ?_, ?_, ?_, ?_, ?_⟩
      · intro i hi
        cases i with
        | zero =>
          rw [Nat.zero_add, hone]
          exact not_le.mp hy
        | succ i =>
          rw [hshift]
          exact hbefore i (by omega)
      · rw [hshift]
        exact hat
      · rw [hres, hval, hx0, hx1, hshift, hshift]
        simp
      · rw [hres]
        simpa [hx0] using hlo
      · rw [hres, ← hx1]
        exact hhi

/-- C17. For a histogram with `Count > 0`, non-negative ascending bucket bounds and a
total of bucket counts within `uint64`, and for `p > 0` not above the final cumulative
fraction, `Percentile(p)` finds the first bucket `j` whose cumulative fraction `y1`
reaches `p` and returns `x0 + (x1 - x0) * (p - y0) / (y1 - y0)`, with `x1` the bound of
that bucket, `x0` the bound before it (0 for the first bucket) and `y0` the cumulative
fraction before it; the result lies between `x0` and `x1`. -/
theorem percentile_interpolates_in_first_reaching_bucket (m : Histogram) (heap : Heap)
    (p : ℚ) (_hcount : 0 < m.Count)
    (hnonneg : ∀ b ∈ heap.read m.Buckets, 0 ≤ b.Value)
    (hasc : ((heap.read m.Buckets).map Bucket.Value).Pairwise (· ≤ ·))
    (htotal : cumCount (heap.read m.Buckets) (heap.read m.Buckets).length < u64)
    (hp0 : 0 < p)
    (hpmax : p ≤ cumFraction (heap.read m.Buckets) m.Count (heap.read m.Buckets).length) :
    ∃ j, j < (heap.read m.Buckets).length ∧
      (∀ i, i < j → cumFraction (heap.read m.Buckets) m.Count (i + 1) < p) ∧
      p ≤ cumFraction (heap.read m.Buckets) m.Count (j + 1) ∧
      m.Percentile heap p =
        boundBefore (heap.read m.Buckets) j +
          (boundAt (heap.read m.Buckets) j - boundBefore (heap.read m.Buckets) j) *
            (p - cumFraction (heap.read m.Buckets) m.Count j) /
            (cumFraction (heap.read m.Buckets) m.Count (j + 1) -
              cumFraction (heap.read m.Buckets) m.Count j) ∧
      boundBefore (heap.read m.Buckets) j ≤ m.Percentile heap p ∧
      m.Percentile heap p ≤ boundAt (heap.read m.Buckets) j := by
  have h := percentileLoop_spec m.Count p (heap.read m.Buckets) 0 0
    (by simpa using hp0) (by simpa [cumFraction] using hpmax) (by simpa using htotal)
    hnonneg hasc
  simpa [cumFraction, boundBefore, Histogram.Percentile] using h

theorem percentile_interpolates_in_first_reaching_bucket_witness :
    ∃ j, j < (examplePercentileHeap.read examplePercentile.Buckets).length ∧
      (∀ i, i < j → cumFraction (examplePercentileHeap.read examplePercentile.Buckets)
        examplePercentile.Count (i + 1) < 1 / 2) ∧
      1 / 2 ≤ cumFraction (examplePercentileHeap.read examplePercentile.Buckets)
        examplePercentile.Count (j + 1) ∧
      examplePercentile.Percentile examplePercentileHeap (1 / 2) =
        boundBefore (examplePercentileHeap.read examplePercentile.Buckets) j +
          (boundAt (examplePercentileHeap.read examplePercentile.Buckets) j -
              boundBefore (examplePercentileHeap.read examplePercentile.Buckets) j) *
            (1 / 2 - cumFraction (examplePercentileHeap.read examplePercentile.Buckets)
              examplePercentile.Count j) /
            (cumFraction (examplePercentileHeap.read examplePercentile.Buckets)
                examplePercentile.Count (j + 1) -
              cumFraction (examplePercentileHeap.read examplePercentile.Buckets)
                examplePercentile.Count j) ∧
      boundBefore (examplePercentileHeap.read examplePercentile.Buckets) j ≤
        examplePercentile.Percentile examplePercentileHeap (1 / 2) ∧
      examplePercentile.Percentile examplePercentileHeap (1 / 2) ≤
        boundAt (examplePercentileHeap.read examplePercentile.Buckets) j :=
  percentile_interpolates_in_first_reaching_bucket examplePercentile examplePercentileHeap
    (1 / 2) (by decide) (by with_unfolding_all decide) (by with_unfolding_all decide)
    (by decide) (by with_unfolding_all decide) (by with_unfolding_all decide)

/-! ## The bucket generators -/

theorem flatMap_cast_singleton (l : List Nat) :
    (List.flatMap l fun (a : Nat) => [(Nat.cast a : ℚ)]) =
      List.map (fun (a : Nat) => (Nat.cast a : ℚ)) l := by
  induction l with
  | nil => rfl
  | cons a l ih => simp [List.flatMap_cons, ih]

theorem NewLinearBuckets_eq (offset width : ℚ) (count : Int) :
    NewLinearBuckets offset width count =
      if count < 0 then none
      else some (List.map
        (fun (i : Nat) => ({ Value := offset + width * (Nat.cast i : ℚ) } : Bucket))
        (List.range count.toNat)) := by
  unfold NewLinearBuckets
  split
  · rfl
  · congr 1
    show List.map _
      (List.flatMap (List.range count.toNat) fun (a : Nat) => [(Nat.cast a : ℚ)]) = _
    rw [flatMap_cast_singleton, List.map_map]
    rfl

/-- C18. For every offset and width and every `count ≥ 0`, `NewLinearBuckets` returns
exactly `count` buckets, the `i`-th (from 0) with `Value = offset + width * i` and
`Count = 0`; for `count = 0` the result is empty, and `NewLinearBuckets(5, 15, 4)` has the
bounds 5, 20, 35, 50. -/
theorem linear_buckets_values (offset width : ℚ) (count : Int) (hc : 0 ≤ count) :
    ∃ bs, NewLinearBuckets offset width count = some bs ∧
      bs.length = count.toNat ∧
      (∀ i, i < count.toNat →
        bs[i]? = some { Value := offset + width * (i : ℚ), Count := 0 }) ∧
      (count = 0 → bs = []) ∧
      NewLinearBuckets 5 15 4 =
        some [{ Value := 5, Count := 0 }, { Value := 20, Count := 0 },
              { Value := 35, Count := 0 }, { Value := 50, Count := 0 }] := by
  refine ⟨List.map (fun (i : Nat) => ({ Value := offset + width * (Nat.cast i : ℚ) } : Bucket))
      (List.range count.toNat),
    by simp [NewLinearBuckets_eq, not_lt.mpr hc], by simp, ?_, ?_, ?_⟩
  · intro i hi
    simp [List.getElem?_map, List.getElem?_range hi]
  · intro h0
    simp [h0]
  · with_unfolding_all decide

theorem linear_buckets_values_witness :
    ∃ bs, NewLinearBuckets 1 1 3 = some bs ∧
      bs.length = (3 : Int).toNat ∧
      (∀ i, i < (3 : Int).toNat →
        bs[i]? = some { Value := 1 + 1 * (i : ℚ), Count := 0 }) ∧
      ((3 : Int) = 0 → bs = []) ∧
      NewLinearBuckets 5 15 4 =
        some [{ Value := 5, Count := 0 }, { Value := 20, Count := 0 },
              { Value := 35, Count := 0 }, { Value := 50, Count := 0 }] :=
  linear_buckets_values 1 1 3 (by decide)

/-- C19. For every scale and growth and every `count ≥ 0`, `NewExponentialBuckets`
returns exactly `count` buckets, the `i`-th (from 0) with `Value = scale * growth ^ i` and
`Count = 0`; `(3, 2, 4)` gives the bounds 3, 6, 12, 24 and `(1, 1.5, 6)` gives 1, 1.5,
2.25, 3.375, 5.0625, 7.59375. -/
theorem exponential_buckets_values (scale growth : ℚ) (count : Int) (hc : 0 ≤ count) :
    ∃ bs, NewExponentialBuckets scale growth count = some bs ∧
      bs.length = count.toNat ∧
      (∀ i, i < count.toNat →
        bs[i]? = some { Value := scale * growth ^ i, Count := 0 }) ∧
      NewExponentialBuckets 3 2 4 =
        some [{ Value := 3, Count := 0 }, { Value := 6, Count := 0 },
              { Value := 12, Count := 0 }, { Value := 24, Count := 0 }] ∧
      NewExponentialBuckets 1 (3 / 2) 6 =
        some [{ Value := 1, Count := 0 }, { Value := 3 / 2, Count := 0 },
              { Value := 9 / 4, Count := 0 }, { Value := 27 / 8, Count := 0 },
              { Value := 81 / 16, Count := 0 }, { Value := 243 / 32, Count := 0 }] := by
  refine ⟨(List.range count.toNat).map fun (i : Nat) => { Value := scale * growth ^ i },
    by simp [NewExponentialBuckets, not_lt.mpr hc], by simp, ?_, ?_, ?_⟩
  · intro i hi
    simp [List.getElem?_map, List.getElem?_range hi]
  · with_unfolding_all decide
  · with_unfolding_all decide

theorem exponential_buckets_values_witness :
    ∃ bs, NewExponentialBuckets 3 2 4 = some bs ∧
      bs.length = (4 : Int).toNat ∧
      (∀ i, i < (4 : Int).toNat →
        bs[i]? = some { Value := 3 * 2 ^ i, Count := 0 }) ∧
      NewExponentialBuckets 3 2 4 =
        some [{ Value := 3, Count := 0 }, { Value := 6, Count := 0 },
              { Value := 12, Count := 0 }, { Value := 24, Count := 0 }] ∧
      NewExponentialBuckets 1 (3 / 2) 6 =
        some [{ Value := 1, Count := 0 }, { Value := 3 / 2, Count := 0 },
              { Value := 9 / 4, Count := 0 }, { Value := 27 / 8, Count := 0 },
              { Value := 81 / 16, Count := 0 }, { Value := 243 / 32, Count := 0 }] :=
  exponential_buckets_values 3 2 4 (by decide)

/-! ## Key paths -/

theorem joinSlash_eq_intercalate (segs : List Str) :
    joinSlash segs = List.intercalate ['/'] segs := by
  induction segs with
  | nil => rfl
  | cons e es ih =>
    cases es with
    | nil => simp [joinSlash, List.intercalate]
    | cons e' es' =>
      have h : joinSlash (e :: e' :: es') = e ++ '/' :: joinSlash (e' :: es') := rfl
      rw [h, ih]
      simp [List.intercalate]

theorem splitSlash_of_no_slash (s : Str) (hs : '/' ∉ s) : splitSlash s = [s] := by
  induction s with
  | nil => rfl
  | cons c cs ih =>
    have hc : c ≠ '/' := fun h => hs (by simp [h])
    have hcs : '/' ∉ cs := fun h => hs (List.mem_cons_of_mem _ h)
    simp [splitSlash, hc, ih hcs]

theorem splitSlash_append_slash (s t : Str) (hs : '/' ∉ s) :
    splitSlash (s ++ '/' :: t) = s :: splitSlash t := by
  induction s with
  | nil => simp [splitSlash]
  | cons c cs ih =>
    have hc : c ≠ '/' := fun h => hs (by simp [h])
    have hcs : '/' ∉ cs := fun h => hs (List.mem_cons_of_mem _ h)
    simp [splitSlash, hc, ih hcs]

theorem splitSlash_joinSlash (segs : List Str) (hne : segs ≠ [])
    (h : ∀ s ∈ segs, '/' ∉ s) : splitSlash (joinSlash segs) = segs := by
  induction segs with
  | nil => exact absurd rfl hne
  | cons e es ih =>
    cases es with
    | nil => simpa [joinSlash] using splitSlash_of_no_slash e (h e (List.mem_cons_self _ _))
    | cons e' es' =>
      have hj : joinSlash (e :: e' :: es') = e ++ '/' :: joinSlash (e' :: es') := rfl
      rw [hj, splitSlash_append_slash e _ (h e (List.mem_cons_self _ _)),
        ih (List.cons_ne_nil _ _) fun s hs => h s (List.mem_cons_of_mem _ hs)]

theorem cleanElems_plain (rooted : Bool) (segs : List Str)
    (h : ∀ s ∈ segs, s ≠ [] ∧ s ≠ ['.'] ∧ s ≠ ['.', '.']) :
    ∀ st, cleanElems rooted segs st = segs.reverse ++ st := by
  induction segs with
  | nil => intro st; rfl
  | cons e es ih =>
    intro st
    obtain ⟨h1, h2, h3⟩ := h e (List.mem_cons_self _ _)
    simp [cleanElems, h1, h2, h3, ih fun s hs => h s (List.mem_cons_of_mem _ hs)]

theorem Clean_rooted (x : Str) :
    Clean ('/' :: x) = '/' :: joinSlash (cleanElems true (splitSlash x) []).reverse := by
  simp [Clean, splitSlash, cleanElems]

/-- C20. The function keyPath panics exactly on the empty key; for a non-empty key whose
segments are non-empty, hold no `/` and are neither `.` nor `..`, it returns the rooted
path: `/` followed by the segments joined by `/`, so that `["http", "requests"]` gives
`/http/requests`. -/
theorem keyPath_panics_only_on_empty_key (key : List Str) :
    (keyPath key = none ↔ key = []) ∧
    (key ≠ [] → (∀ s ∈ key, s ≠ [] ∧ '/' ∉ s ∧ s ≠ ['.'] ∧ s ≠ ['.', '.']) →
      keyPath key = some ('/' :: List.intercalate ['/'] key)) ∧
    keyPath ["http".toList, "requests".toList] = some "/http/requests".toList := by
  refine ⟨?_, ?_, by decide⟩
  · cases key with
    | nil => simp [keyPath]
    | cons k0 rest => simp [keyPath]
  · intro hne hsegs
    cases key with
    | nil => exact absurd rfl hne
    | cons k0 rest =>
      have hsplit : splitSlash (joinSlash (k0 :: rest)) = k0 :: rest :=
        splitSlash_joinSlash _ hne fun s hs => (hsegs s hs).2.1
      have hclean : cleanElems true (k0 :: rest) [] = (k0 :: rest).reverse ++ [] :=
        cleanElems_plain true _ (fun s hs => ⟨(hsegs s hs).1, (hsegs s hs).2.2⟩) []
      have hjoin : joinSlash (('/' :: k0) :: rest) = '/' :: joinSlash (k0 :: rest) :=
        joinSlash_cons_cons '/' k0 rest
      simp only [keyPath, Join, hjoin, Clean_rooted, hsplit, hclean]
      simp [joinSlash_eq_intercalate]

theorem keyPath_panics_only_on_empty_key_witness :
    (keyPath ["a".toList, "b".toList] = none ↔ ["a".toList, "b".toList] = []) ∧
    keyPath ["a".toList, "b".toList] =
      some ('/' :: List.intercalate ['/'] ["a".toList, "b".toList]) :=
  ⟨(keyPath_panics_only_on_empty_key ["a".toList, "b".toList]).1,
   (keyPath_panics_only_on_empty_key ["a".toList, "b".toList]).2.1 (by decide) (by decide)⟩

/-! ## What a write leaves alone -/

theorem Metrics.setCurrent_dropLast (m : Metrics) (cur : Interval) (mt : GoMap Metric) :
    (m.setCurrent cur mt).intervals.dropLast = m.intervals.dropLast := by
  simp [Metrics.setCurrent]

/-- The calls Add, Set and Mod change neither an earlier interval nor any bucket array, and
Put leaves the stored fields of the earlier intervals as they are; what Put can change
in an earlier interval are the counts in a bucket array that a histogram there shares
with the histogram written to. -/
theorem writes_leave_earlier_interval_fields (m m' : Metrics) (key : List Str) (v : ℚ) :
    (m.Add key v = some m' →
      m'.intervals.dropLast = m.intervals.dropLast ∧ m'.heap = m.heap) ∧
    (m.Set key v = some m' →
      m'.intervals.dropLast = m.intervals.dropLast ∧ m'.heap = m.heap) ∧
    (m.Mod key v = some m' →
      m'.intervals.dropLast = m.intervals.dropLast ∧ m'.heap = m.heap) ∧
    (m.Put key v = some m' → m'.intervals.dropLast = m.intervals.dropLast) := by
  refine ⟨?_, ?_, ?_, ?_⟩
  · intro h
    unfold Metrics.Add at h
    cases hp : keyPath key with
    | none => simp [hp] at h
    | some p =>
      cases hcur : m.current with
      | none => simp [hp, hcur] at h
      | some cur =>
        simp only [hp, hcur] at h
        split at h
        · cases h
          exact ⟨Metrics.setCurrent_dropLast m cur _, rfl⟩
        · cases h
          exact ⟨Metrics.setCurrent_dropLast m cur _, rfl⟩
        · cases h
  · intro h
    unfold Metrics.Set at h
    cases hp : keyPath key with
    | none => simp [hp] at h
    | some p =>
      cases hcur : m.current with
      | none => simp [hp, hcur] at h
      | some cur =>
        simp only [hp, hcur] at h
        split at h
        · cases h
          exact ⟨Metrics.setCurrent_dropLast m cur _, rfl⟩
        · cases h
          exact ⟨Metrics.setCurrent_dropLast m cur _, rfl⟩
        · cases h
  · intro h
    unfold Metrics.Mod at h
    cases hp : keyPath key with
    | none => simp [hp] at h
    | some p =>
      cases hcur : m.current with
      | none => simp [hp, hcur] at h
      | some cur =>
        simp only [hp, hcur] at h
        split at h
        · split at h
          · cases h
          · cases h
            exact ⟨Metrics.setCurrent_dropLast m cur _, rfl⟩
        · cases h
          exact ⟨Metrics.setCurrent_dropLast m cur _, rfl⟩
        · cases h
  · intro h
    unfold Metrics.Put at h
    cases hp : keyPath key with
    | none => simp [hp] at h
    | some p =>
      cases hcur : m.current with
      | none => simp [hp, hcur] at h
      | some cur =>
        simp only [hp, hcur] at h
        split at h
        · cases h
          exact Metrics.setCurrent_dropLast m cur _
        · cases h
          exact Metrics.setCurrent_dropLast m cur _
        · cases h

/-! ## The accounting of samples -/

theorem Histogram.Put_read (h : Histogram) (heap : Heap) (v : ℚ) :
    (h.Put heap v).1 = (putDetached (h, heap.read h.Buckets) v).1 ∧
      (h.Put heap v).2.read (h.Put heap v).1.Buckets =
        (putDetached (h, heap.read h.Buckets) v).2 ∧
      (h.Put heap v).2.length = heap.length := by
  cases hb : h.Buckets with
  | none =>
    simp [Histogram.Put, putDetached, hb, Heap.read, putBuckets]
  | some r =>
    by_cases hr : r < heap.length
    · obtain ⟨e1, e2, e3⟩ := Histogram.Put_detached h heap r v hb hr
      refine ⟨by simpa [Heap.read] using e1, ?_, e3⟩
      rw [e1, putDetached_buckets]
      simpa [Heap.read, hb] using e2
    · have hd : heap.getD r [] = [] := by
        simp [List.getD_eq_getElem?_getD, List.getElem?_eq_none (not_lt.mp hr)]
      unfold Histogram.Put putDetached
      simp only [hb, Heap.read, hd, putBuckets]
      exact ⟨trivial, trivial, trivial⟩

theorem countSum_cons (b : Bucket) (bs : List Bucket) :
    countSum (b :: bs) = b.Count + countSum bs := by
  simp [countSum]

theorem sumCounts_eq (bs : List Bucket) :
    ∀ acc, acc < u64 → sumCounts acc bs = (acc + countSum bs) % u64 := by
  induction bs with
  | nil =>
    intro acc hacc
    simp [sumCounts, countSum, Nat.mod_eq_of_lt hacc]
  | cons b bs ih =>
    intro acc _
    have hlt : (acc + b.Count) % u64 < u64 := Nat.mod_lt _ (by decide)
    rw [sumCounts, ih _ hlt, countSum_cons]
    simp only [u64]
    omega

theorem putBuckets_first (v : ℚ) (bs : List Bucket) :
    ∀ j, j < bs.length → v ≤ boundAt bs j → (∀ i, i < j → boundAt bs i < v) →
      putBuckets v bs = some (bumpAt j bs) := by
  induction bs with
  | nil => intro j hj; simp at hj
  | cons b bs ih =>
    intro j hj hle hbefore
    cases j with
    | zero =>
      have h0 : v ≤ b.Value := by simpa [boundAt] using hle
      simp [putBuckets, h0, bumpAt]
    | succ j =>
      have h0 : ¬ v ≤ b.Value := by
        have := hbefore 0 (Nat.succ_pos j)
        simpa [boundAt] using this
      have hrec := ih j (by simpa using hj) (by simpa [boundAt] using hle)
        (fun i hi => by simpa [boundAt] using hbefore (i + 1) (by omega))
      simp [putBuckets, h0, hrec, bumpAt]

theorem putBuckets_countSum (v : ℚ) (bs bs' : List Bucket) (h : putBuckets v bs = some bs') :
    countSum bs' % u64 = (countSum bs + 1) % u64 := by
  induction bs generalizing bs' with
  | nil => simp [putBuckets] at h
  | cons b bs ih =>
    by_cases hv : v ≤ b.Value
    · simp [putBuckets, hv] at h
      subst h
      simp only [countSum_cons, incr, u64]
      omega
    · simp only [putBuckets, hv, if_false, Option.map_eq_some'] at h
      obtain ⟨r, hr, rfl⟩ := h
      have := ih r hr
      simp only [countSum_cons, u64] at this ⊢
      omega

theorem putDetached_accounting (s : Histogram × List Bucket) (v : ℚ)
    (h : s.1.Count = (countSum s.2 + s.1.Dropped) % u64) :
    (putDetached s v).1.Count =
      (countSum (putDetached s v).2 + (putDetached s v).1.Dropped) % u64 := by
  unfold putDetached
  cases hb : putBuckets v s.2 with
  | none =>
    simp only [h, incr, u64]
    omega
  | some bs' =>
    have := putBuckets_countSum v s.2 bs' hb
    simp only [h, incr, u64] at this ⊢
    omega

theorem Histogram.Put_accounting (h : Histogram) (heap : Heap) (v : ℚ)
    (hinv : h.Count = (countSum (heap.read h.Buckets) + h.Dropped) % u64) :
    (h.Put heap v).1.Count =
      (countSum ((h.Put heap v).2.read (h.Put heap v).1.Buckets) +
        (h.Put heap v).1.Dropped) % u64 := by
  obtain ⟨e1, e2, -⟩ := Histogram.Put_read h heap v
  rw [e2, e1]
  exact putDetached_accounting (h, heap.read h.Buckets) v hinv

theorem Histogram.putAll_accounting (vs : List ℚ) :
    ∀ (h : Histogram) (heap : Heap),
      h.Count = (countSum (heap.read h.Buckets) + h.Dropped) % u64 →
      (h.putAll heap vs).1.Count =
        (countSum ((h.putAll heap vs).2.read (h.putAll heap vs).1.Buckets) +
          (h.putAll heap vs).1.Dropped) % u64 := by
  induction vs with
  | nil => exact fun h heap hinv => hinv
  | cons v vs ih =>
    intro h heap hinv
    exact ih _ _ (Histogram.Put_accounting h heap v hinv)

theorem NewHistogram_accounting (b : Slice) (heap : Heap) :
    (NewHistogram b heap).1.Count =
      (countSum ((NewHistogram b heap).2.read (NewHistogram b heap).1.Buckets) +
        (NewHistogram b heap).1.Dropped) % u64 := by
  simp only [NewHistogram, Nat.add_zero]
  rw [sumCounts_eq _ 0 (by decide), Nat.zero_add]

/-- C21. A histogram made by `NewHistogram` from any bucket slice (whatever its initial
counts, `nil` included) and fed any run of samples has, in `uint64` arithmetic,
`Count = (sum of all bucket Counts) + Dropped`, exactly so whenever that sum is within
`uint64`. One more `Put(v)` increments `Count` and exactly one other number: the count of
the first bucket whose bound is at least `v`, the array being otherwise unchanged, or
`Dropped` when every bound is below `v`. -/
theorem put_accounts_each_sample_once (heap : Heap) (b : Slice) (vs : List ℚ) (v : ℚ)
    (h h' : Histogram) (hp hp' : Heap)
    (hrun : (NewHistogram b heap).1.putAll (NewHistogram b heap).2 vs = (h, hp))
    (hput : h.Put hp v = (h', hp')) :
    h.Count = (countSum (hp.read h.Buckets) + h.Dropped) % u64 ∧
    (countSum (hp.read h.Buckets) + h.Dropped < u64 →
      h.Count = countSum (hp.read h.Buckets) + h.Dropped) ∧
    h'.Count = incr h.Count ∧ h'.Buckets = h.Buckets ∧
    (∀ j, j < (hp.read h.Buckets).length → v ≤ boundAt (hp.read h.Buckets) j →
      (∀ i, i < j → boundAt (hp.read h.Buckets) i < v) →
      hp'.read h'.Buckets = bumpAt j (hp.read h.Buckets) ∧ h'.Dropped = h.Dropped) ∧
    ((∀ x ∈ hp.read h.Buckets, x.Value < v) →
      hp'.read h'.Buckets = hp.read h.Buckets ∧ h'.Dropped = incr h.Dropped) := by
  have hinv := Histogram.putAll_accounting vs _ _ (NewHistogram_accounting b heap)
  rw [hrun] at hinv
  obtain ⟨e1, e2, -⟩ := Histogram.Put_read h hp v
  rw [hput] at e1 e2
  simp only at e1 e2 hinv
  refine ⟨hinv, ?_, ?_, ?_, ?_, ?_⟩
  · intro hlt
    rw [hinv, Nat.mod_eq_of_lt hlt]
  · rw [e1, putDetached_count]
  · rw [e1, putDetached_buckets]
  · intro j hj hle hbefore
    have hb := putBuckets_first v (hp.read h.Buckets) j hj hle hbefore
    rw [e2, e1]
    simp [putDetached, hb]
  · intro hall
    have hb : putBuckets v (hp.read h.Buckets) = none := by
      rw [putBuckets_eq_none_iff]
      simp only [exceedsAll, List.all_eq_true, List.mem_map, decide_eq_true_eq]
      rintro x ⟨y, hy, rfl⟩
      exact hall y hy
    rw [e2, e1]
    simp [putDetached, hb]

theorem put_accounts_each_sample_once_witness :
    exampleAfterRun.Count =
      (countSum (exampleAfterRunHeap.read exampleAfterRun.Buckets) +
        exampleAfterRun.Dropped) % u64 ∧
    (countSum (exampleAfterRunHeap.read exampleAfterRun.Buckets) +
        exampleAfterRun.Dropped < u64 →
      exampleAfterRun.Count =
        countSum (exampleAfterRunHeap.read exampleAfterRun.Buckets) +
          exampleAfterRun.Dropped) ∧
    exampleAfterPut.Count = incr exampleAfterRun.Count ∧
    exampleAfterPut.Buckets = exampleAfterRun.Buckets ∧
    (∀ j, j < (exampleAfterRunHeap.read exampleAfterRun.Buckets).length →
      3 ≤ boundAt (exampleAfterRunHeap.read exampleAfterRun.Buckets) j →
      (∀ i, i < j → boundAt (exampleAfterRunHeap.read exampleAfterRun.Buckets) i < 3) →
      exampleAfterPutHeap.read exampleAfterPut.Buckets =
          bumpAt j (exampleAfterRunHeap.read exampleAfterRun.Buckets) ∧
        exampleAfterPut.Dropped = exampleAfterRun.Dropped) ∧
    ((∀ x ∈ exampleAfterRunHeap.read exampleAfterRun.Buckets, x.Value < 3) →
      exampleAfterPutHeap.read exampleAfterPut.Buckets =
          exampleAfterRunHeap.read exampleAfterRun.Buckets ∧
        exampleAfterPut.Dropped = incr exampleAfterRun.Dropped) :=
  put_accounts_each_sample_once exampleCountedHeap (some 0) [1, 7] 3
    exampleAfterRun exampleAfterPut exampleAfterRunHeap exampleAfterPutHeap
    (by with_unfolding_all decide) (by with_unfolding_all decide)

/-! ## Bucket bounds never change -/

theorem Histogram.Put_bounds (h : Histogram) (heap : Heap) (v : ℚ) (s : Slice) :
    ((h.Put heap v).2.read s).map Bucket.Value = (heap.read s).map Bucket.Value := by
  unfold Histogram.Put
  cases hb : h.Buckets with
  | none => rfl
  | some r =>
    simp only
    cases hpb : putBuckets v (heap.getD r []) with
    | none => rfl
    | some bs' =>
      simp only
      cases s with
      | none => rfl
      | some r' =>
        simp only [Heap.read, List.getD_eq_getElem?_getD]
        by_cases hrr : r = r'
        · subst hrr
          by_cases hr : r < heap.length
          · rw [List.getElem?_set_self hr]
            simpa [List.getD_eq_getElem?_getD] using putBuckets_values v _ bs' hpb
          · rw [List.set_eq_of_length_le (not_lt.mp hr)]
        · rw [List.getElem?_set_ne hrr]

theorem Heap.read_alloc (heap : Heap) (bs : List Bucket) (s : Slice)
    (hs : validSlice heap s) : (heap.alloc bs).2.read s = heap.read s := by
  cases s with
  | none => rfl
  | some r =>
    have hr : r < heap.length := hs
    simp [Heap.alloc, Heap.read, List.getD_eq_getElem?_getD, List.getElem?_append_left hr]

/-- C22. The bounds of an existing histogram never change. `Histogram.Put(v)` keeps the
slice of the histogram, the number of its buckets and every bound, and so for every
bucket array of the heap; and on an engine state whose slices refer to arrays of the
heap, `Metrics.Buckets(prefix, template)` leaves the intervals as they are and, for
every histogram stored in any interval, the number of buckets and every bound. -/
theorem bucket_bounds_never_change (h : Histogram) (heap : Heap) (v : ℚ)
    (m m' : Metrics) (key : List Str) (template : Option (List Bucket))
    (hvalid : m.RefsValid) (hop : m.Buckets key template = some m') :
    ((h.Put heap v).1.Buckets = h.Buckets ∧
      ((h.Put heap v).2.read h.Buckets).length = (heap.read h.Buckets).length ∧
      ((h.Put heap v).2.read h.Buckets).map Bucket.Value =
        (heap.read h.Buckets).map Bucket.Value ∧
      ∀ s : Slice, ((h.Put heap v).2.read s).map Bucket.Value =
        (heap.read s).map Bucket.Value) ∧
    (m'.intervals = m.intervals ∧
      ∀ i ∈ m.intervals, ∀ k x, i.metrics.get k = some (Metric.histogram x) →
        (m'.heap.read x.Buckets).length = (m.heap.read x.Buckets).length ∧
        (m'.heap.read x.Buckets).map Bucket.Value =
          (m.heap.read x.Buckets).map Bucket.Value) := by
  constructor
  · have hb := Histogram.Put_bounds h heap v
    refine ⟨?_, ?_, hb _, hb⟩
    · rw [(Histogram.Put_read h heap v).1, putDetached_buckets]
    · have := congrArg List.length (hb h.Buckets)
      simpa using this
  · unfold Metrics.Buckets at hop
    cases hp : keyPath key with
    | none => simp [hp] at hop
    | some p =>
      simp only [hp] at hop
      cases template with
      | none =>
        cases hop
        exact ⟨rfl, fun i _ k x _ => ⟨rfl, rfl⟩⟩
      | some bs =>
        cases hop
        refine ⟨rfl, fun i hi k x hx => ?_⟩
        have hs : validSlice m.heap x.Buckets :=
          hvalid.2 i hi _ (GoMap.get_mem _ _ _ hx)
        have hread : (m.heap.alloc bs).2.read x.Buckets = m.heap.read x.Buckets :=
          Heap.read_alloc m.heap bs x.Buckets hs
        rw [hread]
        exact ⟨rfl, rfl⟩

theorem bucket_bounds_never_change_witness :
    ((exampleAfterRun.Put exampleAfterRunHeap 3).1.Buckets = exampleAfterRun.Buckets ∧
      ((exampleAfterRun.Put exampleAfterRunHeap 3).2.read exampleAfterRun.Buckets).length =
        (exampleAfterRunHeap.read exampleAfterRun.Buckets).length ∧
      ((exampleAfterRun.Put exampleAfterRunHeap 3).2.read exampleAfterRun.Buckets).map
          Bucket.Value =
        (exampleAfterRunHeap.read exampleAfterRun.Buckets).map Bucket.Value ∧
      ∀ s : Slice, ((exampleAfterRun.Put exampleAfterRunHeap 3).2.read s).map Bucket.Value =
        (exampleAfterRunHeap.read s).map Bucket.Value) ∧
    (exampleMixedConfigured.intervals = exampleMixed.intervals ∧
      ∀ i ∈ exampleMixed.intervals, ∀ k x, i.metrics.get k = some (Metric.histogram x) →
        (exampleMixedConfigured.heap.read x.Buckets).length =
          (exampleMixed.heap.read x.Buckets).length ∧
        (exampleMixedConfigured.heap.read x.Buckets).map Bucket.Value =
          (exampleMixed.heap.read x.Buckets).map Bucket.Value) :=
  bucket_bounds_never_change exampleAfterRun exampleAfterRunHeap 3
    exampleMixed exampleMixedConfigured ["x".toList] (NewLinearBuckets 1 1 2)
    (by decide) (by with_unfolding_all decide)

/-! ## Reachable states refer to arrays of the heap -/

theorem validSlice_mono {heap heap' : Heap} {s : Slice} (hs : validSlice heap s)
    (hlen : heap.length ≤ heap'.length) : validSlice heap' s := by
  cases s with
  | none => trivial
  | some r => exact Nat.lt_of_lt_of_le hs hlen

theorem Metrics.RefsValid.update {m : Metrics} (hm : m.RefsValid) (cur : Interval)
    (hcur : m.current = some cur) (k : Str) (x : Metric) (hp : Heap)
    (hlen : m.heap.length ≤ hp.length) (hx : validSlice hp x.slice) :
    Metrics.RefsValid { m.setCurrent cur (cur.metrics.set k x) with heap := hp } := by
  have hmem : cur ∈ m.intervals := by
    rw [Metrics.current_eq_some m cur hcur]
    simp
  refine ⟨fun e he => validSlice_mono (hm.1 e he) hlen, ?_⟩
  intro i hi e he
  simp only [Metrics.setCurrent, List.mem_append, List.mem_singleton] at hi
  rcases hi with hi | hi
  · exact validSlice_mono (hm.2 i (List.dropLast_subset _ hi) e he) hlen
  · subst hi
    rcases GoMap.mem_set cur.metrics k x e he with h | h
    · subst h
      exact hx
    · exact validSlice_mono (hm.2 cur hmem e h) hlen

theorem Metrics.RefsValid.update_same {m : Metrics} (hm : m.RefsValid) (cur : Interval)
    (hcur : m.current = some cur) (k : Str) (x : Metric) (hx : x.slice = none) :
    Metrics.RefsValid (m.setCurrent cur (cur.metrics.set k x)) :=
  hm.update cur hcur k x m.heap (Nat.le_refl _) (by rw [hx]; trivial)

theorem Metrics.bucketsFor_valid {m : Metrics} (hm : m.RefsValid) (s : Str) :
    validSlice (m.bucketsFor s).2 (m.bucketsFor s).1 ∧
      m.heap.length ≤ (m.bucketsFor s).2.length := by
  have hdef : validSlice (NewDefaultLatencyBuckets m.heap).2 (NewDefaultLatencyBuckets m.heap).1 ∧
      m.heap.length ≤ (NewDefaultLatencyBuckets m.heap).2.length := by
    simp [NewDefaultLatencyBuckets, Heap.alloc, validSlice]
  unfold Metrics.bucketsFor
  by_cases h0 : m.buckets.length = 0
  · rw [if_pos h0]
    exact hdef
  · rw [if_neg h0]
    by_cases h1 : longestPrefixOf m.buckets s = []
    · simp only [h1, if_true]
      exact hdef
    · simp only [h1, if_false]
      refine ⟨?_, Nat.le_refl _⟩
      cases hget : m.buckets.get (longestPrefixOf m.buckets s) with
      | none => trivial
      | some sl => exact hm.1 _ (GoMap.get_mem _ _ _ hget)

theorem NewHistogram_valid (heap : Heap) (s : Slice) (hs : validSlice heap s) :
    validSlice (NewHistogram s heap).2 (NewHistogram s heap).1.Buckets ∧
      heap.length ≤ (NewHistogram s heap).2.length := by
  cases s with
  | none => simp [NewHistogram, NewDefaultLatencyBuckets, Heap.alloc, validSlice]
  | some r => exact ⟨hs, Nat.le_refl _⟩

theorem Histogram.Put_valid (h : Histogram) (heap : Heap) (v : ℚ)
    (hs : validSlice heap h.Buckets) :
    validSlice (h.Put heap v).2 (h.Put heap v).1.Buckets ∧
      heap.length ≤ (h.Put heap v).2.length := by
  obtain ⟨e1, -, e3⟩ := Histogram.Put_read h heap v
  rw [e1, putDetached_buckets, e3]
  exact ⟨validSlice_mono hs (Nat.le_of_eq e3.symm), Nat.le_refl _⟩

/-- Every state reachable from `New` keeps its slices inside the heap. -/
theorem Reachable.refsValid {m : Metrics} (h : Reachable m) : m.RefsValid := by
  induction h with
  | init window interval now m h =>
    unfold New at h
    by_cases h0 : interval = 0
    · simp [h0] at h
    · by_cases h1 : Int.tdiv window interval < 1
      · simp [h0, h1] at h
      · simp only [h0, h1, if_false, Option.some.injEq] at h
        subst h
        refine ⟨fun e he => by simp at he, fun i hi e he => ?_⟩
        simp only [List.mem_singleton] at hi
        subst hi
        simp [newInterval] at he
  | rotate m m' _ hr ih =>
    have hnew : ∀ e ∈ (newInterval (m.t + m.interval)).metrics,
        validSlice m.heap e.2.slice := by
      intro e he
      simp [newInterval] at he
    by_cases hfull : m.intervals.length = m.cap
    · cases hl : m.intervals with
      | nil =>
        unfold Metrics.rotate at hr
        simp [hl, ← hfull] at hr
      | cons a tl =>
        rw [Metrics.rotate_at_capacity m a tl hl hfull] at hr
        cases hr
        refine ⟨ih.1, fun i hi => ?_⟩
        simp only [List.mem_append, List.mem_singleton] at hi
        rcases hi with hi | hi
        · exact ih.2 i (by rw [hl]; exact List.mem_cons_of_mem _ hi)
        · subst hi
          exact hnew
    · rw [Metrics.rotate_below_capacity m hfull] at hr
      cases hr
      refine ⟨ih.1, fun i hi => ?_⟩
      simp only [List.mem_append, List.mem_singleton] at hi
      rcases hi with hi | hi
      · exact ih.2 i hi
      · subst hi
        exact hnew
  | add m m' key v _ hop ih =>
    unfold Metrics.Add at hop
    cases hp : keyPath key with
    | none => simp [hp] at hop
    | some p =>
      cases hcur : m.current with
      | none => simp [hp, hcur] at hop
      | some cur =>
        simp only [hp, hcur] at hop
        split at hop
        · cases hop
          exact ih.update_same cur hcur _ _ rfl
        · cases hop
          exact ih.update_same cur hcur _ _ rfl
        · cases hop
  | set m m' key v _ hop ih =>
    unfold Metrics.Set at hop
    cases hp : keyPath key with
    | none => simp [hp] at hop
    | some p =>
      cases hcur : m.current with
      | none => simp [hp, hcur] at hop
      | some cur =>
        simp only [hp, hcur] at hop
        split at hop
        · cases hop
          exact ih.update_same cur hcur _ _ rfl
        · cases hop
          exact ih.update_same cur hcur _ _ rfl
        · cases hop
  | mod m m' key v _ hop ih =>
    unfold Metrics.Mod at hop
    cases hp : keyPath key with
    | none => simp [hp] at hop
    | some p =>
      cases hcur : m.current with
      | none => simp [hp, hcur] at hop
      | some cur =>
        simp only [hp, hcur] at hop
        split at hop
        · split at hop
          · cases hop
          · cases hop
            exact ih.update_same cur hcur _ _ rfl
        · cases hop
          exact ih.update_same cur hcur _ _ rfl
        · cases hop
  | put m m' key v _ hop ih =>
    unfold Metrics.Put at hop
    cases hp : keyPath key with
    | none => simp [hp] at hop
    | some p =>
      cases hcur : m.current with
      | none => simp [hp, hcur] at hop
      | some cur =>
        simp only [hp, hcur] at hop
        split at hop
        · cases hop
          obtain ⟨b1, b2⟩ := Metrics.bucketsFor_valid ih (p ++ kindHistogram)
          obtain ⟨n1, n2⟩ := NewHistogram_valid _ _ b1
          obtain ⟨w1, w2⟩ := Histogram.Put_valid _ _ v n1
          exact ih.update cur hcur _ (Metric.histogram _) _
            (Nat.le_trans b2 (Nat.le_trans n2 w2)) w1
        · rename_i x hx
          cases hop
          have hs : validSlice m.heap x.Buckets := by
            have hmem : cur ∈ m.intervals := by
              rw [Metrics.current_eq_some m cur hcur]
              simp
            exact ih.2 cur hmem _ (GoMap.get_mem _ _ _ hx)
          obtain ⟨w1, w2⟩ := Histogram.Put_valid x m.heap v hs
          exact ih.update cur hcur _ (Metric.histogram _) _ w2 w1
        · cases hop
  | buckets m m' key bs _ hop ih =>
    unfold Metrics.Buckets at hop
    cases hp : keyPath key with
    | none => simp [hp] at hop
    | some p =>
      simp only [hp] at hop
      cases bs with
      | none =>
        cases hop
        refine ⟨fun e he => ?_, ih.2⟩
        rcases GoMap.mem_set m.buckets p none e he with h | h
        · subst h
          trivial
        · exact ih.1 e h
      | some b =>
        cases hop
        have hlen : m.heap.length ≤ (m.heap.alloc b).2.length := by
          simp [Heap.alloc]
        refine ⟨fun e he => ?_, fun i hi e he => validSlice_mono (ih.2 i hi e he) hlen⟩
        rcases GoMap.mem_set m.buckets p (m.heap.alloc b).1 e he with h | h
        · subst h
          simp [Heap.alloc, validSlice]
        · exact validSlice_mono (ih.1 e h) hlen

end GoMetrics
